import Mathlib

/-!
Verification of the `UltimateLinkedList` container
(`src/data-structures/iterator-based-linked-list.js`).

The JavaScript object graph is embedded shallowly: every `Node` object lives in
an arena (`nodes : List (Node α)`) and is addressed by its arena index, so the
doubly-linked pointer structure, the probabilistic skip links (including stale
ones), the shallow transaction snapshot and the change-event machinery are all
modelled exactly as the source mutates them.  Listener callbacks are opaque; we
record the number of registered listeners and a log `delivered` of
`(listener position, event)` invocations in call order.  `undefined` is `none`.
Fuel arguments bound heap traversals; every fuel value used is large enough
that a traversal of a well-formed chain never exhausts it, and the few places
where the source would dereference `null` (impossible on well-formed chains)
are marked in comments.
-/

namespace ULLSpec

set_option maxHeartbeats 8000000

/-- A node of the list: `value`, `next`, `prev`, the skip link, and the
insertion counter used by stable sort (source: `class Node`). -/
structure Node (α : Type) where
  value : Option α
  next : Option Nat
  prev : Option Nat
  skip : Option Nat
  insertionIndex : Nat
  deriving Repr, DecidableEq

/-- Change events (source: objects passed to `_notify`). -/
inductive Event (α : Type) where
  | add (value : α)
  | remove (value : Option α)
  | update (index : Int) (oldValue : Option α) (newValue : α)
  | clear (size : Nat)
  | reverse
  | concat (size : Nat)
  | sort
  | rollback
  deriving Repr, DecidableEq

/-- The snapshot captured by `Transaction.begin`: spread copies of the two
sentinel node objects plus the size. -/
structure Snapshot (α : Type) where
  head : Node α
  tail : Node α
  size : Nat
  deriving Repr, DecidableEq

/-- The `Transaction` object (source: `class Transaction`). -/
structure Transaction (α : Type) where
  snapshot : Option (Snapshot α) := none
  active : Bool := false
  events : List (Event α) := []
  deriving Repr, DecidableEq

/-- The list object (source: `class UltimateLinkedList`).  `head`/`tail` are
arena indices of the sentinel nodes. -/
structure UltimateLinkedList (α : Type) where
  nodes : List (Node α)
  head : Nat
  tail : Nat
  size : Nat
  useSkipLinks : Bool
  observable : Bool
  numListeners : Nat
  delivered : List (Nat × Event α)
  transaction : Option (Transaction α)
  modCount : Nat
  deriving Repr, DecidableEq

variable {α : Type}

/-- A fresh `new Node()` (all fields empty). -/
def emptyNode : Node α := ⟨none, none, none, none, 0⟩

/-- Dereference an arena index (a JS object reference). -/
def getNode (s : UltimateLinkedList α) (i : Nat) : Node α :=
  s.nodes.getD i emptyNode

/-- Mutate the node object at index `i` in place. -/
def setNodeF (s : UltimateLinkedList α) (i : Nat) (f : Node α → Node α) :
    UltimateLinkedList α :=
  { s with nodes := s.nodes.set i (f (getNode s i)) }

def nextOf (s : UltimateLinkedList α) (i : Nat) : Option Nat := (getNode s i).next
def prevOf (s : UltimateLinkedList α) (i : Nat) : Option Nat := (getNode s i).prev
def skipOf (s : UltimateLinkedList α) (i : Nat) : Option Nat := (getNode s i).skip
def valueOf (s : UltimateLinkedList α) (i : Nat) : Option α := (getNode s i).value
def insIdxOf (s : UltimateLinkedList α) (i : Nat) : Nat := (getNode s i).insertionIndex

/-- Deliver one event to every registered listener, in registration order
(the body of the `for (const listener of this._listeners)` loop). -/
def notifyListeners (s : UltimateLinkedList α) (e : Event α) : UltimateLinkedList α :=
  { s with delivered := s.delivered ++ (List.range s.numListeners).map (fun j => (j, e)) }

/-- `_notify`: buffer into the attached transaction, else deliver now. -/
def notify (s : UltimateLinkedList α) (e : Event α) : UltimateLinkedList α :=
  match s.transaction with
  | some t => { s with transaction := some { t with events := t.events ++ [e] } }
  | none => notifyListeners s e

/-- `_addNodeAfter(prev, value)`: link a freshly allocated node after `p`.
The fresh node's arena index is `s.nodes.length`. -/
def addNodeAfter (s : UltimateLinkedList α) (p : Nat) (value : α) :
    UltimateLinkedList α :=
  let nid := s.nodes.length
  let nxt := nextOf s p
  let node : Node α := ⟨some value, nxt, some p, none, s.modCount⟩
  let s1 := { s with nodes := s.nodes ++ [node] }
  let s2 := setNodeF s1 p (fun n => { n with next := some nid })
  let s3 := match nxt with
    | some q => setNodeF s2 q (fun n => { n with prev := some nid })
    | none => s2  -- the source would fault on `next.prev`; unreachable on well-formed chains
  let s4 := { s3 with size := s3.size + 1 }
  if s4.observable && s4.transaction.isNone then notify s4 (.add value) else s4

/-- `_removeNode(node)`: unlink `x` and return its value. -/
def removeNode (s : UltimateLinkedList α) (x : Nat) :
    Option α × UltimateLinkedList α :=
  let p := prevOf s x
  let q := nextOf s x
  let s1 := match p with
    | some pi => setNodeF s pi (fun n => { n with next := q })
    | none => s  -- the source would fault on `prev.next`; unreachable on well-formed chains
  let s2 := match q with
    | some qi => setNodeF s1 qi (fun n => { n with prev := p })
    | none => s1
  let v := valueOf s x
  let s3 := { s2 with size := s2.size - 1 }
  let s4 := if s3.observable && s3.transaction.isNone then notify s3 (.remove v) else s3
  (v, s4)

/-- Structural integer square root (`Math.floor(Math.sqrt(n))` of the
source): climb while the next square still fits.  (A structural definition so
that concrete runs reduce; `isqrt_eq_sqrt` identifies it with `Nat.sqrt`.) -/
def isqrtAux (n : Nat) : Nat → Nat → Nat
  | 0, k => k
  | fuel + 1, k => if (k + 1) * (k + 1) ≤ n then isqrtAux n fuel (k + 1) else k

def isqrt (n : Nat) : Nat := isqrtAux n n 0

/-- The inner walk of `_updateSkipLinks`:
`for (let i = 0; i < skipDistance && target !== this._tail; i++) target = target.next`. -/
def skipTarget (s : UltimateLinkedList α) : Nat → Nat → Nat
  | 0, t => t
  | d + 1, t =>
    if t = s.tail then t
    else match nextOf s t with
      | some u => skipTarget s d u
      | none => t  -- the source would fault on `target.next`; unreachable on well-formed chains

/-- The main loop of `_updateSkipLinks`, walking the chain from `head.next`. -/
def updateSkipLinksLoop (s : UltimateLinkedList α) :
    Nat → Nat → Nat → Nat → UltimateLinkedList α
  | 0, _, _, _ => s
  | fuel + 1, cur, count, d =>
    if cur = s.tail then s
    else
      let s1 := if count % d = 0 then
          setNodeF s cur (fun n => { n with skip := some (skipTarget s d cur) })
        else s
      match nextOf s1 cur with
      | some nx => updateSkipLinksLoop s1 fuel nx (count + 1) d
      | none => s1  -- source: infinite walk / fault; unreachable on well-formed chains

/-- `_updateSkipLinks()`. -/
def updateSkipLinks (s : UltimateLinkedList α) : UltimateLinkedList α :=
  if !s.useSkipLinks || s.size < 8 then s
  else
    let d := max 2 (isqrt s.size)
    match nextOf s s.head with
    | some n0 => updateSkipLinksLoop s (s.nodes.length + 1) n0 0 d
    | none => s  -- unreachable: `head.next` is never null on well-formed chains

/-- Walk `k` successor references (`node = node.next`, `k` times). -/
def walkNext (s : UltimateLinkedList α) : Nat → Nat → Option Nat
  | 0, n => some n
  | k + 1, n =>
    match nextOf s n with
    | some m => walkNext s k m
    | none => none  -- the source faults on a null `next`; unreachable on well-formed chains

/-- Walk `k` predecessor references. -/
def walkPrev (s : UltimateLinkedList α) : Nat → Nat → Option Nat
  | 0, n => some n
  | k + 1, n =>
    match prevOf s n with
    | some m => walkPrev s k m
    | none => none

/-- The skip fast-forward loop of `_nodeAt`:
`while (node.skip && idx + floor(sqrt(size)) <= index) { node = node.skip; idx += ... }`.
`idx` grows by `⌊√size⌋ ≥ 2` per jump and is bounded by `target`, so fuel
`target + 1` is never exhausted. -/
def skipLoop (s : UltimateLinkedList α) : Nat → Nat → Nat → Nat → Nat × Nat
  | 0, n, idx, _ => (n, idx)
  | fuel + 1, n, idx, target =>
    let d := isqrt s.size
    match skipOf s n with
    | some sk => if idx + d ≤ target then skipLoop s fuel sk (idx + d) target else (n, idx)
    | none => (n, idx)

/-- `_nodeAt(index)`: negative resolution, bounds check, then a seek from the
nearer end; the forward seek uses skip links when enabled and `size ≥ 8`.
Returns the arena index of the found node (`none` models the `null` node of
the out-of-bounds result, and also the `null`-dereference the source would
make on a corrupted chain). -/
def nodeAt (s : UltimateLinkedList α) (index : Int) : Option Nat :=
  let index := if index < 0 then (s.size : Int) + index else index
  if index < 0 ∨ (s.size : Int) ≤ index then none
  else
    let i := index.toNat
    if 2 * i ≤ s.size then
      match nextOf s s.head with
      | some n0 =>
        if s.useSkipLinks && 8 ≤ s.size then
          let p := skipLoop s (i + 1) n0 0 i
          walkNext s (i - p.2) p.1
        else
          walkNext s i n0
      | none => none
    else
      match prevOf s s.tail with
      | some nl => walkPrev s (s.size - 1 - i) nl
      | none => none

/-- `get(index)`. -/
def get (s : UltimateLinkedList α) (index : Int) : Option α :=
  match nodeAt s index with
  | some n => valueOf s n
  | none => none

/-- `set(index, value)`: returns the success flag together with the new state. -/
def set (s : UltimateLinkedList α) (index : Int) (value : α) :
    Bool × UltimateLinkedList α :=
  match nodeAt s index with
  | none => (false, s)
  | some n =>
    let oldValue := valueOf s n
    let s1 := setNodeF s n (fun nd => { nd with value := some value })
    let s2 := if s1.observable then notify s1 (.update index oldValue value) else s1
    (true, s2)

/-- `append(value)`. -/
def append (s : UltimateLinkedList α) (value : α) : UltimateLinkedList α :=
  let s1 := { s with modCount := s.modCount + 1 }
  let s2 := match prevOf s1 s1.tail with
    | some p => addNodeAfter s1 p value
    | none => s1  -- unreachable: `tail.prev` is never null on well-formed chains
  if s2.useSkipLinks && s2.size % isqrt s2.size = 0 then updateSkipLinks s2 else s2

/-- `prepend(value)`. -/
def prepend (s : UltimateLinkedList α) (value : α) : UltimateLinkedList α :=
  let s1 := { s with modCount := s.modCount + 1 }
  let s2 := addNodeAfter s1 s1.head value
  if s2.useSkipLinks && s2.size % isqrt s2.size = 0 then updateSkipLinks s2 else s2

/-- `Transaction.begin()` (reading the bound list for the snapshot). -/
def transactionBegin (t : Transaction α) (s : UltimateLinkedList α) : Transaction α :=
  if t.active then t
  else { t with active := true,
                snapshot := some ⟨getNode s s.head, getNode s s.tail, s.size⟩ }

/-- `Transaction.commit()`: deactivate, detach, flush buffered events
(outer loop over events, inner loop over listeners), clear the buffer.
Returns the updated transaction object (the caller's handle) and list. -/
def transactionCommit (t : Transaction α) (s : UltimateLinkedList α) :
    Transaction α × UltimateLinkedList α :=
  if !t.active then (t, s)
  else
    let s1 := { s with transaction := none }
    let log := t.events.foldl
      (fun acc e => acc ++ (List.range s1.numListeners).map (fun j => (j, e)))
      s1.delivered
    let s2 := { s1 with delivered := log }
    ({ t with active := false, events := [] }, s2)

/-- `Transaction.rollback()`: if active, install the snapshot copies of the
sentinels (fresh objects whose pointers are the begin-time ones), restore the
size, detach, clear the buffer, and notify listeners of a `rollback` event
directly (bypassing `_notify`). -/
def transactionRollback (t : Transaction α) (s : UltimateLinkedList α) :
    Transaction α × UltimateLinkedList α :=
  if !t.active then (t, s)
  else match t.snapshot with
    | none => (t, s)
    | some snap =>
      let hid := s.nodes.length
      let tid := s.nodes.length + 1
      let s1 := { s with nodes := s.nodes ++ [snap.head, snap.tail],
                         head := hid, tail := tid, size := snap.size,
                         transaction := none }
      let t1 : Transaction α := { t with active := false, events := [] }
      let s2 := { s1 with delivered :=
        s1.delivered ++ (List.range s1.numListeners).map (fun j => (j, Event.rollback)) }
      (t1, s2)

/-- `beginTransaction()`: return the attached transaction, creating an
(inactive) one if none is attached.  The second component is the caller's
handle to the transaction object. -/
def beginTransaction (s : UltimateLinkedList α) :
    UltimateLinkedList α × Transaction α :=
  match s.transaction with
  | some t => (s, t)
  | none =>
    let t : Transaction α := { snapshot := none, active := false, events := [] }
    ({ s with transaction := some t }, t)

/-- A user-level `t.begin()` on the transaction attached to the list. -/
def transactionBeginAttached (s : UltimateLinkedList α) : UltimateLinkedList α :=
  match s.transaction with
  | some t => { s with transaction := some (transactionBegin t s) }
  | none => s

/-- The `for (const value of values)` loop of `push`. -/
def pushLoop (s : UltimateLinkedList α) : List α → UltimateLinkedList α
  | [] => s
  | v :: vs =>
    let s1 := match prevOf s s.tail with
      | some p => addNodeAfter s p v
      | none => s  -- unreachable on well-formed chains
    pushLoop s1 vs

/-- `push(...values)`: bumps the counter, begins the attached transaction (!),
appends the values, refreshes skip links, and commits the attached
transaction (!).  Returns the new state together with the final state of the
transaction object it touched (the caller's handle), if any. -/
def push (s : UltimateLinkedList α) (values : List α) :
    UltimateLinkedList α × Option (Transaction α) :=
  let s1 := { s with modCount := s.modCount + 1 }
  let s2 := match s1.transaction with
    | some t => { s1 with transaction := some (transactionBegin t s1) }
    | none => s1
  let s3 := pushLoop s2 values
  let s4 := if s3.useSkipLinks && values.length > 0 then updateSkipLinks s3 else s3
  match s4.transaction with
  | some t =>
    let r := transactionCommit t s4
    (r.2, some r.1)
  | none => (s4, none)

/-- `pop()`. -/
def pop (s : UltimateLinkedList α) : Option α × UltimateLinkedList α :=
  if s.size = 0 then (none, s)
  else
    let s1 := { s with modCount := s.modCount + 1 }
    match prevOf s1 s1.tail with
    | some p => removeNode s1 p
    | none => (none, s1)  -- unreachable on well-formed chains

/-- `shift()`. -/
def shift (s : UltimateLinkedList α) : Option α × UltimateLinkedList α :=
  if s.size = 0 then (none, s)
  else
    let s1 := { s with modCount := s.modCount + 1 }
    match nextOf s1 s1.head with
    | some n => removeNode s1 n
    | none => (none, s1)  -- unreachable on well-formed chains

/-- `insertAt(value, index)`: note the `size + index + 1` resolution of
negative indices ("+1 for insertion semantics" in the source), the
`RangeError` on out-of-range resolved indices, and the fast paths that
delegate to `prepend`/`append` (which bump the counter a second time). -/
def insertAt (s : UltimateLinkedList α) (value : α) (index : Int) :
    Except String (UltimateLinkedList α) :=
  let index := if index < 0 then (s.size : Int) + index + 1 else index
  if index < 0 ∨ (s.size : Int) < index then
    .error "Index out of bounds"
  else
    let s1 := { s with modCount := s.modCount + 1 }
    if index = 0 then .ok (prepend s1 value)
    else if index = (s1.size : Int) then .ok (append s1 value)
    else
      match nodeAt s1 (index - 1) with
      | some p =>
        let s2 := addNodeAfter s1 p value
        .ok (if s2.useSkipLinks && s2.size % isqrt s2.size = 0
             then updateSkipLinks s2 else s2)
      | none => .ok s1  -- the source would fault on a null node; unreachable in range

/-- `removeAt(index)`. -/
def removeAt (s : UltimateLinkedList α) (index : Int) :
    Option α × UltimateLinkedList α :=
  match nodeAt s index with
  | none => (none, s)
  | some x =>
    let s1 := { s with modCount := s.modCount + 1 }
    let r := removeNode s1 x
    let s2 := if r.2.useSkipLinks ∧ 0 < r.2.size ∧ r.2.size % isqrt (r.2.size * 2) = 0
              then updateSkipLinks r.2 else r.2
    (r.1, s2)

/-- `clear()`. -/
def clear (s : UltimateLinkedList α) : UltimateLinkedList α :=
  if s.size = 0 then s
  else
    let s1 := { s with modCount := s.modCount + 1 }
    let s2 := if s1.observable then notify s1 (.clear s1.size) else s1
    let s3 := setNodeF s2 s2.head (fun n => { n with next := some s2.tail })
    let s4 := setNodeF s3 s3.tail (fun n => { n with prev := some s3.head })
    { s4 with size := 0 }

/-- The pointer-swapping walk of `reverse()`, following the original `next`
references (read into `temp` before the swap). -/
def reverseLoop (s : UltimateLinkedList α) : Nat → Option Nat → UltimateLinkedList α
  | 0, _ => s
  | _, none => s
  | fuel + 1, some n =>
    let tmp := nextOf s n
    let s1 := setNodeF s n (fun nd => { nd with next := nd.prev, prev := tmp })
    reverseLoop s1 fuel tmp

/-- `reverse()`. -/
def reverse (s : UltimateLinkedList α) : UltimateLinkedList α :=
  if s.size < 2 then s
  else
    let s1 := { s with modCount := s.modCount + 1 }
    let s2 := reverseLoop s1 (s1.nodes.length + 2) (some s1.head)
    let s3 := { s2 with head := s2.tail, tail := s2.head }
    let s4 := if s3.useSkipLinks then updateSkipLinks s3 else s3
    if s4.observable then notify s4 (.reverse) else s4

/-- The collection loop of `sort()`: gather `{value, insertionIndex}` pairs
along the chain. -/
def collectPairs (s : UltimateLinkedList α) : Nat → Nat → List (Option α × Nat)
  | 0, _ => []
  | fuel + 1, cur =>
    if cur = s.tail then []
    else
      match nextOf s cur with
      | some nx => (valueOf s cur, insIdxOf s cur) :: collectPairs s fuel nx
      | none => [(valueOf s cur, insIdxOf s cur)]  -- source faults; unreachable on well-formed chains

/-- `compareWithIndex`: the user comparator with ties broken by
`insertionIndex` difference. -/
def compareWithIndex (cmp : Option α → Option α → Int) (a b : Option α × Nat) : Int :=
  let r := cmp a.1 b.1
  if r = 0 then (a.2 : Int) - (b.2 : Int) else r

/-- The write-back loop of `sort()`: rewrite values along the existing chain. -/
def writeValues (s : UltimateLinkedList α) :
    Nat → Nat → List (Option α × Nat) → UltimateLinkedList α
  | 0, _, _ => s
  | _, _, [] => s
  | fuel + 1, cur, v :: vs =>
    let s1 := setNodeF s cur (fun nd => { nd with value := v.1 })
    match nextOf s1 cur with
    | some nx => writeValues s1 fuel nx vs
    | none => s1

/-- `sort(compareFn)`.  `Array.prototype.sort` is stable, so the array sort of
the `{value, insertionIndex}` records is modelled by `List.mergeSort` on the
`compareWithIndex ≤ 0` order.  (The dead `const arr = this.toArray()` of the
source is omitted.)  JS values may be `undefined`, so the comparator is taken
on `Option α`. -/
def sort (s : UltimateLinkedList α) (cmp : Option α → Option α → Int) :
    UltimateLinkedList α :=
  if s.size ≤ 1 then s
  else
    let s1 := { s with modCount := s.modCount + 1 }
    let pairs := match nextOf s1 s1.head with
      | some n0 => collectPairs s1 (s1.nodes.length + 1) n0
      | none => []
    let sorted := pairs.mergeSort (fun a b => compareWithIndex cmp a b ≤ 0)
    let s2 := match nextOf s1 s1.head with
      | some n0 => writeValues s1 (s1.nodes.length + 1) n0 sorted
      | none => s1
    if s2.observable then notify s2 (.sort) else s2

/-- Re-base a donor node's pointers into the merged arena (object identity
across the two JS heaps is modelled by shifting the donor's indices). -/
def shiftNode (off : Nat) (n : Node α) : Node α :=
  { n with next := n.next.map (· + off), prev := n.prev.map (· + off),
           skip := n.skip.map (· + off) }

/-- `concat(other)` for another `UltimateLinkedList`: O(1) splice that empties
the donor.  The donor's node objects join this list's arena at offset
`s.nodes.length`. -/
def concat (s other : UltimateLinkedList α) :
    UltimateLinkedList α × UltimateLinkedList α :=
  if other.size = 0 then (s, other)
  else
    let off := s.nodes.length
    let s1 := { s with nodes := s.nodes ++ other.nodes.map (shiftNode off),
                       modCount := s.modCount + 1 }
    match nextOf other other.head, prevOf other other.tail, prevOf s1 s1.tail with
    | some oh, some ot, some tl =>
      let oh := oh + off
      let ot := ot + off
      let s2 := setNodeF s1 tl (fun n => { n with next := some oh })
      let s3 := setNodeF s2 oh (fun n => { n with prev := some tl })
      let s4 := setNodeF s3 ot (fun n => { n with next := some s3.tail })
      let s5 := setNodeF s4 s4.tail (fun n => { n with prev := some ot })
      let s6 := { s5 with size := s5.size + other.size }
      let o1 := setNodeF other other.head (fun n => { n with next := some other.tail })
      let o2 := setNodeF o1 o1.tail (fun n => { n with prev := some o1.head })
      let o3 := { o2 with size := 0 }
      let s7 := if s6.useSkipLinks then updateSkipLinks s6 else s6
      let s8 := if s7.observable then notify s7 (.concat s7.size) else s7
      (s8, o3)
    | _, _, _ => (s1, other)  -- the source would fault on null; unreachable on well-formed chains

/-- The walk of `toArray()`; `none` marks the `null`-dereference the source
would make on a corrupted chain. -/
def toArrayLoop (s : UltimateLinkedList α) : Nat → Nat → Option (List (Option α))
  | 0, _ => none
  | fuel + 1, cur =>
    if cur = s.tail then some []
    else
      match nextOf s cur with
      | some nx => (toArrayLoop s fuel nx).map (valueOf s cur :: ·)
      | none => none

/-- `toArray()`. -/
def toArray (s : UltimateLinkedList α) : Option (List (Option α)) :=
  match nextOf s s.head with
  | some n0 => toArrayLoop s (s.nodes.length + 1) n0
  | none => none

/-- `addChangeListener(listener)`: register one more (opaque) listener. -/
def addChangeListener (s : UltimateLinkedList α) : UltimateLinkedList α :=
  { s with numListeners := s.numListeners + 1 }

/-- State of the native iterator closure (`[Symbol.iterator]`):
the captured counter and the current node reference. -/
structure ListIterator where
  expectedModCount : Nat
  node : Nat
  deriving Repr, DecidableEq

/-- `this[Symbol.iterator]()`: start at the head sentinel. -/
def iter (s : UltimateLinkedList α) : ListIterator := ⟨s.modCount, s.head⟩

/-- One `next()` call of the native iterator: fail on a counter mismatch,
advance, report done at the tail sentinel, else yield the value.
`ok (none, _)` is the `{done: true}` result. -/
def iterNext (s : UltimateLinkedList α) (it : ListIterator) :
    Except String (Option (Option α) × ListIterator) :=
  if it.expectedModCount ≠ s.modCount then
    .error "Concurrent modification during iteration"
  else
    match nextOf s it.node with
    | none => .error "null dereference"  -- source faults; unreachable on well-formed chains
    | some n =>
      if n = s.tail then .ok (none, { it with node := n })
      else .ok (some (valueOf s n), { it with node := n })

/-- Run the native iterator to completion, collecting the yielded values. -/
def iterRun (s : UltimateLinkedList α) : Nat → ListIterator → Except String (List (Option α))
  | 0, _ => .error "fuel"
  | fuel + 1, it =>
    match iterNext s it with
    | .error e => .error e
    | .ok (none, _) => .ok []
    | .ok (some v, it1) => (iterRun s fuel it1).map (v :: ·)

/-- `new UltimateLinkedList()` with no iterable: just the linked sentinels. -/
def mkEmpty (skipLinks observable : Bool) : UltimateLinkedList α :=
  { nodes := [{ value := none, next := some 1, prev := none, skip := none, insertionIndex := 0 },
              { value := none, next := none, prev := some 0, skip := none, insertionIndex := 0 }],
    head := 0, tail := 1, size := 0, useSkipLinks := skipLinks,
    observable := observable, numListeners := 0, delivered := [],
    transaction := none, modCount := 0 }

/-- The constructor: sentinels, then `this.push(...iterable)` when an iterable
is given (even an empty one), then `_updateSkipLinks()` when enabled. -/
def ofListWith (skipLinks observable : Bool) (iterable : Option (List α)) :
    UltimateLinkedList α :=
  let s := mkEmpty skipLinks observable
  let s1 := match iterable with
    | some vs => (push s vs).1
    | none => s
  if s1.useSkipLinks then updateSkipLinks s1 else s1

/-- `UltimateLinkedList.of(...)` / `from` with default options. -/
def ofList (vs : List α) : UltimateLinkedList α := ofListWith true false (some vs)

/-! ## Well-formedness of the pointer chain

`Linked s a c b` says that starting from node `a`, the successor references
run exactly through the arena indices `c` and then reach `b`, with consistent
back references.  `WFc s c` is the representation invariant: the chain between
the sentinels is `c`, all ids are distinct and in-arena, and the stored `size`
is the chain length. -/

/-- `a`'s successor is `b`, and `b`'s predecessor is `a`. -/
def IsLink (s : UltimateLinkedList α) (a b : Nat) : Prop :=
  nextOf s a = some b ∧ prevOf s b = some a

instance (s : UltimateLinkedList α) (a b : Nat) : Decidable (IsLink s a b) :=
  inferInstanceAs (Decidable (_ ∧ _))

/-- The successor chain from `a` runs through `c` and ends at `b`. -/
def Linked (s : UltimateLinkedList α) : Nat → List Nat → Nat → Prop
  | a, [], b => IsLink s a b
  | a, x :: xs, b => IsLink s a x ∧ Linked s x xs b

instance instDecidableLinked (s : UltimateLinkedList α) :
    ∀ (a : Nat) (c : List Nat) (b : Nat), Decidable (Linked s a c b)
  | a, [], b => inferInstanceAs (Decidable (IsLink s a b))
  | a, x :: xs, b =>
    haveI := instDecidableLinked s x xs b
    inferInstanceAs (Decidable (IsLink s a x ∧ Linked s x xs b))

/-- The representation invariant relating a list state to its element chain. -/
structure WFc (s : UltimateLinkedList α) (c : List Nat) : Prop where
  linked : Linked s s.head c s.tail
  nodup : (s.head :: c ++ [s.tail]).Nodup
  bounded : ∀ i ∈ s.head :: c ++ [s.tail], i < s.nodes.length
  size_eq : s.size = c.length
  head_prev : prevOf s s.head = none
  tail_next : nextOf s s.tail = none

@[simp] theorem linked_nil {s : UltimateLinkedList α} {a b : Nat} :
    Linked s a [] b ↔ IsLink s a b := Iff.rfl

@[simp] theorem linked_cons {s : UltimateLinkedList α} {a x b : Nat} {xs : List Nat} :
    Linked s a (x :: xs) b ↔ IsLink s a x ∧ Linked s x xs b := Iff.rfl

theorem linked_append {s : UltimateLinkedList α} {a y b : Nat} :
    ∀ {xs ys : List Nat}, Linked s a (xs ++ y :: ys) b ↔ Linked s a xs y ∧ Linked s y ys b := by
  intro xs
  induction xs generalizing a with
  | nil => simp
  | cons x xs ih => intro ys; simp [ih, and_assoc]

theorem linked_concat {s : UltimateLinkedList α} {a y b : Nat} {xs : List Nat} :
    Linked s a (xs ++ [y]) b ↔ Linked s a xs y ∧ IsLink s y b := by
  simpa using (@linked_append α s a y b xs [])

/-- Links are determined by the `next` fields of the sources `a :: c` and the
`prev` fields of the targets `c ++ [b]`. -/
theorem Linked.congr {s s2 : UltimateLinkedList α} :
    ∀ {a b : Nat} {c : List Nat},
      (∀ i ∈ a :: c, nextOf s2 i = nextOf s i) →
      (∀ i ∈ c ++ [b], prevOf s2 i = prevOf s i) →
      Linked s a c b → Linked s2 a c b := by
  intro a b c
  induction c generalizing a with
  | nil =>
    intro hn hp h
    exact ⟨(hn a (by simp)).trans h.1, (hp b (by simp)).trans h.2⟩
  | cons x xs ih =>
    intro hn hp h
    refine ⟨⟨(hn a (by simp)).trans h.1.1, (hp x (by simp)).trans h.1.2⟩, ?_⟩
    exact ih (fun i hi => hn i (by simp at hi ⊢; tauto))
      (fun i hi => hp i (by simp at hi ⊢; tauto)) h.2

/-- Walking `k` successor steps from `a` along a linked chain lands on the
`k`-th element of `a :: c ++ [b]`. -/
theorem walkNext_linked {s : UltimateLinkedList α} :
    ∀ {a b : Nat} {c : List Nat}, Linked s a c b →
      ∀ k, k ≤ c.length + 1 → walkNext s k a = (a :: c ++ [b])[k]? := by
  intro a b c
  induction c generalizing a with
  | nil =>
    intro h k hk
    match k with
    | 0 => simp [walkNext]
    | 1 => simp [walkNext, h.1]
    | k + 2 => simp at hk
  | cons x xs ih =>
    intro h k hk
    match k with
    | 0 => simp [walkNext]
    | k + 1 =>
      have := ih h.2 k (by simp at hk ⊢; omega)
      simp only [walkNext, h.1.1]
      simpa using this

/-- Walking `k` predecessor steps from `b` along a linked chain lands on the
element `c.length + 1 - k` of `a :: c ++ [b]`. -/
theorem walkPrev_linked {s : UltimateLinkedList α} {a b : Nat} {c : List Nat}
    (h : Linked s a c b) :
    ∀ k, k ≤ c.length + 1 → walkPrev s k b = (a :: c ++ [b])[c.length + 1 - k]? := by
  induction c using List.reverseRecOn generalizing b with
  | nil =>
    intro k hk
    match k with
    | 0 => simp [walkPrev]
    | 1 => simp [walkPrev, h.2]
    | k + 2 => simp at hk
  | append_singleton xs y ih =>
    rw [linked_concat] at h
    intro k hk
    match k with
    | 0 =>
      simp only [walkPrev]
      rw [show a :: (xs ++ [y]) ++ [b] = (a :: xs ++ [y]) ++ [b] by simp]
      rw [List.getElem?_append_right (by simp)]
      simp
    | k + 1 =>
      have step : walkPrev s (k + 1) b = walkPrev s k y := by
        simp [walkPrev, h.2.2]
      rw [step, ih h.1 k (by simp at hk ⊢; omega)]
      have hidx : (xs ++ [y]).length + 1 - (k + 1) = xs.length + 1 - k := by
        simp only [List.length_append, List.length_singleton]; omega
      rw [hidx]
      have hlt : xs.length + 1 - k < (a :: xs ++ [y]).length := by simp; omega
      rw [show a :: (xs ++ [y]) ++ [b] = (a :: xs ++ [y]) ++ [b] by simp,
        List.getElem?_append_left hlt]

/-! ### Primitive state-update lemmas -/

@[simp] theorem setNodeF_head (s : UltimateLinkedList α) (i f) :
    (setNodeF s i f).head = s.head := rfl
@[simp] theorem setNodeF_tail (s : UltimateLinkedList α) (i f) :
    (setNodeF s i f).tail = s.tail := rfl
@[simp] theorem setNodeF_size (s : UltimateLinkedList α) (i f) :
    (setNodeF s i f).size = s.size := rfl
@[simp] theorem setNodeF_modCount (s : UltimateLinkedList α) (i f) :
    (setNodeF s i f).modCount = s.modCount := rfl
@[simp] theorem setNodeF_useSkipLinks (s : UltimateLinkedList α) (i f) :
    (setNodeF s i f).useSkipLinks = s.useSkipLinks := rfl
@[simp] theorem setNodeF_observable (s : UltimateLinkedList α) (i f) :
    (setNodeF s i f).observable = s.observable := rfl
@[simp] theorem setNodeF_numListeners (s : UltimateLinkedList α) (i f) :
    (setNodeF s i f).numListeners = s.numListeners := rfl
@[simp] theorem setNodeF_delivered (s : UltimateLinkedList α) (i f) :
    (setNodeF s i f).delivered = s.delivered := rfl
@[simp] theorem setNodeF_transaction (s : UltimateLinkedList α) (i f) :
    (setNodeF s i f).transaction = s.transaction := rfl
@[simp] theorem setNodeF_nodes_length (s : UltimateLinkedList α) (i f) :
    (setNodeF s i f).nodes.length = s.nodes.length := by
  simp [setNodeF]

theorem getNode_setNodeF_self {s : UltimateLinkedList α} {i : Nat} (f)
    (h : i < s.nodes.length) : getNode (setNodeF s i f) i = f (getNode s i) := by
  simp [getNode, setNodeF, List.getElem?_set_self h]

theorem getNode_setNodeF_ne {s : UltimateLinkedList α} {i j : Nat} (f)
    (h : j ≠ i) : getNode (setNodeF s i f) j = getNode s j := by
  simp [getNode, setNodeF, List.getElem?_set_ne (Ne.symm h)]

@[simp] theorem notifyListeners_nodes (s : UltimateLinkedList α) (e) :
    (notifyListeners s e).nodes = s.nodes := rfl
@[simp] theorem notifyListeners_head (s : UltimateLinkedList α) (e) :
    (notifyListeners s e).head = s.head := rfl
@[simp] theorem notifyListeners_tail (s : UltimateLinkedList α) (e) :
    (notifyListeners s e).tail = s.tail := rfl
@[simp] theorem notifyListeners_size (s : UltimateLinkedList α) (e) :
    (notifyListeners s e).size = s.size := rfl
@[simp] theorem notifyListeners_modCount (s : UltimateLinkedList α) (e) :
    (notifyListeners s e).modCount = s.modCount := rfl
@[simp] theorem notifyListeners_useSkipLinks (s : UltimateLinkedList α) (e) :
    (notifyListeners s e).useSkipLinks = s.useSkipLinks := rfl
@[simp] theorem notifyListeners_observable (s : UltimateLinkedList α) (e) :
    (notifyListeners s e).observable = s.observable := rfl

@[simp] theorem notify_nodes (s : UltimateLinkedList α) (e) :
    (notify s e).nodes = s.nodes := by
  unfold notify; cases s.transaction <;> rfl
@[simp] theorem notify_head (s : UltimateLinkedList α) (e) :
    (notify s e).head = s.head := by
  unfold notify; cases s.transaction <;> rfl
@[simp] theorem notify_tail (s : UltimateLinkedList α) (e) :
    (notify s e).tail = s.tail := by
  unfold notify; cases s.transaction <;> rfl
@[simp] theorem notify_size (s : UltimateLinkedList α) (e) :
    (notify s e).size = s.size := by
  unfold notify; cases s.transaction <;> rfl
@[simp] theorem notify_modCount (s : UltimateLinkedList α) (e) :
    (notify s e).modCount = s.modCount := by
  unfold notify; cases s.transaction <;> rfl
@[simp] theorem notify_useSkipLinks (s : UltimateLinkedList α) (e) :
    (notify s e).useSkipLinks = s.useSkipLinks := by
  unfold notify; cases s.transaction <;> rfl
@[simp] theorem notify_observable (s : UltimateLinkedList α) (e) :
    (notify s e).observable = s.observable := by
  unfold notify; cases s.transaction <;> rfl

/-- `getNode` through any node-field projection only depends on `s.nodes`. -/
theorem getNode_eq_of_nodes_eq {s s2 : UltimateLinkedList α}
    (h : s2.nodes = s.nodes) (i : Nat) : getNode s2 i = getNode s i := by
  simp [getNode, h]

/-- A duplicate-free list of naturals below `n` has at most `n` elements. -/
theorem length_le_of_nodup_bounded {l : List Nat} {n : Nat}
    (hd : l.Nodup) (hb : ∀ i ∈ l, i < n) : l.length ≤ n := by
  have hsub : l.toFinset ⊆ Finset.range n := by
    intro i hi
    simp only [List.mem_toFinset] at hi
    exact Finset.mem_range.mpr (hb i hi)
  have := Finset.card_le_card hsub
  rwa [List.toFinset_card_of_nodup hd, Finset.card_range] at this

/-- The climb of `isqrtAux` computes the integer square root. -/
theorem isqrtAux_spec (n : Nat) :
    ∀ (fuel k : Nat), k * k ≤ n → n < (k + fuel + 1) * (k + fuel + 1) →
      isqrtAux n fuel k * isqrtAux n fuel k ≤ n ∧
      n < (isqrtAux n fuel k + 1) * (isqrtAux n fuel k + 1) := by
  intro fuel
  induction fuel with
  | zero =>
    intro k hk hk2
    exact ⟨hk, by simpa using hk2⟩
  | succ fuel ih =>
    intro k hk hk2
    rw [isqrtAux]
    by_cases h : (k + 1) * (k + 1) ≤ n
    · rw [if_pos h]
      exact ih (k + 1) h (by
        have : k + 1 + fuel + 1 = k + (fuel + 1) + 1 := by omega
        rw [this]
        exact hk2)
    · rw [if_neg h]
      exact ⟨hk, by omega⟩

/-- `isqrt` agrees with `Nat.sqrt`. -/
theorem isqrt_eq_sqrt (n : Nat) : isqrt n = Nat.sqrt n := by
  obtain ⟨h1, h2⟩ := isqrtAux_spec n n 0 (by simp) (by nlinarith)
  have hle : isqrt n ≤ Nat.sqrt n := Nat.le_sqrt.mpr h1
  have hge : Nat.sqrt n < isqrt n + 1 := Nat.sqrt_lt.mpr (by
    simpa [isqrt, pow_two] using h2)
  omega

namespace WFc

variable {s : UltimateLinkedList α} {c : List Nat}

theorem chain_nodup (wf : WFc s c) : c.Nodup :=
  wf.nodup.of_append_left.of_cons

theorem head_not_mem (wf : WFc s c) : s.head ∉ c := by
  have h := wf.nodup.of_append_left
  rw [List.nodup_cons] at h
  exact h.1

theorem tail_not_mem (wf : WFc s c) : s.tail ∉ c := by
  have h := wf.nodup
  rw [List.nodup_append] at h
  exact fun hm => h.2.2 (List.mem_cons_of_mem _ hm) (by simp)

theorem head_ne_tail (wf : WFc s c) : s.head ≠ s.tail := by
  have h := wf.nodup
  rw [List.nodup_append] at h
  exact fun he => h.2.2 (List.mem_cons_self _ _) (by simp [he])

theorem head_lt (wf : WFc s c) : s.head < s.nodes.length :=
  wf.bounded s.head (by simp)

theorem tail_lt (wf : WFc s c) : s.tail < s.nodes.length :=
  wf.bounded s.tail (by simp)

theorem mem_lt (wf : WFc s c) {i : Nat} (h : i ∈ c) : i < s.nodes.length :=
  wf.bounded i (by simp [h])

theorem full_len_le (wf : WFc s c) : c.length + 2 ≤ s.nodes.length := by
  have h := length_le_of_nodup_bounded wf.nodup wf.bounded
  simp only [List.length_cons, List.length_append, List.length_singleton] at h
  omega

theorem size_le (wf : WFc s c) : s.size ≤ s.nodes.length := by
  have := wf.full_len_le
  rw [wf.size_eq]; omega

end WFc

/-- The collecting walk of `toArray` along a linked chain. -/
theorem toArrayLoop_linked {s : UltimateLinkedList α} :
    ∀ {c : List Nat} {a x : Nat}, Linked s a c s.tail → s.tail ∉ c →
      nextOf s a = some x →
      ∀ fuel, c.length < fuel → toArrayLoop s fuel x = some (c.map (valueOf s)) := by
  intro c
  induction c with
  | nil =>
    intro a x h _ hx fuel hf
    match fuel with
    | fuel + 1 =>
      have : x = s.tail := by
        have h1 := h.1; rw [hx] at h1; exact Option.some_inj.mp h1
      simp [toArrayLoop, this]
  | cons y c' ih =>
    intro a x h ht hx fuel hf
    match fuel with
    | fuel + 1 =>
      have hxy : x = y := by
        have h1 := h.1.1; rw [hx] at h1; exact Option.some_inj.mp h1
      subst hxy
      have hyt : x ≠ s.tail := fun hh => ht (by simp [hh])
      have hnx : ∃ x2, nextOf s x = some x2 := by
        match c' , h.2 with
        | [], h2 => exact ⟨s.tail, h2.1⟩
        | z :: c'', h2 => exact ⟨z, h2.1.1⟩
      obtain ⟨x2, hx2⟩ := hnx
      have := ih h.2 (fun hh => ht (by simp [hh])) hx2 fuel (by simp at hf ⊢; omega)
      simp [toArrayLoop, hyt, hx2, this]

/-- On a well-formed list, `toArray` returns exactly the chain's values. -/
theorem toArray_wf {s : UltimateLinkedList α} {c : List Nat} (wf : WFc s c) :
    toArray s = some (c.map (valueOf s)) := by
  unfold toArray
  have hx : ∃ x, nextOf s s.head = some x := by
    match c, wf.linked with
    | [], h => exact ⟨s.tail, h.1⟩
    | y :: c', h => exact ⟨y, h.1.1⟩
  obtain ⟨x, hx⟩ := hx
  rw [hx]
  exact toArrayLoop_linked wf.linked wf.tail_not_mem hx _
    (by have := wf.full_len_le; omega)

theorem Linked.next_head {s : UltimateLinkedList α} {a b : Nat} {c : List Nat}
    (h : Linked s a c b) : ∃ x, nextOf s a = some x :=
  match c, h with
  | [], h => ⟨b, h.1⟩
  | y :: _, h => ⟨y, h.1.1⟩

theorem Linked.prev_last {s : UltimateLinkedList α} {a b : Nat} {c : List Nat}
    (h : Linked s a c b) : ∃ x, prevOf s b = some x := by
  rcases List.eq_nil_or_concat c with rfl | ⟨xs, y, rfl⟩
  · exact ⟨a, h.2⟩
  · rw [List.concat_eq_append, linked_concat] at h
    exact ⟨y, h.2.2⟩

/-- The resolved index of `_nodeAt`/`get`/`set`/`removeAt`
(negative indices are taken from the end, like `Array.at`). -/
def resolveIndex (s : UltimateLinkedList α) (i : Int) : Int :=
  if i < 0 then (s.size : Int) + i else i

/-- `_nodeAt` is `null` whenever the resolved index is out of range
(no well-formedness needed: the bounds check precedes any traversal). -/
theorem nodeAt_oob {s : UltimateLinkedList α} {i : Int}
    (h : resolveIndex s i < 0 ∨ (s.size : Int) ≤ resolveIndex s i) :
    nodeAt s i = none := by
  unfold nodeAt
  rw [if_pos]
  exact h

/-- On a well-formed list with skip links disabled, `_nodeAt` finds exactly
the chain node at the resolved index. -/
theorem nodeAt_wf {s : UltimateLinkedList α} {c : List Nat} (wf : WFc s c)
    (hs : s.useSkipLinks = false) {i : Int}
    (h0 : 0 ≤ resolveIndex s i) (h1 : resolveIndex s i < (s.size : Int)) :
    nodeAt s i = (c)[(resolveIndex s i).toNat]? := by
  set k : Nat := (resolveIndex s i).toNat with hkdef
  have hki : resolveIndex s i = (k : Int) := by
    rw [hkdef]; exact (Int.toNat_of_nonneg h0).symm
  have hklt : k < c.length := by
    rw [← wf.size_eq]; exact_mod_cast hki ▸ h1
  unfold nodeAt
  rw [show (if i < 0 then (s.size : Int) + i else i) = resolveIndex s i from rfl]
  rw [if_neg (by push_neg; exact ⟨h0, h1⟩), hki]
  simp only [Int.toNat_ofNat, Int.toNat_natCast]
  have hsize : s.size = c.length := wf.size_eq
  by_cases hhalf : 2 * k ≤ s.size
  · -- seek from the start; with skip links disabled this is the linear walk
    rw [if_pos hhalf]
    match c, hklt, wf.linked with
    | y :: c', hklt, hl =>
      simp only [hl.1.1, hs, Bool.false_and, Bool.false_eq_true, if_false]
      rw [walkNext_linked hl.2 k (by simp at hklt ⊢; omega)]
      rw [show y :: c' ++ [s.tail] = (y :: c') ++ [s.tail] from rfl,
        List.getElem?_append_left (by simpa using hklt)]
  · -- seek from the end: walk `size - 1 - k` predecessor references
    rw [if_neg hhalf]
    obtain ⟨nl, hnl⟩ := wf.linked.prev_last
    simp only [hnl]
    have hstep : walkPrev s (s.size - 1 - k + 1) s.tail = walkPrev s (s.size - 1 - k) nl := by
      simp [walkPrev, hnl]
    rw [← hstep, walkPrev_linked wf.linked (s.size - 1 - k + 1) (by omega)]
    have hidx : c.length + 1 - (s.size - 1 - k + 1) = k + 1 := by omega
    rw [hidx, show s.head :: c ++ [s.tail] = (s.head :: c) ++ [s.tail] from rfl,
      List.getElem?_append_left (by simp; omega)]
    simp [List.getElem?_cons_succ]

/-! ### Characterization of `_addNodeAfter` -/

theorem setNodeF_oob {s : UltimateLinkedList α} {i : Nat} (f)
    (h : s.nodes.length ≤ i) : setNodeF s i f = s := by
  simp [setNodeF, List.set_eq_of_length_le h]

theorem getNode_append_lt {s : UltimateLinkedList α} {j : Nat} (l : List (Node α))
    (h : j < s.nodes.length) :
    getNode { s with nodes := s.nodes ++ l } j = getNode s j := by
  simp [getNode, List.getElem?_append_left h]

theorem getNode_append_ge {s : UltimateLinkedList α} {j : Nat} (l : List (Node α))
    (h : s.nodes.length ≤ j) :
    getNode { s with nodes := s.nodes ++ l } j = l.getD (j - s.nodes.length) emptyNode := by
  simp [getNode, List.getElem?_append_right h]

@[simp] theorem notifyIf_nodes (c : Bool) (s : UltimateLinkedList α) (e) :
    (if c = true then notify s e else s).nodes = s.nodes := by split <;> simp
@[simp] theorem notifyIf_head (c : Bool) (s : UltimateLinkedList α) (e) :
    (if c = true then notify s e else s).head = s.head := by split <;> simp
@[simp] theorem notifyIf_tail (c : Bool) (s : UltimateLinkedList α) (e) :
    (if c = true then notify s e else s).tail = s.tail := by split <;> simp
@[simp] theorem notifyIf_size (c : Bool) (s : UltimateLinkedList α) (e) :
    (if c = true then notify s e else s).size = s.size := by split <;> simp
@[simp] theorem notifyIf_modCount (c : Bool) (s : UltimateLinkedList α) (e) :
    (if c = true then notify s e else s).modCount = s.modCount := by split <;> simp
@[simp] theorem notifyIf_useSkipLinks (c : Bool) (s : UltimateLinkedList α) (e) :
    (if c = true then notify s e else s).useSkipLinks = s.useSkipLinks := by split <;> simp
@[simp] theorem notifyIf_observable (c : Bool) (s : UltimateLinkedList α) (e) :
    (if c = true then notify s e else s).observable = s.observable := by split <;> simp

/-- `getNode` is unaffected by the conditional notification. -/
@[simp] theorem getNode_notifyIf (c : Bool) (s : UltimateLinkedList α) (e) (j : Nat) :
    getNode (if c = true then notify s e else s) j = getNode s j :=
  getNode_eq_of_nodes_eq (notifyIf_nodes c s e) j

@[simp] theorem getNode_size_update (s : UltimateLinkedList α) (n j : Nat) :
    getNode { s with size := n } j = getNode s j := rfl

/-- Full characterization of `_addNodeAfter` at a node `p` whose successor is
`q`: a fresh node `nid = s.nodes.length` is spliced between `p` and `q`; only
`p.next` and `q.prev` change among the existing nodes; the element count grows
by one and the modification counter is untouched. -/
theorem addNodeAfter_spec {s : UltimateLinkedList α} {p q : Nat} (v : α)
    (hq : nextOf s p = some q) (hp : p < s.nodes.length) (hql : q < s.nodes.length) :
    (addNodeAfter s p v).nodes.length = s.nodes.length + 1 ∧
    (addNodeAfter s p v).head = s.head ∧
    (addNodeAfter s p v).tail = s.tail ∧
    (addNodeAfter s p v).size = s.size + 1 ∧
    (addNodeAfter s p v).modCount = s.modCount ∧
    (addNodeAfter s p v).useSkipLinks = s.useSkipLinks ∧
    (addNodeAfter s p v).observable = s.observable ∧
    getNode (addNodeAfter s p v) s.nodes.length =
      ⟨some v, some q, some p, none, s.modCount⟩ ∧
    (∀ j, j ≠ s.nodes.length → j ≠ p → j ≠ q →
      getNode (addNodeAfter s p v) j = getNode s j) ∧
    (p ≠ q → getNode (addNodeAfter s p v) p = { getNode s p with next := some s.nodes.length }) ∧
    (p ≠ q → getNode (addNodeAfter s p v) q = { getNode s q with prev := some s.nodes.length }) ∧
    (p = q → getNode (addNodeAfter s p v) p =
      { getNode s p with next := some s.nodes.length, prev := some s.nodes.length }) := by
  unfold addNodeAfter
  simp only [hq]
  have hlen1 : ({ s with nodes := s.nodes ++ [(⟨some v, some q, some p, none, s.modCount⟩ : Node α)] } : UltimateLinkedList α).nodes.length = s.nodes.length + 1 := by
    simp
  refine ⟨by simp, by simp, by simp, by simp, by simp, by simp, by simp, ?_, ?_, ?_, ?_, ?_⟩
  · -- the fresh node
    simp only [getNode_notifyIf, getNode_size_update]
    by_cases hpq : p = q
    · subst hpq
      rw [getNode_setNodeF_ne _ (by omega), getNode_setNodeF_ne _ (by omega),
        getNode_append_ge _ (le_refl _)]
      simp
    · rw [getNode_setNodeF_ne _ (by omega), getNode_setNodeF_ne _ (by omega),
        getNode_append_ge _ (le_refl _)]
      simp
  · -- untouched nodes
    intro j hj hjp hjq
    simp only [getNode_notifyIf, getNode_size_update]
    rw [getNode_setNodeF_ne _ hjq, getNode_setNodeF_ne _ hjp]
    by_cases hlt : j < s.nodes.length
    · exact getNode_append_lt _ hlt
    · rw [getNode_append_ge _ (by omega)]
      have h2 : (getNode s j) = emptyNode := by
        simp [getNode, List.getElem?_eq_none (by omega : s.nodes.length ≤ j)]
      rw [h2]
      have h3 : (([(⟨some v, some q, some p, none, s.modCount⟩ : Node α)]).getD
          (j - s.nodes.length) emptyNode) = emptyNode := by
        have : 1 ≤ j - s.nodes.length := by omega
        match hm : j - s.nodes.length, this with
        | m + 1, _ => simp [List.getD]
      rw [h3]
  · -- p is redirected to the fresh node
    intro hpq
    simp only [getNode_notifyIf, getNode_size_update]
    rw [getNode_setNodeF_ne _ hpq,
      getNode_setNodeF_self _ (by simp; omega),
      getNode_append_lt _ hp]
  · -- q is redirected to the fresh node
    intro hpq
    simp only [getNode_notifyIf, getNode_size_update]
    rw [getNode_setNodeF_self _ (by simp; omega),
      getNode_setNodeF_ne _ (Ne.symm hpq), getNode_append_lt _ hql]
  · -- degenerate self-loop (cannot occur on well-formed chains)
    intro hpq
    subst hpq
    simp only [getNode_notifyIf, getNode_size_update]
    rw [getNode_setNodeF_self _ (by simp; omega),
      getNode_setNodeF_self _ (by simp; omega),
      getNode_append_lt _ hp]

/-! ### `_updateSkipLinks` only mutates `skip` fields -/

/-- `r` agrees with `s` on everything except possibly the `skip` annotations:
the invariant-relevant node fields and every scalar field coincide. -/
structure PreservesStructure (s r : UltimateLinkedList α) : Prop where
  len : r.nodes.length = s.nodes.length
  headEq : r.head = s.head
  tailEq : r.tail = s.tail
  sizeEq : r.size = s.size
  modCountEq : r.modCount = s.modCount
  skipFlagEq : r.useSkipLinks = s.useSkipLinks
  observableEq : r.observable = s.observable
  numListenersEq : r.numListeners = s.numListeners
  deliveredEq : r.delivered = s.delivered
  transactionEq : r.transaction = s.transaction
  nextEq : ∀ j, (getNode r j).next = (getNode s j).next
  prevEq : ∀ j, (getNode r j).prev = (getNode s j).prev
  valueEq : ∀ j, (getNode r j).value = (getNode s j).value
  insIdxEq : ∀ j, (getNode r j).insertionIndex = (getNode s j).insertionIndex

theorem PreservesStructure.refl (s : UltimateLinkedList α) : PreservesStructure s s :=
  ⟨rfl, rfl, rfl, rfl, rfl, rfl, rfl, rfl, rfl, rfl,
   fun _ => rfl, fun _ => rfl, fun _ => rfl, fun _ => rfl⟩

theorem PreservesStructure.trans {s r t : UltimateLinkedList α}
    (h1 : PreservesStructure s r) (h2 : PreservesStructure r t) :
    PreservesStructure s t := by
  obtain ⟨a1, a2, a3, a4, a5, a6, a7, a8, a9, a10, a11, a12, a13, a14⟩ := h1
  obtain ⟨b1, b2, b3, b4, b5, b6, b7, b8, b9, b10, b11, b12, b13, b14⟩ := h2
  exact ⟨b1.trans a1, b2.trans a2, b3.trans a3, b4.trans a4, b5.trans a5,
    b6.trans a6, b7.trans a7, b8.trans a8, b9.trans a9, b10.trans a10,
    fun j => (b11 j).trans (a11 j), fun j => (b12 j).trans (a12 j),
    fun j => (b13 j).trans (a13 j), fun j => (b14 j).trans (a14 j)⟩

/-- Writing only the `skip` field of one node preserves the structure. -/
theorem preservesStructure_setSkip (s : UltimateLinkedList α) (i : Nat) (sk : Option Nat) :
    PreservesStructure s (setNodeF s i (fun n => { n with skip := sk })) := by
  refine ⟨by simp, rfl, rfl, rfl, rfl, rfl, rfl, rfl, rfl, rfl, ?_, ?_, ?_, ?_⟩ <;>
  · intro j
    by_cases hj : j = i
    · subst hj
      by_cases hlen : j < s.nodes.length
      · rw [getNode_setNodeF_self _ hlen]
      · rw [setNodeF_oob _ (by omega)]
    · rw [getNode_setNodeF_ne _ hj]

theorem updateSkipLinksLoop_preserves (s : UltimateLinkedList α) :
    ∀ (fuel cur count d : Nat),
      PreservesStructure s (updateSkipLinksLoop s fuel cur count d) := by
  intro fuel
  induction fuel generalizing s with
  | zero => intro _ _ _; exact PreservesStructure.refl s
  | succ fuel ih =>
    intro cur count d
    have hstep : ∀ (s2 : UltimateLinkedList α), PreservesStructure s s2 →
        PreservesStructure s
          (match nextOf s2 cur with
           | some nx => updateSkipLinksLoop s2 fuel nx (count + 1) d
           | none => s2) := by
      intro s2 hp
      rcases hnx : nextOf s2 cur with _ | nx
      · simp only [hnx]; exact hp
      · simp only [hnx]; exact hp.trans (ih s2 nx (count + 1) d)
    rw [updateSkipLinksLoop]
    by_cases hcur : cur = s.tail
    · rw [if_pos hcur]; exact PreservesStructure.refl s
    · rw [if_neg hcur]
      by_cases hcount : count % d = 0
      · rw [if_pos hcount]
        exact hstep _ (preservesStructure_setSkip s cur _)
      · rw [if_neg hcount]
        exact hstep _ (PreservesStructure.refl s)

/-- `_updateSkipLinks` changes only `skip` annotations. -/
theorem updateSkipLinks_preserves (s : UltimateLinkedList α) :
    PreservesStructure s (updateSkipLinks s) := by
  unfold updateSkipLinks
  split
  · exact PreservesStructure.refl s
  · match hnx : nextOf s s.head with
    | some n0 => exact updateSkipLinksLoop_preserves s _ n0 0 _
    | none => exact PreservesStructure.refl s

/-- Transport of the invariant along a structure-preserving step. -/
theorem WFc.of_preserves {s r : UltimateLinkedList α} {c : List Nat}
    (h : PreservesStructure s r) (wf : WFc s c) : WFc r c := by
  obtain ⟨a1, a2, a3, a4, a5, a6, a7, a8, a9, a10, a11, a12, a13, a14⟩ := h
  refine ⟨?_, ?_, ?_, ?_, ?_, ?_⟩
  · rw [a2, a3]
    exact Linked.congr (fun i _ => a11 i) (fun i _ => a12 i) wf.linked
  · rw [a2, a3]; exact wf.nodup
  · rw [a2, a3, a1]; exact wf.bounded
  · rw [a4]; exact wf.size_eq
  · rw [a2]; unfold prevOf at *; rw [a12]; exact wf.head_prev
  · rw [a3]; unfold nextOf at *; rw [a11]; exact wf.tail_next

theorem valueOf_of_preserves {s r : UltimateLinkedList α}
    (h : PreservesStructure s r) (j : Nat) : valueOf r j = valueOf s j :=
  h.valueEq j

/-! ### Chain surgery: insertion -/

/-- The `k`-th consecutive pair of a linked chain is itself a link. -/
theorem linked_link_at {s : UltimateLinkedList α} :
    ∀ {a b : Nat} {c : List Nat} (k : Nat), Linked s a c b → k ≤ c.length →
      IsLink s ((a :: c).getD k 0) ((c ++ [b]).getD k 0) := by
  intro a b c
  induction c generalizing a with
  | nil =>
    intro k h hk
    match k, hk with
    | 0, _ => exact h
  | cons x xs ih =>
    intro k h hk
    match k with
    | 0 => exact h.1
    | k + 1 => exact ih k h.2 (by simpa using hk)

/-- Splicing a fresh node `nid` after position `k` keeps the chain linked:
in `s2`, only `p.next` and `q.prev` were redirected to `nid` (`p`, `q` being
the consecutive pair at position `k`), and `nid` links back to them. -/
theorem linked_insert {s s2 : UltimateLinkedList α} {nid : Nat} :
    ∀ {a b : Nat} {c : List Nat} {k : Nat} {p q : Nat},
      Linked s a c b →
      ((a :: c) ++ [b]).Nodup →
      k ≤ c.length →
      p = (a :: c).getD k 0 →
      q = (c ++ [b]).getD k 0 →
      (∀ j, j ∈ (a :: c) ++ [b] → j ≠ p → j ≠ q → getNode s2 j = getNode s j) →
      getNode s2 p = { getNode s p with next := some nid } →
      getNode s2 q = { getNode s q with prev := some nid } →
      nextOf s2 nid = some q →
      prevOf s2 nid = some p →
      Linked s2 a (c.take k ++ nid :: c.drop k) b := by
  intro a b c
  induction c generalizing a with
  | nil =>
    intro k p q hl hnd hk hp hq hframe hsp hsq hnn hnp
    match k, hk with
    | 0, _ =>
      have hpa : p = a := by simpa using hp
      have hqb : q = b := by simpa using hq
      show Linked s2 a [nid] b
      refine ⟨⟨?_, hpa ▸ hnp⟩, hqb ▸ hnn, ?_⟩
      · show (getNode s2 a).next = some nid
        rw [← hpa, hsp]
      · show (getNode s2 b).prev = some nid
        rw [← hqb, hsq]
  | cons x xs ih =>
    intro k p q hl hnd hk hp hq hframe hsp hsq hnn hnp
    have hnda : a ∉ (x :: xs) ++ [b] := by
      have h1 := hnd
      rw [List.cons_append, List.nodup_cons] at h1
      exact h1.1
    have hndx : x ∉ xs ++ [b] := by
      have h1 : ((x :: xs) ++ [b]).Nodup := hnd.of_cons
      rw [List.cons_append, List.nodup_cons] at h1
      exact h1.1
    match k with
    | 0 =>
      have hpa : p = a := by simpa using hp
      have hqx : q = x := by simpa using hq
      show Linked s2 a (nid :: x :: xs) b
      refine ⟨⟨?_, hpa ▸ hnp⟩, ⟨hqx ▸ hnn, ?_⟩, ?_⟩
      · show (getNode s2 a).next = some nid
        rw [← hpa, hsp]
      · show (getNode s2 x).prev = some nid
        rw [← hqx, hsq]
      · -- the remainder of the chain is untouched
        refine Linked.congr ?_ ?_ hl.2
        · intro i hi
          have hia : i ≠ p := fun hh =>
            hnda ((hh.trans hpa) ▸ List.mem_append_left _ hi)
          by_cases hix : i = x
          · unfold nextOf
            rw [hix, ← hqx, hsq]
          · unfold nextOf
            rw [hframe i (List.mem_cons_of_mem _ (by
                rcases List.mem_cons.mp hi with rfl | hi2
                · exact List.mem_cons_self _ _
                · exact List.mem_cons_of_mem _ (List.mem_append_left _ hi2)))
              hia (fun hh => hix (hh.trans hqx))]
        · intro i hi
          have hia : i ≠ p := by
            intro hh
            rw [hh, hpa] at hi
            exact hnda (List.mem_cons_of_mem _ hi)
          have hix : i ≠ q := by
            intro hh
            rw [hh, hqx] at hi
            exact hndx hi
          unfold prevOf
          rw [hframe i (List.mem_cons_of_mem _ (List.mem_cons_of_mem _ hi)) hia hix]
    | k + 1 =>
      have hk2 : k ≤ xs.length := by simpa using hk
      have hp2 : p = (x :: xs).getD k 0 := by rw [hp, List.getD_cons_succ]
      have hq2 : q = (xs ++ [b]).getD k 0 := by
        rw [hq, List.cons_append, List.getD_cons_succ]
      have hpmem : p ∈ x :: xs := by
        rw [hp2]
        have hlt : k < (x :: xs).length := by simp; omega
        rw [List.getD_eq_getElem _ _ hlt]
        exact List.getElem_mem hlt
      have hqmem : q ∈ xs ++ [b] := by
        rw [hq2]
        have hlt : k < (xs ++ [b]).length := by simp; omega
        rw [List.getD_eq_getElem _ _ hlt]
        exact List.getElem_mem hlt
      simp only [List.take_succ_cons, List.drop_succ_cons, List.cons_append]
      refine ⟨⟨?_, ?_⟩, ?_⟩
      · -- a's next still points at x
        have hap : a ≠ p := by
          rintro rfl
          rcases List.mem_cons.mp hpmem with h1 | h1
          · exact hnda (by rw [h1]; exact List.mem_cons_self _ _)
          · exact hnda (List.mem_cons_of_mem _ (List.mem_append_left _ h1))
        have haq : a ≠ q := by
          rintro rfl
          rcases List.mem_append.mp hqmem with h1 | h1
          · exact hnda (List.mem_cons_of_mem _ (List.mem_append_left _ h1))
          · exact hnda (List.mem_cons_of_mem _ (List.mem_append_right _ h1))
        show (getNode s2 a).next = some x
        rw [hframe a (List.mem_cons_self _ _) hap haq]
        exact hl.1.1
      · -- x's prev still points at a
        have hxq : x ≠ q := fun hh => hndx (hh ▸ hqmem)
        show (getNode s2 x).prev = some a
        by_cases hxp : x = p
        · rw [hxp, hsp, ← hxp]
          exact hl.1.2
        · rw [hframe x (List.mem_cons_of_mem _ (List.mem_cons_self _ _)) hxp hxq]
          exact hl.1.2
      · -- inductive step on the tail of the chain
        refine ih hl.2 hnd.of_cons hk2 hp2 hq2 ?_ hsp hsq hnn hnp
        intro j hj hjp hjq
        exact hframe j (List.mem_cons_of_mem _ hj) hjp hjq

theorem getD_append_left2 {l1 l2 : List Nat} {k : Nat} (d : Nat) (h : k < l1.length) :
    (l1 ++ l2).getD k d = l1.getD k d := by
  simp [List.getD_eq_getElem?_getD, List.getElem?_append_left h]

/-- Distinct positions of a duplicate-free list hold distinct entries. -/
theorem nodup_getD_ne {l : List Nat} (h : l.Nodup) {i j : Nat} (hij : i ≠ j)
    (hi : i < l.length) (hj : j < l.length) (d : Nat) : l.getD i d ≠ l.getD j d := by
  rw [List.getD_eq_getElem _ _ hi, List.getD_eq_getElem _ _ hj]
  intro he
  exact hij (h.getElem_inj_iff.mp he)

/-- `_addNodeAfter` at the chain node in position `k` of `head :: c` preserves
well-formedness, inserting the fresh id at position `k` of the chain. -/
theorem addNodeAfter_wf {s : UltimateLinkedList α} {c : List Nat} (wf : WFc s c)
    {k : Nat} (hk : k ≤ c.length) (v : α) :
    WFc (addNodeAfter s ((s.head :: c).getD k 0) v)
      (c.take k ++ s.nodes.length :: c.drop k) ∧
    (addNodeAfter s ((s.head :: c).getD k 0) v).size = s.size + 1 ∧
    (addNodeAfter s ((s.head :: c).getD k 0) v).modCount = s.modCount ∧
    (addNodeAfter s ((s.head :: c).getD k 0) v).head = s.head ∧
    (addNodeAfter s ((s.head :: c).getD k 0) v).tail = s.tail ∧
    (addNodeAfter s ((s.head :: c).getD k 0) v).useSkipLinks = s.useSkipLinks ∧
    (addNodeAfter s ((s.head :: c).getD k 0) v).observable = s.observable ∧
    (addNodeAfter s ((s.head :: c).getD k 0) v).nodes.length = s.nodes.length + 1 ∧
    valueOf (addNodeAfter s ((s.head :: c).getD k 0) v) s.nodes.length = some v ∧
    insIdxOf (addNodeAfter s ((s.head :: c).getD k 0) v) s.nodes.length = s.modCount ∧
    (∀ j ∈ c, valueOf (addNodeAfter s ((s.head :: c).getD k 0) v) j = valueOf s j) ∧
    (∀ j ∈ c, insIdxOf (addNodeAfter s ((s.head :: c).getD k 0) v) j = insIdxOf s j) := by
  set p := (s.head :: c).getD k 0 with hpdef
  set q := (c ++ [s.tail]).getD k 0 with hqdef
  set nid := s.nodes.length with hniddef
  have hlink : IsLink s p q := linked_link_at k wf.linked hk
  have hpmem : p ∈ s.head :: c := by
    rw [hpdef, List.getD_eq_getElem _ _ (by simp; omega)]
    exact List.getElem_mem _
  have hqmem : q ∈ c ++ [s.tail] := by
    rw [hqdef, List.getD_eq_getElem _ _ (by simp; omega)]
    exact List.getElem_mem _
  have hqfull : q ∈ (s.head :: c) ++ [s.tail] := by
    rcases List.mem_append.mp hqmem with h1 | h1
    · exact List.mem_append_left _ (List.mem_cons_of_mem _ h1)
    · exact List.mem_append_right _ h1
  have hp : p < s.nodes.length := wf.bounded p (List.mem_append_left _ hpmem)
  have hql : q < s.nodes.length := wf.bounded q hqfull
  have hpq : p ≠ q := by
    have h1 : ((s.head :: c) ++ [s.tail]).getD k 0 = p := by
      rw [hpdef]; exact getD_append_left2 _ (by simp; omega)
    have h2 : ((s.head :: c) ++ [s.tail]).getD (k + 1) 0 = q := by
      rw [hqdef, List.cons_append, List.getD_cons_succ]
    rw [← h1, ← h2]
    exact nodup_getD_ne wf.nodup (by omega) (by simp; omega) (by simp; omega) 0
  obtain ⟨len1, hh, ht, hsz, hmc, hsk, hob, hfresh, huntouched, hpupd, hqupd, _⟩ :=
    addNodeAfter_spec v hlink.1 hp hql
  have hframe : ∀ j, j ∈ (s.head :: c) ++ [s.tail] → j ≠ p → j ≠ q →
      getNode (addNodeAfter s p v) j = getNode s j := by
    intro j hj hjp hjq
    exact huntouched j (by have := wf.bounded j hj; omega) hjp hjq
  have hnn : nextOf (addNodeAfter s p v) nid = some q := by
    unfold nextOf; rw [hfresh]
  have hnp : prevOf (addNodeAfter s p v) nid = some p := by
    unfold prevOf; rw [hfresh]
  have hperm : List.Perm ((s.head :: (c.take k ++ nid :: c.drop k)) ++ [s.tail])
      (nid :: ((s.head :: c) ++ [s.tail])) := by
    have e1 : (s.head :: (c.take k ++ nid :: c.drop k)) ++ [s.tail] =
        (s.head :: c.take k) ++ nid :: (c.drop k ++ [s.tail]) := by simp
    rw [e1]
    refine List.perm_middle.trans ?_
    have e2 : (s.head :: c.take k) ++ (c.drop k ++ [s.tail]) =
        (s.head :: c) ++ [s.tail] := by
      simp only [List.cons_append]
      rw [← List.append_assoc, List.take_append_drop]
    rw [e2]
  have hnidfresh : nid ∉ (s.head :: c) ++ [s.tail] := by
    intro hm
    have := wf.bounded nid hm
    omega
  have hvals : ∀ j ∈ c, valueOf (addNodeAfter s p v) j = valueOf s j ∧
      insIdxOf (addNodeAfter s p v) j = insIdxOf s j := by
    intro j hj
    have hjn : j ≠ nid := by have := wf.mem_lt hj; omega
    by_cases hjp : j = p
    · subst hjp
      unfold valueOf insIdxOf
      rw [hpupd hpq]
      exact ⟨rfl, rfl⟩
    · by_cases hjq : j = q
      · subst hjq
        unfold valueOf insIdxOf
        rw [hqupd hpq]
        exact ⟨rfl, rfl⟩
      · unfold valueOf insIdxOf
        rw [huntouched j hjn hjp hjq]
        exact ⟨rfl, rfl⟩
  refine ⟨⟨?_, ?_, ?_, ?_, ?_, ?_⟩, hsz, hmc, hh, ht, hsk, hob, len1, ?_, ?_,
    fun j hj => (hvals j hj).1, fun j hj => (hvals j hj).2⟩
  · -- linked
    rw [hh, ht]
    exact linked_insert wf.linked wf.nodup hk hpdef hqdef hframe
      (hpupd hpq) (hqupd hpq) hnn hnp
  · -- nodup
    rw [hh, ht]
    exact hperm.nodup_iff.mpr (List.nodup_cons.mpr ⟨hnidfresh, wf.nodup⟩)
  · -- bounded
    intro i hi
    rw [hh, ht] at hi
    rw [len1]
    rcases List.mem_cons.mp (hperm.mem_iff.mp hi) with h1 | h1
    · omega
    · have := wf.bounded i h1; omega
  · -- size
    rw [hsz, wf.size_eq]
    simp
    omega
  · -- head.prev is still null
    rw [hh]
    by_cases hhp : s.head = p
    · unfold prevOf
      rw [hhp, hpupd hpq]
      have := wf.head_prev
      unfold prevOf at this
      rw [← hhp]
      exact this
    · have hhq : s.head ≠ q := by
        intro hh2
        rcases List.mem_append.mp hqmem with h1 | h1
        · exact wf.head_not_mem (hh2 ▸ h1)
        · exact wf.head_ne_tail (hh2.trans (by simpa using h1))
      unfold prevOf
      rw [huntouched s.head (by have := wf.head_lt; omega) hhp hhq]
      exact wf.head_prev
  · -- tail.next is still null
    rw [ht]
    by_cases htq : s.tail = q
    · unfold nextOf
      rw [htq, hqupd hpq]
      have := wf.tail_next
      unfold nextOf at this
      rw [← htq]
      exact this
    · have htp : s.tail ≠ p := by
        intro hh2
        rcases List.mem_cons.mp hpmem with h1 | h1
        · exact wf.head_ne_tail (hh2 ▸ h1).symm
        · exact wf.tail_not_mem (hh2 ▸ h1)
      unfold nextOf
      rw [huntouched s.tail (by have := wf.tail_lt; omega) htp htq]
      exact wf.tail_next
  · -- fresh node's value
    unfold valueOf
    rw [hfresh]
  · -- fresh node's insertion index
    unfold insIdxOf
    rw [hfresh]

theorem getD_append_self {c : List Nat} {x d : Nat} :
    (c ++ [x]).getD c.length d = x := by
  simp [List.getD_eq_getElem?_getD, List.getElem?_append_right (le_refl c.length)]

theorem preserves_skipIf (s : UltimateLinkedList α) (cond : Bool) :
    PreservesStructure s (if cond = true then updateSkipLinks s else s) := by
  split
  · exact updateSkipLinks_preserves s
  · exact PreservesStructure.refl s

theorem insIdxOf_of_preserves {s r : UltimateLinkedList α}
    (h : PreservesStructure s r) (j : Nat) : insIdxOf r j = insIdxOf s j :=
  h.insIdxEq j

/-- Bumping only the modification counter keeps the invariant. -/
theorem WFc.with_modCount {s : UltimateLinkedList α} {c : List Nat} (wf : WFc s c)
    (n : Nat) : WFc ({ s with modCount := n }) c := by
  refine ⟨?_, wf.nodup, wf.bounded, wf.size_eq, wf.head_prev, wf.tail_next⟩
  exact @Linked.congr α s ({ s with modCount := n }) s.head s.tail c
    (fun i _ => rfl) (fun i _ => rfl) wf.linked

/-- `append` preserves the invariant and appends the fresh node id. -/
theorem append_wf {s : UltimateLinkedList α} {c : List Nat} (wf : WFc s c) (v : α) :
    WFc (append s v) (c ++ [s.nodes.length]) ∧
    (append s v).size = s.size + 1 ∧
    (append s v).modCount = s.modCount + 1 ∧
    (append s v).head = s.head ∧ (append s v).tail = s.tail ∧
    (append s v).useSkipLinks = s.useSkipLinks ∧
    (append s v).observable = s.observable ∧
    (append s v).nodes.length = s.nodes.length + 1 ∧
    valueOf (append s v) s.nodes.length = some v ∧
    insIdxOf (append s v) s.nodes.length = s.modCount + 1 ∧
    (∀ j ∈ c, valueOf (append s v) j = valueOf s j) ∧
    (∀ j ∈ c, insIdxOf (append s v) j = insIdxOf s j) := by
  have wfm : WFc ({ s with modCount := s.modCount + 1 } : UltimateLinkedList α) c :=
    wf.with_modCount _
  have hlast : prevOf ({ s with modCount := s.modCount + 1 } : UltimateLinkedList α) s.tail =
      some ((s.head :: c).getD c.length 0) := by
    have h := linked_link_at c.length wf.linked (le_refl _)
    rw [getD_append_self] at h
    exact h.2
  obtain ⟨wf2, hsz, hmc, hh, ht, hsk, hob, hlen, hval, hins, hvals, hinss⟩ :=
    addNodeAfter_wf wfm (le_refl c.length) v
  rw [List.take_length, List.drop_length] at wf2
  unfold append
  simp only [hlast]
  refine ⟨?_, ?_, ?_, ?_, ?_, ?_, ?_, ?_, ?_, ?_, ?_, ?_⟩
  · exact WFc.of_preserves (preserves_skipIf _ _) wf2
  · exact ((preserves_skipIf _ _).sizeEq).trans hsz
  · exact ((preserves_skipIf _ _).modCountEq).trans hmc
  · exact ((preserves_skipIf _ _).headEq).trans hh
  · exact ((preserves_skipIf _ _).tailEq).trans ht
  · exact ((preserves_skipIf _ _).skipFlagEq).trans hsk
  · exact ((preserves_skipIf _ _).observableEq).trans hob
  · exact ((preserves_skipIf _ _).len).trans hlen
  · exact (valueOf_of_preserves (preserves_skipIf _ _) _).trans hval
  · exact (insIdxOf_of_preserves (preserves_skipIf _ _) _).trans hins
  · intro j hj
    exact (valueOf_of_preserves (preserves_skipIf _ _) _).trans (hvals j hj)
  · intro j hj
    exact (insIdxOf_of_preserves (preserves_skipIf _ _) _).trans (hinss j hj)

theorem preserves_skipIfP (s : UltimateLinkedList α) (cond : Prop) [Decidable cond] :
    PreservesStructure s (if cond then updateSkipLinks s else s) := by
  split
  · exact updateSkipLinks_preserves s
  · exact PreservesStructure.refl s

/-- `prepend` preserves the invariant and puts the fresh node id first. -/
theorem prepend_wf {s : UltimateLinkedList α} {c : List Nat} (wf : WFc s c) (v : α) :
    WFc (prepend s v) (s.nodes.length :: c) ∧
    (prepend s v).size = s.size + 1 ∧
    (prepend s v).modCount = s.modCount + 1 ∧
    (prepend s v).head = s.head ∧ (prepend s v).tail = s.tail ∧
    (prepend s v).useSkipLinks = s.useSkipLinks ∧
    (prepend s v).observable = s.observable ∧
    (prepend s v).nodes.length = s.nodes.length + 1 ∧
    valueOf (prepend s v) s.nodes.length = some v ∧
    insIdxOf (prepend s v) s.nodes.length = s.modCount + 1 ∧
    (∀ j ∈ c, valueOf (prepend s v) j = valueOf s j) ∧
    (∀ j ∈ c, insIdxOf (prepend s v) j = insIdxOf s j) := by
  have wfm : WFc ({ s with modCount := s.modCount + 1 } : UltimateLinkedList α) c :=
    wf.with_modCount _
  obtain ⟨wf2, hsz, hmc, hh, ht, hsk, hob, hlen, hval, hins, hvals, hinss⟩ :=
    addNodeAfter_wf wfm (Nat.zero_le c.length) v
  unfold prepend
  refine ⟨?_, ?_, ?_, ?_, ?_, ?_, ?_, ?_, ?_, ?_, ?_, ?_⟩
  · exact WFc.of_preserves (preserves_skipIf _ _) wf2
  · exact ((preserves_skipIf _ _).sizeEq).trans hsz
  · exact ((preserves_skipIf _ _).modCountEq).trans hmc
  · exact ((preserves_skipIf _ _).headEq).trans hh
  · exact ((preserves_skipIf _ _).tailEq).trans ht
  · exact ((preserves_skipIf _ _).skipFlagEq).trans hsk
  · exact ((preserves_skipIf _ _).observableEq).trans hob
  · exact ((preserves_skipIf _ _).len).trans hlen
  · exact (valueOf_of_preserves (preserves_skipIf _ _) _).trans hval
  · exact (insIdxOf_of_preserves (preserves_skipIf _ _) _).trans hins
  · intro j hj
    exact (valueOf_of_preserves (preserves_skipIf _ _) _).trans (hvals j hj)
  · intro j hj
    exact (insIdxOf_of_preserves (preserves_skipIf _ _) _).trans (hinss j hj)

/-! ### Chain surgery: removal -/

/-- Unlinking the chain node at position `k` keeps the chain linked:
in `s2`, only the predecessor's `next` (now pointing at the successor) and
the successor's `prev` (now pointing at the predecessor) changed. -/
theorem linked_erase {s s2 : UltimateLinkedList α} :
    ∀ {a b : Nat} {c : List Nat} {k : Nat} {p q : Nat},
      Linked s a c b →
      ((a :: c) ++ [b]).Nodup →
      k < c.length →
      p = (a :: c).getD k 0 →
      q = (c ++ [b]).getD (k + 1) 0 →
      (∀ j, j ∈ (a :: c) ++ [b] → j ≠ p → j ≠ q → getNode s2 j = getNode s j) →
      getNode s2 p = { getNode s p with next := some q } →
      getNode s2 q = { getNode s q with prev := some p } →
      Linked s2 a (c.take k ++ c.drop (k + 1)) b := by
  intro a b c
  induction c generalizing a with
  | nil =>
    intro k p q _ _ hk
    simp at hk
  | cons x xs ih =>
    intro k p q hl hnd hk hp hq hframe hsp hsq
    have hnda : a ∉ (x :: xs) ++ [b] := by
      have h1 := hnd
      rw [List.cons_append, List.nodup_cons] at h1
      exact h1.1
    have hndx : x ∉ xs ++ [b] := by
      have h1 : ((x :: xs) ++ [b]).Nodup := hnd.of_cons
      rw [List.cons_append, List.nodup_cons] at h1
      exact h1.1
    match k with
    | 0 =>
      have hpa : p = a := by simpa using hp
      have hqm : q = (xs ++ [b]).getD 0 0 := by
        rw [hq, List.cons_append, List.getD_cons_succ]
      simp only [List.take_zero, List.drop_succ_cons, List.drop_zero, List.nil_append]
      match xs, hl, hndx, hqm with
      | [], hl, hndx, hqm =>
        have hqb : q = b := by simpa using hqm
        show IsLink s2 a b
        refine ⟨?_, ?_⟩
        · show (getNode s2 a).next = some b
          rw [← hpa, hsp, ← hqb]
        · show (getNode s2 b).prev = some a
          rw [← hqb, hsq, ← hpa]
      | y :: xs2, hl, hndx, hqm =>
        have hqy : q = y := by simpa using hqm
        have hndy : y ∉ xs2 ++ [b] := by
          have h1 : ((y :: xs2) ++ [b]).Nodup := hnd.of_cons.of_cons
          rw [List.cons_append, List.nodup_cons] at h1
          exact h1.1
        refine ⟨⟨?_, ?_⟩, ?_⟩
        · show (getNode s2 a).next = some y
          rw [← hpa, hsp, ← hqy]
        · show (getNode s2 y).prev = some a
          rw [← hqy, hsq, ← hpa]
        · refine Linked.congr ?_ ?_ hl.2.2
          · intro i hi
            have hia : i ≠ p := by
              intro hh
              rw [hh, hpa] at hi
              exact hnda (List.mem_cons_of_mem _ (List.mem_append_left _ hi))
            by_cases hiq : i = q
            · unfold nextOf
              rw [hiq, hsq]
            · unfold nextOf
              rw [hframe i (List.mem_cons_of_mem _ (List.mem_cons_of_mem _
                  (List.mem_append_left _ hi))) hia hiq]
          · intro i hi
            have hmem : i ∈ (a :: x :: y :: xs2) ++ [b] := by
              rcases List.mem_append.mp hi with h1 | h1
              · exact List.mem_cons_of_mem _ (List.mem_cons_of_mem _
                  (List.mem_append_left _ (List.mem_cons_of_mem _ h1)))
              · exact List.mem_cons_of_mem _ (List.mem_cons_of_mem _
                  (List.mem_append_right _ h1))
            have hia : i ≠ p := by
              intro hh
              rw [hh, hpa] at hi
              rcases List.mem_append.mp hi with h1 | h1
              · exact hnda (List.mem_append_left _
                  (List.mem_cons_of_mem _ (List.mem_cons_of_mem _ h1)))
              · exact hnda (List.mem_append_right _ h1)
            have hiq : i ≠ q := by
              intro hh
              rw [hh, hqy] at hi
              exact hndy hi
            unfold prevOf
            rw [hframe i hmem hia hiq]
    | k + 1 =>
      have hk2 : k < xs.length := by simpa using hk
      have hp2 : p = (x :: xs).getD k 0 := by rw [hp, List.getD_cons_succ]
      have hq2 : q = (xs ++ [b]).getD (k + 1) 0 := by
        rw [hq, List.cons_append, List.getD_cons_succ]
      have hpmem : p ∈ x :: xs := by
        rw [hp2]
        have hlt : k < (x :: xs).length := by simp; omega
        rw [List.getD_eq_getElem _ _ hlt]
        exact List.getElem_mem hlt
      have hqmem : q ∈ xs ++ [b] := by
        rw [hq2]
        have hlt : k + 1 < (xs ++ [b]).length := by simp; omega
        rw [List.getD_eq_getElem _ _ hlt]
        exact List.getElem_mem hlt
      simp only [List.take_succ_cons, List.drop_succ_cons, List.cons_append]
      refine ⟨⟨?_, ?_⟩, ?_⟩
      · have hap : a ≠ p := by
          rintro rfl
          rcases List.mem_cons.mp hpmem with h1 | h1
          · exact hnda (by rw [h1]; exact List.mem_cons_self _ _)
          · exact hnda (List.mem_cons_of_mem _ (List.mem_append_left _ h1))
        have haq : a ≠ q := by
          rintro rfl
          rcases List.mem_append.mp hqmem with h1 | h1
          · exact hnda (List.mem_cons_of_mem _ (List.mem_append_left _ h1))
          · exact hnda (List.mem_cons_of_mem _ (List.mem_append_right _ h1))
        show (getNode s2 a).next = some x
        rw [hframe a (List.mem_cons_self _ _) hap haq]
        exact hl.1.1
      · have hxq : x ≠ q := fun hh => hndx (hh ▸ hqmem)
        show (getNode s2 x).prev = some a
        by_cases hxp : x = p
        · rw [hxp, hsp, ← hxp]
          exact hl.1.2
        · rw [hframe x (List.mem_cons_of_mem _ (List.mem_cons_self _ _)) hxp hxq]
          exact hl.1.2
      · refine ih hl.2 hnd.of_cons hk2 hp2 hq2 ?_ hsp hsq
        intro j hj hjp hjq
        exact hframe j (List.mem_cons_of_mem _ hj) hjp hjq

/-- Full characterization of `_removeNode` at a node `x` with predecessor
`pi` and successor `qi`: only `pi.next` and `qi.prev` change, the size drops
by one, the counter is untouched, and the removed node's value is returned. -/
theorem removeNode_spec {s : UltimateLinkedList α} {x pi qi : Nat}
    (hp : prevOf s x = some pi) (hq : nextOf s x = some qi)
    (hpl : pi < s.nodes.length) (hql : qi < s.nodes.length) (hpq : pi ≠ qi) :
    (removeNode s x).1 = valueOf s x ∧
    (removeNode s x).2.nodes.length = s.nodes.length ∧
    (removeNode s x).2.head = s.head ∧
    (removeNode s x).2.tail = s.tail ∧
    (removeNode s x).2.size = s.size - 1 ∧
    (removeNode s x).2.modCount = s.modCount ∧
    (removeNode s x).2.useSkipLinks = s.useSkipLinks ∧
    (removeNode s x).2.observable = s.observable ∧
    getNode (removeNode s x).2 pi = { getNode s pi with next := some qi } ∧
    getNode (removeNode s x).2 qi = { getNode s qi with prev := some pi } ∧
    (∀ j, j ≠ pi → j ≠ qi → getNode (removeNode s x).2 j = getNode s j) := by
  refine ⟨?_, ?_, ?_, ?_, ?_, ?_, ?_, ?_, ?_, ?_, ?_⟩
  · unfold removeNode; simp only [hp, hq]
  · unfold removeNode; simp only [hp, hq]; simp
  · unfold removeNode; simp only [hp, hq]; simp
  · unfold removeNode; simp only [hp, hq]; simp
  · unfold removeNode; simp only [hp, hq]; simp
  · unfold removeNode; simp only [hp, hq]; simp
  · unfold removeNode; simp only [hp, hq]; simp
  · unfold removeNode; simp only [hp, hq]; simp
  · unfold removeNode
    simp only [hp, hq, getNode_notifyIf, getNode_size_update]
    rw [getNode_setNodeF_ne _ hpq, getNode_setNodeF_self _ hpl]
  · unfold removeNode
    simp only [hp, hq, getNode_notifyIf, getNode_size_update]
    rw [getNode_setNodeF_self _ (by simp; omega), getNode_setNodeF_ne _ (Ne.symm hpq)]
  · intro j hjp hjq
    unfold removeNode
    simp only [hp, hq, getNode_notifyIf, getNode_size_update]
    rw [getNode_setNodeF_ne _ hjq, getNode_setNodeF_ne _ hjp]

/-- `_removeNode` on the chain node at position `k` preserves the invariant,
deleting position `k` from the chain. -/
theorem removeNode_wf {s : UltimateLinkedList α} {c : List Nat} (wf : WFc s c)
    {k : Nat} (hk : k < c.length) :
    (removeNode s (c.getD k 0)).1 = valueOf s (c.getD k 0) ∧
    WFc (removeNode s (c.getD k 0)).2 (c.take k ++ c.drop (k + 1)) ∧
    (removeNode s (c.getD k 0)).2.size = s.size - 1 ∧
    (removeNode s (c.getD k 0)).2.modCount = s.modCount ∧
    (removeNode s (c.getD k 0)).2.head = s.head ∧
    (removeNode s (c.getD k 0)).2.tail = s.tail ∧
    (removeNode s (c.getD k 0)).2.useSkipLinks = s.useSkipLinks ∧
    (removeNode s (c.getD k 0)).2.observable = s.observable ∧
    (removeNode s (c.getD k 0)).2.nodes.length = s.nodes.length ∧
    (∀ j ∈ c, j ≠ c.getD k 0 →
      valueOf (removeNode s (c.getD k 0)).2 j = valueOf s j ∧
      insIdxOf (removeNode s (c.getD k 0)).2 j = insIdxOf s j) := by
  set x := c.getD k 0 with hxdef
  set pi2 := (s.head :: c).getD k 0 with hpidef
  set qi2 := (c ++ [s.tail]).getD (k + 1) 0 with hqidef
  have hcx : (c ++ [s.tail]).getD k 0 = x := by
    rw [hxdef]; exact getD_append_left2 _ hk
  have hhx : (s.head :: c).getD (k + 1) 0 = x := by
    rw [hxdef, List.getD_cons_succ]
  have hlink1 : IsLink s pi2 x := by
    have h := linked_link_at k wf.linked (le_of_lt hk)
    rwa [hcx] at h
  have hlink2 : IsLink s x qi2 := by
    have h := linked_link_at (k + 1) wf.linked hk
    rwa [hhx] at h
  have hpimem : pi2 ∈ s.head :: c := by
    rw [hpidef, List.getD_eq_getElem _ _ (by simp; omega)]
    exact List.getElem_mem _
  have hqimem : qi2 ∈ c ++ [s.tail] := by
    rw [hqidef, List.getD_eq_getElem _ _ (by simp; omega)]
    exact List.getElem_mem _
  have hqifull : qi2 ∈ (s.head :: c) ++ [s.tail] := by
    rcases List.mem_append.mp hqimem with h1 | h1
    · exact List.mem_append_left _ (List.mem_cons_of_mem _ h1)
    · exact List.mem_append_right _ h1
  have hpil : pi2 < s.nodes.length := wf.bounded pi2 (List.mem_append_left _ hpimem)
  have hqil : qi2 < s.nodes.length := wf.bounded qi2 hqifull
  have hpiqi : pi2 ≠ qi2 := by
    have h1 : ((s.head :: c) ++ [s.tail]).getD k 0 = pi2 := by
      rw [hpidef]; exact getD_append_left2 _ (by simp; omega)
    have h2 : ((s.head :: c) ++ [s.tail]).getD (k + 2) 0 = qi2 := by
      rw [hqidef, List.cons_append, List.getD_cons_succ]
    rw [← h1, ← h2]
    exact nodup_getD_ne wf.nodup (by omega) (by simp; omega) (by simp; omega) 0
  obtain ⟨hv, hlen, hh, ht, hsz, hmc, hsk, hob, hpup, hqup, hun⟩ :=
    removeNode_spec hlink1.2 hlink2.1 hpil hqil hpiqi
  have hsub : List.Sublist ((s.head :: (c.take k ++ c.drop (k + 1))) ++ [s.tail])
      ((s.head :: c) ++ [s.tail]) := by
    have h1 : List.Sublist (c.take k ++ c.drop (k + 1)) c := by
      have h2 : List.Sublist (c.drop (k + 1)) (c.drop k) := by
        rw [show k + 1 = k + 1 from rfl, ← List.drop_drop]
        exact List.drop_sublist _ _
      have h3 := h2.append_left (c.take k)
      rwa [List.take_append_drop] at h3
    exact List.Sublist.append (h1.cons₂ s.head) (List.Sublist.refl _)
  refine ⟨hv, ⟨?_, ?_, ?_, ?_, ?_, ?_⟩, hsz, hmc, hh, ht, hsk, hob, hlen, ?_⟩
  · rw [hh, ht]
    exact linked_erase wf.linked wf.nodup hk hpidef hqidef
      (fun j _ hjp hjq => hun j hjp hjq) hpup hqup
  · rw [hh, ht]
    exact wf.nodup.sublist hsub
  · intro i hi
    rw [hh, ht] at hi
    rw [hlen]
    exact wf.bounded i (hsub.subset hi)
  · rw [hsz, wf.size_eq]
    simp
    omega
  · rw [hh]
    by_cases hhp : s.head = pi2
    · unfold prevOf
      rw [hhp, hpup]
      have h2 := wf.head_prev
      unfold prevOf at h2
      rw [← hhp]
      exact h2
    · have hhq : s.head ≠ qi2 := by
        intro hh2
        rcases List.mem_append.mp hqimem with h1 | h1
        · exact wf.head_not_mem (hh2 ▸ h1)
        · exact wf.head_ne_tail (hh2.trans (by simpa using h1))
      unfold prevOf
      rw [hun s.head hhp hhq]
      exact wf.head_prev
  · rw [ht]
    by_cases htq : s.tail = qi2
    · unfold nextOf
      rw [htq, hqup]
      have h2 := wf.tail_next
      unfold nextOf at h2
      rw [← htq]
      exact h2
    · have htp : s.tail ≠ pi2 := by
        intro hh2
        rcases List.mem_cons.mp hpimem with h1 | h1
        · exact wf.head_ne_tail (hh2 ▸ h1).symm
        · exact wf.tail_not_mem (hh2 ▸ h1)
      unfold nextOf
      rw [hun s.tail htp htq]
      exact wf.tail_next
  · intro j hj hjx
    by_cases hjp : j = pi2
    · subst hjp
      unfold valueOf insIdxOf
      rw [hpup]
      exact ⟨rfl, rfl⟩
    · by_cases hjq : j = qi2
      · subst hjq
        unfold valueOf insIdxOf
        rw [hqup]
        exact ⟨rfl, rfl⟩
      · unfold valueOf insIdxOf
        rw [hun j hjp hjq]
        exact ⟨rfl, rfl⟩

/-- In-range `removeAt` with skip links disabled: removes exactly the chain
node at the resolved index, bumps the modification counter once. -/
theorem removeAt_wf {s : UltimateLinkedList α} {c : List Nat} (wf : WFc s c)
    (hs : s.useSkipLinks = false) {i : Int}
    (h0 : 0 ≤ resolveIndex s i) (h1 : resolveIndex s i < (s.size : Int)) :
    (removeAt s i).1 = valueOf s (c.getD (resolveIndex s i).toNat 0) ∧
    WFc (removeAt s i).2
      (c.take (resolveIndex s i).toNat ++ c.drop ((resolveIndex s i).toNat + 1)) ∧
    (removeAt s i).2.size = s.size - 1 ∧
    (removeAt s i).2.modCount = s.modCount + 1 ∧
    (removeAt s i).2.head = s.head ∧
    (removeAt s i).2.tail = s.tail ∧
    (removeAt s i).2.useSkipLinks = s.useSkipLinks ∧
    (removeAt s i).2.nodes.length = s.nodes.length ∧
    (∀ j ∈ c, j ≠ c.getD (resolveIndex s i).toNat 0 →
      valueOf (removeAt s i).2 j = valueOf s j) := by
  set k := (resolveIndex s i).toNat with hkdef
  have hklt : k < c.length := by
    rw [← wf.size_eq]
    have : resolveIndex s i = (k : Int) := by
      rw [hkdef]; exact (Int.toNat_of_nonneg h0).symm
    exact_mod_cast this ▸ h1
  have hna : nodeAt s i = some (c.getD k 0) := by
    rw [nodeAt_wf wf hs h0 h1, ← hkdef]
    rw [List.getElem?_eq_getElem hklt, List.getD_eq_getElem _ _ hklt]
  have wfm : WFc ({ s with modCount := s.modCount + 1 } : UltimateLinkedList α) c :=
    wf.with_modCount _
  obtain ⟨hv, wf2, hsz, hmc, hh, ht, hsk, hob, hlen, hvals⟩ := removeNode_wf wfm hklt
  unfold removeAt
  simp only [hna]
  refine ⟨hv, ?_, ?_, ?_, ?_, ?_, ?_, ?_, ?_⟩
  · exact WFc.of_preserves (preserves_skipIfP _ _) wf2
  · exact ((preserves_skipIfP _ _).sizeEq).trans hsz
  · exact ((preserves_skipIfP _ _).modCountEq).trans hmc
  · exact ((preserves_skipIfP _ _).headEq).trans hh
  · exact ((preserves_skipIfP _ _).tailEq).trans ht
  · exact ((preserves_skipIfP _ _).skipFlagEq).trans hsk
  · exact ((preserves_skipIfP _ _).len).trans hlen
  · intro j hj hjx
    exact (valueOf_of_preserves (preserves_skipIfP _ _) _).trans ((hvals j hj hjx).1)

/-- The resolved insertion index of `insertAt` (note the extra `+ 1` for
negative indices, unlike `resolveIndex`). -/
def resolveInsertIndex (s : UltimateLinkedList α) (i : Int) : Int :=
  if i < 0 then (s.size : Int) + i + 1 else i

/-- `insertAt` raises `RangeError` exactly when the resolved index is outside
`[0, size]` (no well-formedness needed: the check precedes everything). -/
theorem insertAt_error {s : UltimateLinkedList α} (v : α) {i : Int}
    (h : resolveInsertIndex s i < 0 ∨ (s.size : Int) < resolveInsertIndex s i) :
    insertAt s v i = .error "Index out of bounds" := by
  unfold resolveInsertIndex at h
  simp only [insertAt]
  rw [if_pos h]

/-- In-range `insertAt` with skip links disabled: succeeds and splices the
fresh node at the resolved position; the counter strictly increases. -/
theorem insertAt_ok {s : UltimateLinkedList α} {c : List Nat} (wf : WFc s c)
    (hs : s.useSkipLinks = false) (v : α) {i : Int} {k : Nat}
    (hk : resolveInsertIndex s i = (k : Int)) (hkle : k ≤ c.length) :
    ∃ s2, insertAt s v i = .ok s2 ∧
      WFc s2 (c.take k ++ s.nodes.length :: c.drop k) ∧
      s2.size = s.size + 1 ∧
      s.modCount < s2.modCount ∧
      s2.useSkipLinks = s.useSkipLinks ∧
      s2.head = s.head ∧ s2.tail = s.tail ∧
      s2.nodes.length = s.nodes.length + 1 ∧
      valueOf s2 s.nodes.length = some v ∧
      (∀ j ∈ c, valueOf s2 j = valueOf s j) := by
  have hsize : s.size = c.length := wf.size_eq
  unfold resolveInsertIndex at hk
  have hnotoob : ¬((k : Int) < 0 ∨ (s.size : Int) < (k : Int)) := by
    push_neg
    refine ⟨by exact_mod_cast Nat.zero_le k, ?_⟩
    exact_mod_cast (hsize ▸ hkle)
  have wfm : WFc ({ s with modCount := s.modCount + 1 } : UltimateLinkedList α) c :=
    wf.with_modCount _
  simp only [insertAt]
  rw [hk, if_neg hnotoob]
  by_cases hk0 : k = 0
  · subst hk0
    rw [if_pos (by norm_num)]
    obtain ⟨wf2, hsz, hmc, hh, ht, hsk, hob, hlen, hval, hins, hvals, hinss⟩ :=
      prepend_wf wfm v
    exact ⟨_, rfl, wf2, hsz, by rw [hmc]; exact Nat.lt_succ_of_lt (Nat.lt_succ_self _),
      hsk, hh, ht, hlen, hval, hvals⟩
  · rw [if_neg (by exact_mod_cast hk0)]
    by_cases hkend : k = c.length
    · rw [if_pos (by
        show (k : Int) = (s.size : Int)
        subst hkend
        exact_mod_cast hsize.symm)]
      obtain ⟨wf2, hsz, hmc, hh, ht, hsk, hob, hlen, hval, hins, hvals, hinss⟩ :=
        append_wf wfm v
      subst hkend
      rw [List.take_length, List.drop_length]
      exact ⟨_, rfl, wf2, hsz, by rw [hmc]; exact Nat.lt_succ_of_lt (Nat.lt_succ_self _),
        hsk, hh, ht, hlen, hval, hvals⟩
    · rw [if_neg (by
        intro hcontra
        have hks : (k : Int) = (s.size : Int) := hcontra
        have hkn : k = s.size := by exact_mod_cast hks
        exact hkend (hkn.trans hsize))]
      -- middle case: 0 < k < size; seek the predecessor at k - 1
      have hkpos : 0 < k := Nat.pos_of_ne_zero hk0
      have hklt : k < c.length := lt_of_le_of_ne hkle hkend
      obtain ⟨m, rfl⟩ : ∃ m, k = m + 1 := ⟨k - 1, by omega⟩
      have hres : resolveIndex ({ s with modCount := s.modCount + 1 } : UltimateLinkedList α)
          (((m + 1 : Nat) : Int) - 1) = (m : Int) := by
        unfold resolveIndex
        rw [if_neg (by push_cast; omega)]
        push_cast
        omega
      have hna : nodeAt ({ s with modCount := s.modCount + 1 } : UltimateLinkedList α)
          (((m + 1 : Nat) : Int) - 1) = some (c.getD m 0) := by
        rw [nodeAt_wf wfm hs (by rw [hres]; exact_mod_cast Nat.zero_le m)
          (by
            rw [hres]
            show (m : Int) < ((s.size : Nat) : Int)
            exact_mod_cast (by omega : m < s.size)), hres]
        have hmlt : m < c.length := by omega
        rw [Int.toNat_natCast, List.getElem?_eq_getElem hmlt, List.getD_eq_getElem _ _ hmlt]
      rw [hna]
      have hgd : c.getD m 0 =
          (({ s with modCount := s.modCount + 1 } : UltimateLinkedList α).head :: c).getD (m + 1) 0 := by
        rw [List.getD_cons_succ]
      rw [hgd]
      obtain ⟨wf2, hsz, hmc, hh, ht, hsk, hob, hlen, hval, hins, hvals, hinss⟩ :=
        addNodeAfter_wf wfm (le_of_lt hklt) v
      refine ⟨_, rfl, ?_, ?_, ?_, ?_, ?_, ?_, ?_, ?_, ?_⟩
      · exact WFc.of_preserves (preserves_skipIf _ _) wf2
      · exact ((preserves_skipIf _ _).sizeEq).trans hsz
      · rw [((preserves_skipIf _ _).modCountEq), hmc]; exact Nat.lt_succ_self _
      · exact ((preserves_skipIf _ _).skipFlagEq).trans hsk
      · exact ((preserves_skipIf _ _).headEq).trans hh
      · exact ((preserves_skipIf _ _).tailEq).trans ht
      · exact ((preserves_skipIf _ _).len).trans hlen
      · exact (valueOf_of_preserves (preserves_skipIf _ _) _).trans hval
      · intro j hj
        exact (valueOf_of_preserves (preserves_skipIf _ _) _).trans (hvals j hj)

/-! ### Value-only writes preserve the chain -/

/-- The pointer structure and the counters a chain proof depends on
(everything except node values, skip annotations and the event plumbing). -/
structure PreservesChain (s r : UltimateLinkedList α) : Prop where
  len : r.nodes.length = s.nodes.length
  headEq : r.head = s.head
  tailEq : r.tail = s.tail
  sizeEq : r.size = s.size
  modCountEq : r.modCount = s.modCount
  skipFlagEq : r.useSkipLinks = s.useSkipLinks
  nextEq : ∀ j, (getNode r j).next = (getNode s j).next
  prevEq : ∀ j, (getNode r j).prev = (getNode s j).prev
  insIdxEq : ∀ j, (getNode r j).insertionIndex = (getNode s j).insertionIndex

theorem PreservesChain.rfl (s : UltimateLinkedList α) : PreservesChain s s :=
  ⟨Eq.refl _, Eq.refl _, Eq.refl _, Eq.refl _, Eq.refl _, Eq.refl _,
   fun _ => Eq.refl _, fun _ => Eq.refl _, fun _ => Eq.refl _⟩

theorem PreservesChain.chain_trans {s r t : UltimateLinkedList α}
    (h1 : PreservesChain s r) (h2 : PreservesChain r t) : PreservesChain s t :=
  ⟨h2.len.trans h1.len, h2.headEq.trans h1.headEq, h2.tailEq.trans h1.tailEq,
   h2.sizeEq.trans h1.sizeEq, h2.modCountEq.trans h1.modCountEq,
   h2.skipFlagEq.trans h1.skipFlagEq,
   fun j => (h2.nextEq j).trans (h1.nextEq j),
   fun j => (h2.prevEq j).trans (h1.prevEq j),
   fun j => (h2.insIdxEq j).trans (h1.insIdxEq j)⟩

/-- Writing only the `value` field of one node preserves the chain. -/
theorem preservesChain_setValue (s : UltimateLinkedList α) (i : Nat) (v : Option α) :
    PreservesChain s (setNodeF s i (fun n => { n with value := v })) := by
  refine ⟨by simp, Eq.refl _, Eq.refl _, Eq.refl _, Eq.refl _, Eq.refl _, ?_, ?_, ?_⟩ <;>
  · intro j
    by_cases hj : j = i
    · subst hj
      by_cases hlen : j < s.nodes.length
      · rw [getNode_setNodeF_self _ hlen]
      · rw [setNodeF_oob _ (by omega)]
    · rw [getNode_setNodeF_ne _ hj]

/-- States with identical arenas, sentinels and size carry the same chains. -/
theorem preservesChain_of_fields {s r : UltimateLinkedList α}
    (hn : r.nodes = s.nodes) (hh : r.head = s.head) (ht : r.tail = s.tail)
    (hs : r.size = s.size) (hm : r.modCount = s.modCount)
    (hk : r.useSkipLinks = s.useSkipLinks) : PreservesChain s r :=
  ⟨by rw [hn], hh, ht, hs, hm, hk,
   fun j => by rw [getNode_eq_of_nodes_eq hn],
   fun j => by rw [getNode_eq_of_nodes_eq hn],
   fun j => by rw [getNode_eq_of_nodes_eq hn]⟩

/-- Transport of the invariant along a chain-preserving step. -/
theorem WFc.of_chain {s r : UltimateLinkedList α} {c : List Nat}
    (h : PreservesChain s r) (wf : WFc s c) : WFc r c := by
  refine ⟨?_, ?_, ?_, ?_, ?_, ?_⟩
  · rw [h.headEq, h.tailEq]
    exact Linked.congr (fun i _ => h.nextEq i) (fun i _ => h.prevEq i) wf.linked
  · rw [h.headEq, h.tailEq]; exact wf.nodup
  · rw [h.headEq, h.tailEq, h.len]; exact wf.bounded
  · rw [h.sizeEq]; exact wf.size_eq
  · rw [h.headEq]; unfold prevOf at *; rw [h.prevEq]; exact wf.head_prev
  · rw [h.tailEq]; unfold nextOf at *; rw [h.nextEq]; exact wf.tail_next

/-- A structure-preserving step (skip-link writes) is also chain-preserving. -/
theorem PreservesStructure.toChain {s r : UltimateLinkedList α}
    (h : PreservesStructure s r) : PreservesChain s r :=
  ⟨h.len, h.headEq, h.tailEq, h.sizeEq, h.modCountEq, h.skipFlagEq,
   h.nextEq, h.prevEq, h.insIdxEq⟩

/-! ### The modification counter across the operations -/

theorem addNodeAfter_modCount (s : UltimateLinkedList α) (p : Nat) (v : α) :
    (addNodeAfter s p v).modCount = s.modCount := by
  unfold addNodeAfter
  rcases nextOf s p with _ | q <;> simp

theorem removeNode_modCount (s : UltimateLinkedList α) (x : Nat) :
    (removeNode s x).2.modCount = s.modCount := by
  unfold removeNode
  rcases prevOf s x with _ | p <;> rcases nextOf s x with _ | q <;> simp

theorem updateSkipLinks_modCount (s : UltimateLinkedList α) :
    (updateSkipLinks s).modCount = s.modCount :=
  (updateSkipLinks_preserves s).modCountEq

theorem append_modCount (s : UltimateLinkedList α) (v : α) :
    (append s v).modCount = s.modCount + 1 := by
  simp only [append]
  rcases hp : prevOf ({ s with modCount := s.modCount + 1 } : UltimateLinkedList α)
      ({ s with modCount := s.modCount + 1 } : UltimateLinkedList α).tail with _ | p
  · simp only [hp]
    split
    · rw [updateSkipLinks_modCount]
    · rfl
  · simp only [hp]
    split
    · rw [updateSkipLinks_modCount]
      exact addNodeAfter_modCount _ _ _
    · exact addNodeAfter_modCount _ _ _

theorem prepend_modCount (s : UltimateLinkedList α) (v : α) :
    (prepend s v).modCount = s.modCount + 1 := by
  simp only [prepend]
  split
  · rw [updateSkipLinks_modCount]
    exact addNodeAfter_modCount _ _ _
  · exact addNodeAfter_modCount _ _ _

theorem insertAt_modCount {s : UltimateLinkedList α} {v : α} {i : Int}
    {s2 : UltimateLinkedList α} (h : insertAt s v i = .ok s2) :
    s.modCount < s2.modCount := by
  unfold insertAt at h
  by_cases hoob : (if i < 0 then (s.size : Int) + i + 1 else i) < 0 ∨
      (s.size : Int) < (if i < 0 then (s.size : Int) + i + 1 else i)
  · rw [if_pos hoob] at h; cases h
  · rw [if_neg hoob] at h
    by_cases h0 : (if i < 0 then (s.size : Int) + i + 1 else i) = 0
    · rw [if_pos h0] at h
      cases h
      rw [prepend_modCount]
      exact Nat.lt_succ_of_lt (Nat.lt_succ_self _)
    · rw [if_neg h0] at h
      by_cases hend : (if i < 0 then (s.size : Int) + i + 1 else i) =
          ((({ s with modCount := s.modCount + 1 } : UltimateLinkedList α)).size : Int)
      · rw [if_pos hend] at h
        cases h
        rw [append_modCount]
        exact Nat.lt_succ_of_lt (Nat.lt_succ_self _)
      · rw [if_neg hend] at h
        rcases hna : nodeAt ({ s with modCount := s.modCount + 1 } : UltimateLinkedList α)
            ((if i < 0 then (s.size : Int) + i + 1 else i) - 1) with _ | p
        · rw [hna] at h
          cases h
          exact Nat.lt_succ_self _
        · rw [hna] at h
          cases h
          split
          · rw [updateSkipLinks_modCount, addNodeAfter_modCount]
            exact Nat.lt_succ_self _
          · rw [addNodeAfter_modCount]
            exact Nat.lt_succ_self _

theorem removeAt_modCount {s : UltimateLinkedList α} {i : Int}
    (h : nodeAt s i ≠ none) :
    (removeAt s i).2.modCount = s.modCount + 1 := by
  unfold removeAt
  rcases hna : nodeAt s i with _ | x
  · exact absurd hna h
  · simp only [hna]
    have hrm : (removeNode ({ s with modCount := s.modCount + 1 } :
        UltimateLinkedList α) x).2.modCount = s.modCount + 1 :=
      removeNode_modCount _ x
    split
    · rw [updateSkipLinks_modCount, hrm]
    · exact hrm

theorem clear_modCount {s : UltimateLinkedList α} (h : s.size ≠ 0) :
    (clear s).modCount = s.modCount + 1 := by
  unfold clear
  rw [if_neg h]
  simp

theorem reverseLoop_modCount (s : UltimateLinkedList α) :
    ∀ (fuel : Nat) (o : Option Nat), (reverseLoop s fuel o).modCount = s.modCount := by
  intro fuel
  induction fuel generalizing s with
  | zero => intro o; cases o <;> rfl
  | succ fuel ih =>
    intro o
    rcases o with _ | n
    · rfl
    · rw [reverseLoop, ih]
      simp

theorem reverse_modCount {s : UltimateLinkedList α} (h : 2 ≤ s.size) :
    (reverse s).modCount = s.modCount + 1 := by
  simp only [reverse]
  rw [if_neg (by omega), notifyIf_modCount]
  split
  · rw [updateSkipLinks_modCount]
    exact reverseLoop_modCount _ _ _
  · exact reverseLoop_modCount _ _ _

theorem writeValues_modCount (s : UltimateLinkedList α) :
    ∀ (fuel cur : Nat) (vs : List (Option α × Nat)),
      (writeValues s fuel cur vs).modCount = s.modCount := by
  intro fuel
  induction fuel generalizing s with
  | zero => intro cur vs; cases vs <;> rfl
  | succ fuel ih =>
    intro cur vs
    rcases vs with _ | ⟨v, vs⟩
    · rfl
    · rw [writeValues]
      rcases hnx : nextOf (setNodeF s cur (fun nd => { nd with value := v.1 })) cur
        with _ | nx
      · simp only [hnx]; simp
      · simp only [hnx]; rw [ih]; simp

theorem sort_modCount {s : UltimateLinkedList α} (h : ¬ s.size ≤ 1) (cmp) :
    (sort s cmp).modCount = s.modCount + 1 := by
  unfold sort
  rw [if_neg h]
  rcases hnx : nextOf ({ s with modCount := s.modCount + 1 } : UltimateLinkedList α)
      ({ s with modCount := s.modCount + 1 } : UltimateLinkedList α).head with _ | n0
  · simp only [hnx]
    rw [notifyIf_modCount]
  · simp only [hnx]
    rw [notifyIf_modCount]
    exact writeValues_modCount _ _ _ _

theorem concat_modCount {s other : UltimateLinkedList α} (h : other.size ≠ 0) :
    (concat s other).1.modCount = s.modCount + 1 := by
  simp only [concat]
  rw [if_neg h]
  split
  all_goals
    first
      | rfl
      | (rw [notifyIf_modCount]
         split
         · rw [updateSkipLinks_modCount]; rfl
         · rfl)

/-! ### `set` leaves the counter alone and keeps the chain -/

theorem set_modCount (s : UltimateLinkedList α) (i : Int) (v : α) :
    (set s i v).2.modCount = s.modCount := by
  unfold set
  rcases hna : nodeAt s i with _ | n
  · rfl
  · simp only [hna]
    rw [notifyIf_modCount]
    simp

theorem set_oob {s : UltimateLinkedList α} {i : Int} (v : α)
    (h : nodeAt s i = none) : set s i v = (false, s) := by
  unfold set
  rw [h]

/-- A successful `set` keeps the invariant on the same chain. -/
theorem set_chain {s : UltimateLinkedList α} {i : Int} {n : Nat} (v : α)
    (h : nodeAt s i = some n) :
    (set s i v).1 = true ∧ PreservesChain s (set s i v).2 := by
  unfold set
  rw [h]
  refine ⟨rfl, ?_⟩
  refine PreservesChain.chain_trans (preservesChain_setValue s n (some v)) ?_
  refine preservesChain_of_fields ?_ ?_ ?_ ?_ ?_ ?_ <;> simp

/-! ### The native iterator on an unmodified list -/

/-- On a matching counter, the iterator walk yields exactly the chain's
values, in forward order. -/
theorem iterRun_linked {s : UltimateLinkedList α} :
    ∀ {c : List Nat} {a : Nat}, Linked s a c s.tail → s.tail ∉ c →
      ∀ fuel, c.length < fuel →
        iterRun s fuel ⟨s.modCount, a⟩ = .ok (c.map (valueOf s)) := by
  intro c
  induction c with
  | nil =>
    intro a h _ fuel hf
    match fuel with
    | fuel + 1 =>
      rw [iterRun]
      unfold iterNext
      rw [if_neg (by simp)]
      simp [h.1]
  | cons y c' ih =>
    intro a h ht fuel hf
    match fuel with
    | fuel + 1 =>
      rw [iterRun]
      unfold iterNext
      rw [if_neg (by simp)]
      have hyt : y ≠ s.tail := fun hh => ht (by simp [hh])
      simp only [h.1.1, hyt, if_false]
      have := ih h.2 (fun hh => ht (by simp [hh])) fuel (by simp at hf ⊢; omega)
      simp [this, Except.map]

/-- A counter mismatch makes the very next `next()` call fail. -/
theorem iterNext_modCount_mismatch (s : UltimateLinkedList α) (it : ListIterator)
    (h : it.expectedModCount ≠ s.modCount) :
    iterNext s it = .error "Concurrent modification during iteration" := by
  unfold iterNext
  rw [if_pos h]

/-! ### The collection and write-back loops of `sort` -/

/-- The collecting walk of `sort` along a linked chain gathers exactly the
`(value, insertionIndex)` pairs of the chain. -/
theorem collectPairs_linked {s : UltimateLinkedList α} :
    ∀ {c : List Nat} {a x : Nat}, Linked s a c s.tail → s.tail ∉ c →
      nextOf s a = some x →
      ∀ fuel, c.length < fuel →
        collectPairs s fuel x = c.map (fun j => (valueOf s j, insIdxOf s j)) := by
  intro c
  induction c with
  | nil =>
    intro a x h _ hx fuel hf
    match fuel with
    | fuel + 1 =>
      have : x = s.tail := by
        have h1 := h.1; rw [hx] at h1; exact Option.some_inj.mp h1
      simp [collectPairs, this]
  | cons y c' ih =>
    intro a x h ht hx fuel hf
    match fuel with
    | fuel + 1 =>
      have hxy : x = y := by
        have h1 := h.1.1; rw [hx] at h1; exact Option.some_inj.mp h1
      subst hxy
      have hyt : x ≠ s.tail := fun hh => ht (by simp [hh])
      obtain ⟨x2, hx2⟩ := h.2.next_head
      have := ih h.2 (fun hh => ht (by simp [hh])) hx2 fuel (by simp at hf ⊢; omega)
      simp [collectPairs, hyt, hx2, this]

/-- The write-back walk of `sort`: walking a linked chain with as many values
as chain nodes rewrites each node's value in order, changes nothing else, and
leaves values outside the chain alone. -/
theorem writeValues_linked :
    ∀ {c : List Nat} (s : UltimateLinkedList α) {a : Nat}
      (vs : List (Option α × Nat)) (fuel : Nat),
      Linked s a c s.tail → c.Nodup → s.tail ∉ c →
      (∀ x ∈ c, x < s.nodes.length) →
      nextOf s a = (c ++ [s.tail])[0]? →
      vs.length = c.length → c.length ≤ fuel →
      PreservesChain s (writeValues s fuel ((c ++ [s.tail]).getD 0 0) vs) ∧
      c.map (valueOf (writeValues s fuel ((c ++ [s.tail]).getD 0 0) vs)) =
        vs.map Prod.fst ∧
      (∀ j, j ∉ c →
        valueOf (writeValues s fuel ((c ++ [s.tail]).getD 0 0) vs) j = valueOf s j) := by
  intro c
  induction c with
  | nil =>
    intro s a vs fuel _ _ _ _ _ hlen _
    have hvs : vs = [] := List.length_eq_zero.mp hlen
    subst hvs
    have hwv : writeValues s fuel s.tail [] = s := by
      cases fuel <;> rfl
    simp only [List.nil_append, List.getD_cons_zero, hwv]
    exact ⟨PreservesChain.rfl s, by simp, by simp⟩
  | cons y c' ih =>
    intro s a vs fuel h hnd ht hb hx hlen hf
    match vs, fuel with
    | v :: vs', fuel + 1 =>
      simp only [List.cons_append, List.getD_cons_zero]
      rw [writeValues]
      set s1 := setNodeF s y (fun nd => { nd with value := v.1 }) with hs1
      have hpc1 : PreservesChain s s1 := by
        rw [hs1]
        have : (fun nd : Node α => { nd with value := v.1 }) =
            (fun nd : Node α => { nd with value := (v.1 : Option α) }) := rfl
        exact preservesChain_setValue s y v.1
      have hylen : y < s.nodes.length := hb y (by simp)
      have hval1 : valueOf s1 y = v.1 := by
        rw [hs1]
        unfold valueOf
        rw [getNode_setNodeF_self _ hylen]
      have hval1' : ∀ j, j ≠ y → valueOf s1 j = valueOf s j := by
        intro j hj
        rw [hs1]
        unfold valueOf
        rw [getNode_setNodeF_ne _ hj]
      have htail1 : s1.tail = s.tail := hpc1.tailEq
      have hlink1 : Linked s1 y c' s1.tail := by
        rw [htail1]
        exact Linked.congr (fun i _ => hpc1.nextEq i) (fun i _ => hpc1.prevEq i) h.2
      have hnx1 : nextOf s1 y = (c' ++ [s1.tail])[0]? := by
        unfold nextOf
        rw [hpc1.nextEq y, htail1]
        rcases c' with _ | ⟨z, c''⟩
        · simpa using h.2.1
        · simpa using h.2.1.1
      have hnext : nextOf s1 y = some ((c' ++ [s.tail]).getD 0 0) := by
        rw [hnx1, htail1]
        rcases c' with _ | ⟨z, c''⟩ <;> simp
      rw [hnext]
      have hrec := ih s1 vs' fuel hlink1 (List.nodup_cons.mp hnd).2
        (by rw [htail1]; exact fun hh => ht (by simp [hh]))
        (fun x hxm => by rw [hpc1.len]; exact hb x (by simp [hxm]))
        hnx1
        (by simpa using hlen) (by simp at hf ⊢; omega)
      have hgd : ((c' ++ [s1.tail]).getD 0 0) = ((c' ++ [s.tail]).getD 0 0) := by
        rw [htail1]
      rw [hgd] at hrec
      obtain ⟨hpc2, hmap2, hout2⟩ := hrec
      have hyc' : y ∉ c' := (List.nodup_cons.mp hnd).1
      refine ⟨hpc1.chain_trans hpc2, ?_, ?_⟩
      · simp only [List.map_cons]
        rw [hout2 y hyc', hval1, hmap2]
      · intro j hj
        rw [hout2 j (fun hh => hj (by simp [hh])), hval1' j (fun hh => hj (by simp [hh]))]

/-- `sort` on a well-formed list: the chain and the counter apart, it only
permutes values, writing back the merge sort of the `(value, insertionIndex)`
pairs under `compareWithIndex`. -/
theorem sort_wf {s : UltimateLinkedList α} {c : List Nat} (wf : WFc s c)
    (h2 : ¬ s.size ≤ 1) (cmp : Option α → Option α → Int) :
    WFc (sort s cmp) c ∧
    (sort s cmp).size = s.size ∧
    c.map (valueOf (sort s cmp)) =
      ((c.map (fun j => (valueOf s j, insIdxOf s j))).mergeSort
        (fun a b => compareWithIndex cmp a b ≤ 0)).map Prod.fst := by
  have hs1 : WFc ({ s with modCount := s.modCount + 1 } : UltimateLinkedList α) c :=
    wf.with_modCount _
  unfold sort
  rw [if_neg h2]
  rcases hc : c with _ | ⟨y, c'⟩
  · exact absurd (by rw [wf.size_eq, hc]; simp : s.size ≤ 1) h2
  · rw [hc] at hs1
    have hn0 : nextOf ({ s with modCount := s.modCount + 1 } : UltimateLinkedList α)
        ({ s with modCount := s.modCount + 1 } : UltimateLinkedList α).head = some y :=
      hs1.linked.1.1
    simp only [hn0]
    have hcoll : collectPairs ({ s with modCount := s.modCount + 1 } : UltimateLinkedList α)
        (({ s with modCount := s.modCount + 1 } : UltimateLinkedList α).nodes.length + 1) y =
        (y :: c').map (fun j =>
          (valueOf ({ s with modCount := s.modCount + 1 } : UltimateLinkedList α) j,
           insIdxOf ({ s with modCount := s.modCount + 1 } : UltimateLinkedList α) j)) :=
      collectPairs_linked hs1.linked hs1.tail_not_mem hn0 _
        (by have := hs1.full_len_le; simp at this ⊢; omega)
    have hlen : ((collectPairs ({ s with modCount := s.modCount + 1 } : UltimateLinkedList α)
        (({ s with modCount := s.modCount + 1 } : UltimateLinkedList α).nodes.length + 1) y).mergeSort
          (fun a b => compareWithIndex cmp a b ≤ 0)).length = (y :: c').length := by
      rw [List.length_mergeSort, hcoll, List.length_map]
    have hwv := writeValues_linked ({ s with modCount := s.modCount + 1 } : UltimateLinkedList α)
      ((collectPairs ({ s with modCount := s.modCount + 1 } : UltimateLinkedList α)
        (({ s with modCount := s.modCount + 1 } : UltimateLinkedList α).nodes.length + 1) y).mergeSort
          (fun a b => compareWithIndex cmp a b ≤ 0))
      (({ s with modCount := s.modCount + 1 } : UltimateLinkedList α).nodes.length + 1)
      hs1.linked hs1.chain_nodup hs1.tail_not_mem (fun x hx => hs1.mem_lt hx)
      (by simp only [List.cons_append]
          rw [List.getElem?_cons_zero]
          exact hn0)
      hlen
      (by have := hs1.full_len_le; simp at this ⊢; omega)
    simp only [List.cons_append, List.getD_cons_zero] at hwv
    obtain ⟨hpcW, hmapW, houtW⟩ := hwv
    have hpcN : PreservesChain
        (writeValues ({ s with modCount := s.modCount + 1 } : UltimateLinkedList α)
          (({ s with modCount := s.modCount + 1 } : UltimateLinkedList α).nodes.length + 1) y
          ((collectPairs ({ s with modCount := s.modCount + 1 } : UltimateLinkedList α)
            (({ s with modCount := s.modCount + 1 } : UltimateLinkedList α).nodes.length + 1) y).mergeSort
              (fun a b => compareWithIndex cmp a b ≤ 0)))
        (if (writeValues ({ s with modCount := s.modCount + 1 } : UltimateLinkedList α)
          (({ s with modCount := s.modCount + 1 } : UltimateLinkedList α).nodes.length + 1) y
          ((collectPairs ({ s with modCount := s.modCount + 1 } : UltimateLinkedList α)
            (({ s with modCount := s.modCount + 1 } : UltimateLinkedList α).nodes.length + 1) y).mergeSort
              (fun a b => compareWithIndex cmp a b ≤ 0))).observable = true
         then notify (writeValues ({ s with modCount := s.modCount + 1 } : UltimateLinkedList α)
          (({ s with modCount := s.modCount + 1 } : UltimateLinkedList α).nodes.length + 1) y
          ((collectPairs ({ s with modCount := s.modCount + 1 } : UltimateLinkedList α)
            (({ s with modCount := s.modCount + 1 } : UltimateLinkedList α).nodes.length + 1) y).mergeSort
              (fun a b => compareWithIndex cmp a b ≤ 0))) Event.sort
         else writeValues ({ s with modCount := s.modCount + 1 } : UltimateLinkedList α)
          (({ s with modCount := s.modCount + 1 } : UltimateLinkedList α).nodes.length + 1) y
          ((collectPairs ({ s with modCount := s.modCount + 1 } : UltimateLinkedList α)
            (({ s with modCount := s.modCount + 1 } : UltimateLinkedList α).nodes.length + 1) y).mergeSort
              (fun a b => compareWithIndex cmp a b ≤ 0))) :=
      preservesChain_of_fields (notifyIf_nodes _ _ _) (notifyIf_head _ _ _)
        (notifyIf_tail _ _ _) (notifyIf_size _ _ _) (notifyIf_modCount _ _ _)
        (notifyIf_useSkipLinks _ _ _)
    refine ⟨?_, ?_, ?_⟩
    · exact WFc.of_chain hpcN (WFc.of_chain hpcW hs1)
    · exact hpcN.sizeEq.trans hpcW.sizeEq
    · calc (y :: c').map (valueOf _)
          = (y :: c').map (valueOf (writeValues ({ s with modCount := s.modCount + 1 } : UltimateLinkedList α)
              (({ s with modCount := s.modCount + 1 } : UltimateLinkedList α).nodes.length + 1) y
              ((collectPairs ({ s with modCount := s.modCount + 1 } : UltimateLinkedList α)
                (({ s with modCount := s.modCount + 1 } : UltimateLinkedList α).nodes.length + 1) y).mergeSort
                  (fun a b => compareWithIndex cmp a b ≤ 0)))) := by
            refine List.map_congr_left (fun j _ => ?_)
            unfold valueOf
            rw [getNode_notifyIf]
        _ = _ := by
            rw [hmapW, hcoll]
            exact rfl

/-! ### Splicing two arenas: `concat` -/

theorem getD_append_right2 {l1 l2 : List Nat} (d : Nat) (m : Nat) :
    (l1 ++ l2).getD (l1.length + m) d = l2.getD m d := by
  simp only [List.getD_eq_getElem?_getD]
  rw [List.getElem?_append_right (by omega)]
  simp

/-- Converse of `linked_link_at`: pointwise links assemble into a chain. -/
theorem linked_of_links {s : UltimateLinkedList α} :
    ∀ {a b : Nat} {c : List Nat},
      (∀ k, k ≤ c.length → IsLink s ((a :: c).getD k 0) ((c ++ [b]).getD k 0)) →
      Linked s a c b := by
  intro a b c
  induction c generalizing a with
  | nil =>
    intro h
    simpa using h 0 (by simp)
  | cons x xs ih =>
    intro h
    refine ⟨by simpa using h 0 (by simp), ?_⟩
    refine ih (fun k hk => ?_)
    have := h (k + 1) (by simp; omega)
    simpa using this

/-- A node write that keeps the `value` field keeps every `valueOf`. -/
theorem valueOf_setNodeF_keep {s : UltimateLinkedList α} {i : Nat}
    {f : Node α → Node α} (hf : ∀ n, (f n).value = n.value) (j : Nat) :
    valueOf (setNodeF s i f) j = valueOf s j := by
  unfold valueOf
  by_cases hj : j = i
  · subst hj
    by_cases hlen : j < s.nodes.length
    · rw [getNode_setNodeF_self _ hlen, hf]
    · rw [setNodeF_oob _ (by omega)]
  · rw [getNode_setNodeF_ne _ hj]

/-- Writing `prev` never changes `nextOf`. -/
theorem nextOf_set_prev (s : UltimateLinkedList α) (i : Nat) (o : Option Nat) (j : Nat) :
    nextOf (setNodeF s i (fun n => { n with prev := o })) j = nextOf s j := by
  unfold nextOf
  by_cases hj : j = i
  · subst hj
    by_cases hlen : j < s.nodes.length
    · rw [getNode_setNodeF_self _ hlen]
    · rw [setNodeF_oob _ (by omega)]
  · rw [getNode_setNodeF_ne _ hj]

/-- Writing `next` never changes `prevOf`. -/
theorem prevOf_set_next (s : UltimateLinkedList α) (i : Nat) (o : Option Nat) (j : Nat) :
    prevOf (setNodeF s i (fun n => { n with next := o })) j = prevOf s j := by
  unfold prevOf
  by_cases hj : j = i
  · subst hj
    by_cases hlen : j < s.nodes.length
    · rw [getNode_setNodeF_self _ hlen]
    · rw [setNodeF_oob _ (by omega)]
  · rw [getNode_setNodeF_ne _ hj]

/-- Writing `next` never changes `valueOf`. -/
theorem valueOf_set_next (s : UltimateLinkedList α) (i : Nat) (o : Option Nat) (j : Nat) :
    valueOf (setNodeF s i (fun n => { n with next := o })) j = valueOf s j := by
  unfold valueOf
  by_cases hj : j = i
  · subst hj
    by_cases hlen : j < s.nodes.length
    · rw [getNode_setNodeF_self _ hlen]
    · rw [setNodeF_oob _ (by omega)]
  · rw [getNode_setNodeF_ne _ hj]

/-- Writing `prev` never changes `valueOf`. -/
theorem valueOf_set_prev (s : UltimateLinkedList α) (i : Nat) (o : Option Nat) (j : Nat) :
    valueOf (setNodeF s i (fun n => { n with prev := o })) j = valueOf s j := by
  unfold valueOf
  by_cases hj : j = i
  · subst hj
    by_cases hlen : j < s.nodes.length
    · rw [getNode_setNodeF_self _ hlen]
    · rw [setNodeF_oob _ (by omega)]
  · rw [getNode_setNodeF_ne _ hj]

/-- Writing `next` never changes `insIdxOf`. -/
theorem insIdxOf_set_next (s : UltimateLinkedList α) (i : Nat) (o : Option Nat) (j : Nat) :
    insIdxOf (setNodeF s i (fun n => { n with next := o })) j = insIdxOf s j := by
  unfold insIdxOf
  by_cases hj : j = i
  · subst hj
    by_cases hlen : j < s.nodes.length
    · rw [getNode_setNodeF_self _ hlen]
    · rw [setNodeF_oob _ (by omega)]
  · rw [getNode_setNodeF_ne _ hj]

/-- Writing `prev` never changes `insIdxOf`. -/
theorem insIdxOf_set_prev (s : UltimateLinkedList α) (i : Nat) (o : Option Nat) (j : Nat) :
    insIdxOf (setNodeF s i (fun n => { n with prev := o })) j = insIdxOf s j := by
  unfold insIdxOf
  by_cases hj : j = i
  · subst hj
    by_cases hlen : j < s.nodes.length
    · rw [getNode_setNodeF_self _ hlen]
    · rw [setNodeF_oob _ (by omega)]
  · rw [getNode_setNodeF_ne _ hj]

/-- A write at `i` leaves `nextOf` elsewhere alone. -/
theorem nextOf_setNodeF_ne {s : UltimateLinkedList α} {i j : Nat}
    (f : Node α → Node α) (hj : j ≠ i) : nextOf (setNodeF s i f) j = nextOf s j := by
  unfold nextOf
  rw [getNode_setNodeF_ne _ hj]

/-- A write at `i` leaves `prevOf` elsewhere alone. -/
theorem prevOf_setNodeF_ne {s : UltimateLinkedList α} {i j : Nat}
    (f : Node α → Node α) (hj : j ≠ i) : prevOf (setNodeF s i f) j = prevOf s j := by
  unfold prevOf
  rw [getNode_setNodeF_ne _ hj]

theorem nextOf_setNodeF_next {s : UltimateLinkedList α} {i : Nat} (o : Option Nat)
    (h : i < s.nodes.length) :
    nextOf (setNodeF s i (fun n => { n with next := o })) i = o := by
  unfold nextOf
  rw [getNode_setNodeF_self _ h]

theorem prevOf_setNodeF_prev {s : UltimateLinkedList α} {i : Nat} (o : Option Nat)
    (h : i < s.nodes.length) :
    prevOf (setNodeF s i (fun n => { n with prev := o })) i = o := by
  unfold prevOf
  rw [getNode_setNodeF_self _ h]

/-- Reading below the old length in an extended arena (with a new counter). -/
theorem getNode_ext_lt {s : UltimateLinkedList α} (l : List (Node α)) (m : Nat)
    {j : Nat} (h : j < s.nodes.length) :
    getNode { s with nodes := s.nodes ++ l, modCount := m } j = getNode s j := by
  simp [getNode, List.getElem?_append_left h]

/-- Reading a re-based donor node in the merged arena. -/
theorem getNode_ext_shift {s other : UltimateLinkedList α} (m : Nat)
    {x : Nat} (h : x < other.nodes.length) :
    getNode { s with nodes := s.nodes ++ other.nodes.map (shiftNode s.nodes.length),
                     modCount := m } (x + s.nodes.length) =
      shiftNode s.nodes.length (getNode other x) := by
  simp only [getNode]
  rw [List.getD_eq_getElem?_getD, List.getElem?_append_right (by omega),
    Nat.add_sub_cancel, List.getElem?_map, List.getElem?_eq_getElem h]
  rw [List.getD_eq_getElem _ _ h]
  rfl

@[simp] theorem shiftNode_next (off : Nat) (n : Node α) :
    (shiftNode off n).next = n.next.map (· + off) := rfl
@[simp] theorem shiftNode_prev (off : Nat) (n : Node α) :
    (shiftNode off n).prev = n.prev.map (· + off) := rfl
@[simp] theorem shiftNode_value (off : Nat) (n : Node α) :
    (shiftNode off n).value = n.value := rfl

/-- A donor chain, re-based by `+ off`, is a chain of the merged arena. -/
theorem linked_shift {s1 other : UltimateLinkedList α} (off : Nat)
    (hget : ∀ x, x < other.nodes.length →
      getNode s1 (x + off) = shiftNode off (getNode other x)) :
    ∀ {a b : Nat} {c : List Nat},
      (∀ i ∈ a :: c ++ [b], i < other.nodes.length) →
      Linked other a c b →
      Linked s1 (a + off) (c.map (· + off)) (b + off) := by
  intro a b c
  induction c generalizing a with
  | nil =>
    intro hb h
    refine ⟨?_, ?_⟩
    · unfold nextOf
      rw [hget a (hb a (by simp)), shiftNode_next]
      have h1 := h.1
      unfold nextOf at h1
      rw [h1]
      rfl
    · unfold prevOf
      rw [hget b (hb b (by simp)), shiftNode_prev]
      have h2 := h.2
      unfold prevOf at h2
      rw [h2]
      rfl
  | cons x xs ih =>
    intro hb h
    refine ⟨⟨?_, ?_⟩, ?_⟩
    · unfold nextOf
      rw [hget a (hb a (by simp)), shiftNode_next]
      have h1 := h.1.1
      unfold nextOf at h1
      rw [h1]
      rfl
    · unfold prevOf
      rw [hget x (hb x (by simp)), shiftNode_prev]
      have h2 := h.1.2
      unfold prevOf at h2
      rw [h2]
      rfl
    · exact ih (fun i hi => hb i (by simp at hi ⊢; tauto)) h.2

theorem getD_mem_of_lt {l : List Nat} {k : Nat} (h : k < l.length) (d : Nat) :
    l.getD k d ∈ l := by
  rw [List.getD_eq_getElem _ _ h]
  exact List.getElem_mem _

/-- The four pointer writes of `concat` splice a donor chain into the host
chain between the host's last node and its tail sentinel. -/
theorem linked_splice {S : UltimateLinkedList α} {hA tA hB tB : Nat}
    {cA cB : List Nat} {tl oh ot : Nat}
    (h1 : Linked S hA cA tA) (h2 : Linked S hB cB tB) (hne : cB ≠ [])
    (htl : tl = (hA :: cA).getD cA.length 0)
    (hoh : oh = cB.getD 0 0) (hot : ot = cB.getD (cB.length - 1) 0)
    (hndA : ((hA :: cA) ++ [tA]).Nodup) (hndB : cB.Nodup)
    (hdisj : ∀ x ∈ (hA :: cA) ++ [tA], x ∉ cB)
    (hbA : ∀ x ∈ (hA :: cA) ++ [tA], x < S.nodes.length)
    (hbB : ∀ x ∈ cB, x < S.nodes.length) :
    Linked (setNodeF (setNodeF (setNodeF (setNodeF S
        tl (fun n => { n with next := some oh }))
        oh (fun n => { n with prev := some tl }))
        ot (fun n => { n with next := some tA }))
        tA (fun n => { n with prev := some ot }))
      hA (cA ++ cB) tA ∧
    prevOf (setNodeF (setNodeF (setNodeF (setNodeF S
        tl (fun n => { n with next := some oh }))
        oh (fun n => { n with prev := some tl }))
        ot (fun n => { n with next := some tA }))
        tA (fun n => { n with prev := some ot })) hA = prevOf S hA ∧
    nextOf (setNodeF (setNodeF (setNodeF (setNodeF S
        tl (fun n => { n with next := some oh }))
        oh (fun n => { n with prev := some tl }))
        ot (fun n => { n with next := some tA }))
        tA (fun n => { n with prev := some ot })) tA = nextOf S tA ∧
    (∀ j, valueOf (setNodeF (setNodeF (setNodeF (setNodeF S
        tl (fun n => { n with next := some oh }))
        oh (fun n => { n with prev := some tl }))
        ot (fun n => { n with next := some tA }))
        tA (fun n => { n with prev := some ot })) j = valueOf S j) ∧
    (∀ j, insIdxOf (setNodeF (setNodeF (setNodeF (setNodeF S
        tl (fun n => { n with next := some oh }))
        oh (fun n => { n with prev := some tl }))
        ot (fun n => { n with next := some tA }))
        tA (fun n => { n with prev := some ot })) j = insIdxOf S j) := by
  have hcb0 : 0 < cB.length := List.length_pos.mpr hne
  have htlmem : tl ∈ hA :: cA := by
    rw [htl]; exact getD_mem_of_lt (by simp) 0
  have hohmem : oh ∈ cB := by
    rw [hoh]; exact getD_mem_of_lt hcb0 0
  have hotmem : ot ∈ cB := by
    rw [hot]; exact getD_mem_of_lt (by omega) 0
  have hndA2 : (hA :: cA).Nodup := hndA.of_append_left
  have htAnotin : tA ∉ hA :: cA := by
    rw [List.nodup_append] at hndA
    exact fun hm => hndA.2.2 hm (by simp)
  have htAcb : tA ∉ cB := hdisj tA (List.mem_append_right _ (by simp))
  have htlcb : tl ∉ cB := hdisj tl (List.mem_append_left _ htlmem)
  have htl_ne_ot : tl ≠ ot := fun he => htlcb (he ▸ hotmem)
  have htA_ne_tl : tA ≠ tl := fun he => htAnotin (he ▸ htlmem)
  have htA_ne_ot : tA ≠ ot := fun he => htAcb (he ▸ hotmem)
  have hoh_ne_tA : oh ≠ tA := fun he => htAcb (he ▸ hohmem)
  have htlb : tl < S.nodes.length := hbA tl (List.mem_append_left _ htlmem)
  have htAb : tA < S.nodes.length := hbA tA (List.mem_append_right _ (by simp))
  have hohb : oh < S.nodes.length := hbB oh hohmem
  have hotb : ot < S.nodes.length := hbB ot hotmem
  -- pointer formulas through the four writes
  have fnext : ∀ j, j ≠ tl → j ≠ ot →
      nextOf (setNodeF (setNodeF (setNodeF (setNodeF S
        tl (fun n => { n with next := some oh }))
        oh (fun n => { n with prev := some tl }))
        ot (fun n => { n with next := some tA }))
        tA (fun n => { n with prev := some ot })) j = nextOf S j := by
    intro j hjtl hjot
    rw [nextOf_set_prev, nextOf_setNodeF_ne _ hjot,
      nextOf_set_prev, nextOf_setNodeF_ne _ hjtl]
  have fnext_tl :
      nextOf (setNodeF (setNodeF (setNodeF (setNodeF S
        tl (fun n => { n with next := some oh }))
        oh (fun n => { n with prev := some tl }))
        ot (fun n => { n with next := some tA }))
        tA (fun n => { n with prev := some ot })) tl = some oh := by
    rw [nextOf_set_prev, nextOf_setNodeF_ne _ htl_ne_ot,
      nextOf_set_prev, nextOf_setNodeF_next _ htlb]
  have fnext_ot :
      nextOf (setNodeF (setNodeF (setNodeF (setNodeF S
        tl (fun n => { n with next := some oh }))
        oh (fun n => { n with prev := some tl }))
        ot (fun n => { n with next := some tA }))
        tA (fun n => { n with prev := some ot })) ot = some tA := by
    rw [nextOf_set_prev, nextOf_setNodeF_next _ (by simpa using hotb)]
  have fprev : ∀ j, j ≠ oh → j ≠ tA →
      prevOf (setNodeF (setNodeF (setNodeF (setNodeF S
        tl (fun n => { n with next := some oh }))
        oh (fun n => { n with prev := some tl }))
        ot (fun n => { n with next := some tA }))
        tA (fun n => { n with prev := some ot })) j = prevOf S j := by
    intro j hjoh hjtA
    rw [prevOf_setNodeF_ne _ hjtA, prevOf_set_next,
      prevOf_setNodeF_ne _ hjoh, prevOf_set_next]
  have fprev_oh :
      prevOf (setNodeF (setNodeF (setNodeF (setNodeF S
        tl (fun n => { n with next := some oh }))
        oh (fun n => { n with prev := some tl }))
        ot (fun n => { n with next := some tA }))
        tA (fun n => { n with prev := some ot })) oh = some tl := by
    rw [prevOf_setNodeF_ne _ hoh_ne_tA, prevOf_set_next,
      prevOf_setNodeF_prev _ (by simpa using hohb)]
  have fprev_tA :
      prevOf (setNodeF (setNodeF (setNodeF (setNodeF S
        tl (fun n => { n with next := some oh }))
        oh (fun n => { n with prev := some tl }))
        ot (fun n => { n with next := some tA }))
        tA (fun n => { n with prev := some ot })) tA = some ot :=
    prevOf_setNodeF_prev _ (by simpa using htAb)
  refine ⟨?_, ?_, ?_, ?_, ?_⟩
  · refine linked_of_links (fun k hk => ?_)
    simp only [List.length_append] at hk
    rcases lt_trichotomy k cA.length with hklt | hkeq | hkgt
    · -- inside the host chain
      have hsrc : ((hA :: (cA ++ cB)).getD k 0) = (hA :: cA).getD k 0 := by
        rw [show hA :: (cA ++ cB) = (hA :: cA) ++ cB from rfl]
        exact getD_append_left2 0 (by simp; omega)
      have htgt : (((cA ++ cB) ++ [tA]).getD k 0) = cA.getD k 0 := by
        rw [List.append_assoc]
        exact getD_append_left2 0 hklt
      have hl := linked_link_at k h1 (le_of_lt hklt)
      have hltgt : ((cA ++ [tA]).getD k 0) = cA.getD k 0 := getD_append_left2 0 hklt
      rw [hltgt] at hl
      have hsrc_ne_tl : (hA :: cA).getD k 0 ≠ tl := by
        rw [htl]
        exact nodup_getD_ne hndA2 (by omega) (by simp; omega) (by simp) 0
      have hsrcmem : (hA :: cA).getD k 0 ∈ hA :: cA := getD_mem_of_lt (by simp; omega) 0
      have hsrc_ne_ot : (hA :: cA).getD k 0 ≠ ot :=
        fun he => (hdisj _ (List.mem_append_left _ hsrcmem)) (he ▸ hotmem)
      have htgtmem : cA.getD k 0 ∈ cA := getD_mem_of_lt hklt 0
      have htgt_ne_oh : cA.getD k 0 ≠ oh :=
        fun he => (hdisj _ (List.mem_append_left _ (List.mem_cons_of_mem _ htgtmem)))
          (he ▸ hohmem)
      have htgt_ne_tA : cA.getD k 0 ≠ tA := by
        intro he
        rw [List.nodup_append] at hndA
        exact hndA.2.2 (List.mem_cons_of_mem _ htgtmem) (List.mem_singleton.mpr he)
      rw [hsrc, htgt]
      exact ⟨(fnext _ hsrc_ne_tl hsrc_ne_ot).trans hl.1,
             (fprev _ htgt_ne_oh htgt_ne_tA).trans hl.2⟩
    · -- the boundary link from the host's last node to the donor's first
      subst hkeq
      have hsrc : ((hA :: (cA ++ cB)).getD cA.length 0) = tl := by
        rw [show hA :: (cA ++ cB) = (hA :: cA) ++ cB from rfl,
          getD_append_left2 0 (by simp only [List.length_cons]; omega), htl]
      have htgt : (((cA ++ cB) ++ [tA]).getD cA.length 0) = oh := by
        rw [List.append_assoc]
        have := @getD_append_right2 cA (cB ++ [tA]) 0 0
        rw [Nat.add_zero] at this
        rw [this, getD_append_left2 0 hcb0, hoh]
      rw [hsrc, htgt]
      exact ⟨fnext_tl, fprev_oh⟩
    · rcases Nat.exists_eq_add_of_lt hkgt with ⟨m, rfl⟩
      -- `k = cA.length + m + 1`
      by_cases hkend : m + 1 = cB.length
      · -- the boundary link from the donor's last node to the host's tail
        have hsrc : ((hA :: (cA ++ cB)).getD (cA.length + m + 1) 0) = ot := by
          rw [show hA :: (cA ++ cB) = (hA :: cA) ++ cB from rfl,
            show cA.length + m + 1 = (hA :: cA).length + m from by simp; omega,
            getD_append_right2, hot]
          congr 1
          omega
        have htgt : (((cA ++ cB) ++ [tA]).getD (cA.length + m + 1) 0) = tA := by
          rw [show (cA ++ cB) ++ [tA] = cA ++ (cB ++ [tA]) from by simp,
            show cA.length + m + 1 = cA.length + (m + 1) from by omega,
            getD_append_right2, hkend, getD_append_self]
        rw [hsrc, htgt]
        exact ⟨fnext_ot, fprev_tA⟩
      · -- inside the donor chain
        have hmlt : m + 1 < cB.length := by omega
        have hsrc : ((hA :: (cA ++ cB)).getD (cA.length + m + 1) 0) = cB.getD m 0 := by
          rw [show hA :: (cA ++ cB) = (hA :: cA) ++ cB from rfl,
            show cA.length + m + 1 = (hA :: cA).length + m from by simp; omega,
            getD_append_right2]
        have htgt : (((cA ++ cB) ++ [tA]).getD (cA.length + m + 1) 0) = cB.getD (m + 1) 0 := by
          rw [show (cA ++ cB) ++ [tA] = cA ++ (cB ++ [tA]) from by simp,
            show cA.length + m + 1 = cA.length + (m + 1) from by omega,
            getD_append_right2, getD_append_left2 0 hmlt]
        have hl := linked_link_at (m + 1) h2 (by omega)
        have hl1 : ((hB :: cB).getD (m + 1) 0) = cB.getD m 0 := List.getD_cons_succ
        have hl2 : ((cB ++ [tB]).getD (m + 1) 0) = cB.getD (m + 1) 0 :=
          getD_append_left2 0 hmlt
        rw [hl1, hl2] at hl
        have hsrcmem : cB.getD m 0 ∈ cB := getD_mem_of_lt (by omega) 0
        have htgtmem : cB.getD (m + 1) 0 ∈ cB := getD_mem_of_lt hmlt 0
        have hsrc_ne_tl : cB.getD m 0 ≠ tl := fun he => htlcb (he ▸ hsrcmem)
        have hsrc_ne_ot : cB.getD m 0 ≠ ot := by
          rw [hot]
          exact nodup_getD_ne hndB (by omega) (by omega) (by omega) 0
        have htgt_ne_oh : cB.getD (m + 1) 0 ≠ oh := by
          rw [hoh]
          exact nodup_getD_ne hndB (by omega) hmlt hcb0 0
        have htgt_ne_tA : cB.getD (m + 1) 0 ≠ tA := fun he => htAcb (he ▸ htgtmem)
        rw [hsrc, htgt]
        exact ⟨(fnext _ hsrc_ne_tl hsrc_ne_ot).trans hl.1,
               (fprev _ htgt_ne_oh htgt_ne_tA).trans hl.2⟩
  · have hhA_ne_oh : hA ≠ oh :=
      fun he => (hdisj hA (List.mem_append_left _ (by simp))) (he ▸ hohmem)
    have hhA_ne_tA : hA ≠ tA := by
      intro he
      exact htAnotin (by simp [he])
    exact fprev hA hhA_ne_oh hhA_ne_tA
  · exact fnext tA htA_ne_tl htA_ne_ot
  · intro j
    rw [valueOf_set_prev, valueOf_set_next, valueOf_set_prev, valueOf_set_next]
  · intro j
    rw [insIdxOf_set_prev, insIdxOf_set_next, insIdxOf_set_prev, insIdxOf_set_next]

theorem getD_map_add {l : List Nat} {k : Nat} (off : Nat) (h : k < l.length) :
    (l.map (· + off)).getD k 0 = l.getD k 0 + off := by
  rw [List.getD_eq_getElem _ _ (by simpa using h), List.getD_eq_getElem _ _ h,
    List.getElem_map]

/-- Updating only the stored size does not disturb a chain. -/
theorem Linked.with_size {s : UltimateLinkedList α} {n : Nat} {a b : Nat}
    {c : List Nat} (h : Linked s a c b) : Linked ({ s with size := n }) a c b :=
  @Linked.congr α s ({ s with size := n }) a b c
    (fun _ _ => rfl) (fun _ _ => rfl) h

/-- `concat` on well-formed lists: the host absorbs the donor's chain
(re-based into the merged arena), sizes add up, the donor is emptied, and all
values are preserved. -/
theorem concat_wf {A B : UltimateLinkedList α} {cA cB : List Nat}
    (wfA : WFc A cA) (wfB : WFc B cB) (hne : B.size ≠ 0) :
    WFc (concat A B).1 (cA ++ cB.map (· + A.nodes.length)) ∧
    (concat A B).1.size = A.size + B.size ∧
    (concat A B).2.size = 0 ∧
    (∀ j ∈ cA, valueOf (concat A B).1 j = valueOf A j) ∧
    (∀ x ∈ cB, valueOf (concat A B).1 (x + A.nodes.length) = valueOf B x) := by
  have hcb0 : 0 < cB.length := by
    rw [← wfB.size_eq]; omega
  have hcbne : cB ≠ [] := List.length_pos.mp hcb0
  -- the three seeks of the splice
  have hn : nextOf B B.head = some (cB.getD 0 0) := by
    rcases hcb : cB with _ | ⟨y, rest⟩
    · exact absurd hcb hcbne
    · have := wfB.linked
      rw [hcb] at this
      simpa using this.1.1
  have hp : prevOf B B.tail = some (cB.getD (cB.length - 1) 0) := by
    have hl := linked_link_at cB.length wfB.linked (le_refl _)
    rw [getD_append_self] at hl
    have he : (B.head :: cB).getD cB.length 0 = cB.getD (cB.length - 1) 0 := by
      rcases hcb : cB with _ | ⟨y, rest⟩
      · exact absurd hcb hcbne
      · simp [List.getD_cons_succ]
    rw [← he]
    exact hl.2
  -- the host chain inside the merged arena
  have hlenS1 : ({ A with nodes := A.nodes ++ B.nodes.map (shiftNode A.nodes.length), modCount := A.modCount + 1 } : UltimateLinkedList α).nodes.length =
      A.nodes.length + B.nodes.length := by
    simp
  have hextlt : ∀ {j : Nat}, j < A.nodes.length →
      getNode ({ A with nodes := A.nodes ++ B.nodes.map (shiftNode A.nodes.length), modCount := A.modCount + 1 } : UltimateLinkedList α) j = getNode A j :=
    fun h => getNode_ext_lt _ _ h
  have h1 : Linked ({ A with nodes := A.nodes ++ B.nodes.map (shiftNode A.nodes.length), modCount := A.modCount + 1 } : UltimateLinkedList α) A.head cA A.tail := by
    refine Linked.congr (fun i hi => ?_) (fun i hi => ?_) wfA.linked
    · unfold nextOf
      rw [hextlt (wfA.bounded i (List.mem_append_left _ hi))]
    · unfold prevOf
      rw [hextlt (wfA.bounded i (by
        rcases List.mem_append.mp hi with h | h
        · exact List.mem_append_left _ (List.mem_cons_of_mem _ h)
        · exact List.mem_append_right _ h))]
  have h2 : Linked ({ A with nodes := A.nodes ++ B.nodes.map (shiftNode A.nodes.length), modCount := A.modCount + 1 } : UltimateLinkedList α)
      (B.head + A.nodes.length) (cB.map (· + A.nodes.length)) (B.tail + A.nodes.length) :=
    linked_shift A.nodes.length (fun x hx => getNode_ext_shift _ hx)
      wfB.bounded wfB.linked
  have hq : prevOf ({ A with nodes := A.nodes ++ B.nodes.map (shiftNode A.nodes.length), modCount := A.modCount + 1 } : UltimateLinkedList α)
      ({ A with nodes := A.nodes ++ B.nodes.map (shiftNode A.nodes.length), modCount := A.modCount + 1 } : UltimateLinkedList α).tail =
      some ((A.head :: cA).getD cA.length 0) := by
    have hl := linked_link_at cA.length h1 (le_refl _)
    rw [getD_append_self] at hl
    exact hl.2
  -- donor chain endpoints in re-based form
  have hohm : cB.getD 0 0 + A.nodes.length = (cB.map (· + A.nodes.length)).getD 0 0 :=
    (getD_map_add _ hcb0).symm
  have hotm : cB.getD (cB.length - 1) 0 + A.nodes.length =
      (cB.map (· + A.nodes.length)).getD ((cB.map (· + A.nodes.length)).length - 1) 0 := by
    rw [List.length_map]
    exact (getD_map_add _ (by omega)).symm
  have hndB : (cB.map (· + A.nodes.length)).Nodup :=
    wfB.chain_nodup.map (fun x y h => by omega)
  have hdisj : ∀ x ∈ (A.head :: cA) ++ [A.tail], x ∉ cB.map (· + A.nodes.length) := by
    intro x hx hmem
    obtain ⟨y, hy, hxy⟩ := List.mem_map.mp hmem
    have := wfA.bounded x hx
    omega
  have hbA : ∀ x ∈ (A.head :: cA) ++ [A.tail],
      x < ({ A with nodes := A.nodes ++ B.nodes.map (shiftNode A.nodes.length), modCount := A.modCount + 1 } : UltimateLinkedList α).nodes.length := by
    intro x hx
    rw [hlenS1]
    have := wfA.bounded x hx
    omega
  have hbB : ∀ x ∈ cB.map (· + A.nodes.length),
      x < ({ A with nodes := A.nodes ++ B.nodes.map (shiftNode A.nodes.length), modCount := A.modCount + 1 } : UltimateLinkedList α).nodes.length := by
    intro x hx
    obtain ⟨y, hy, hxy⟩ := List.mem_map.mp hx
    rw [hlenS1]
    have := wfB.mem_lt hy
    omega
  have hcbmne : cB.map (· + A.nodes.length) ≠ [] := by
    simpa using hcbne
  have hsp := linked_splice h1 h2 hcbmne rfl hohm hotm wfA.nodup hndB hdisj hbA hbB
  obtain ⟨hlink5, hprevhA, hnexttA, hval5, hins5⟩ := hsp
  -- the full combined id list is duplicate-free and bounded
  have hperm : List.Perm (((A.head :: cA) ++ [A.tail]) ++ cB.map (· + A.nodes.length))
      ((A.head :: (cA ++ cB.map (· + A.nodes.length))) ++ [A.tail]) := by
    rw [show (A.head :: (cA ++ cB.map (· + A.nodes.length))) ++ [A.tail] =
      (A.head :: cA) ++ (cB.map (· + A.nodes.length) ++ [A.tail]) from by simp,
      List.append_assoc]
    exact List.Perm.append_left _ (List.perm_append_comm)
  have hndCC : ((A.head :: (cA ++ cB.map (· + A.nodes.length))) ++ [A.tail]).Nodup := by
    refine hperm.nodup ?_
    rw [List.nodup_append]
    exact ⟨wfA.nodup, hndB, hdisj⟩
  have hbCC : ∀ i ∈ (A.head :: (cA ++ cB.map (· + A.nodes.length))) ++ [A.tail],
      i < ({ A with nodes := A.nodes ++ B.nodes.map (shiftNode A.nodes.length), modCount := A.modCount + 1 } : UltimateLinkedList α).nodes.length := by
    intro i hi
    rcases List.mem_append.mp (hperm.symm.subset hi) with h | h
    · exact hbA i h
    · exact hbB i h
  unfold concat
  rw [if_neg hne]
  simp only [hn, hp, hq]
  refine ⟨?_, ?_, ?_, ?_, ?_⟩
  · -- well-formedness of the host result
    refine WFc.of_chain (preservesChain_of_fields (notifyIf_nodes _ _ _)
      (notifyIf_head _ _ _) (notifyIf_tail _ _ _) (notifyIf_size _ _ _)
      (notifyIf_modCount _ _ _) (notifyIf_useSkipLinks _ _ _)) ?_
    refine WFc.of_chain (PreservesStructure.toChain (preserves_skipIf _ _)) ?_
    refine ⟨?_, hndCC, ?_, ?_, ?_, ?_⟩
    · exact Linked.with_size hlink5
    · intro i hi
      have := hbCC i hi
      simpa using this
    · show _ = (cA ++ cB.map (· + A.nodes.length)).length
      rw [List.length_append, List.length_map,
        show cA.length = A.size from wfA.size_eq.symm,
        show cB.length = B.size from wfB.size_eq.symm]
      exact rfl
    · show prevOf _ A.head = none
      exact hprevhA.trans (by
        unfold prevOf
        rw [hextlt wfA.head_lt]
        exact wfA.head_prev)
    · show nextOf _ A.tail = none
      exact hnexttA.trans (by
        unfold nextOf
        rw [hextlt wfA.tail_lt]
        exact wfA.tail_next)
  · show _ = A.size + B.size
    rw [notifyIf_size, (preserves_skipIf _ _).sizeEq]
    exact rfl
  · exact trivial
  · intro j hj
    have hjlt : j < A.nodes.length := wfA.mem_lt hj
    unfold valueOf
    rw [getNode_notifyIf]
    calc (getNode _ j).value
        = valueOf _ j := rfl
      _ = valueOf _ j := valueOf_of_preserves (preserves_skipIf _ _) j
      _ = valueOf A j := by
          refine (hval5 j).trans ?_
          unfold valueOf
          rw [hextlt hjlt]
  · intro x hx
    have hxlt : x < B.nodes.length := wfB.mem_lt hx
    unfold valueOf
    rw [getNode_notifyIf]
    calc (getNode _ (x + A.nodes.length)).value
        = valueOf _ (x + A.nodes.length) := rfl
      _ = valueOf _ (x + A.nodes.length) := valueOf_of_preserves (preserves_skipIf _ _) _
      _ = valueOf B x := by
          refine (hval5 (x + A.nodes.length)).trans ?_
          unfold valueOf
          rw [getNode_ext_shift _ hxlt, shiftNode_value]

/-- Core of `clear`: relinking the two sentinels to each other and zeroing
the size yields a well-formed empty list. -/
theorem clear_core_wf {u : UltimateLinkedList α}
    (hlh : u.head < u.nodes.length) (hlt : u.tail < u.nodes.length)
    (hht : u.head ≠ u.tail)
    (hp : prevOf u u.head = none) (hn : nextOf u u.tail = none) :
    WFc ({ (setNodeF (setNodeF u u.head (fun n => { n with next := some u.tail }))
        u.tail (fun n => { n with prev := some u.head })) with size := 0 }) [] := by
  refine ⟨⟨?_, ?_⟩, by simp [hht], ?_, rfl, ?_, ?_⟩
  · show nextOf _ u.head = some u.tail
    have h5 : ∀ (w : UltimateLinkedList α) (j : Nat),
        nextOf ({ w with size := 0 }) j = nextOf w j := fun _ _ => rfl
    rw [h5, nextOf_set_prev, nextOf_setNodeF_next _ hlh]
  · show prevOf _ u.tail = some u.head
    have h5 : ∀ (w : UltimateLinkedList α) (j : Nat),
        prevOf ({ w with size := 0 }) j = prevOf w j := fun _ _ => rfl
    rw [h5, prevOf_setNodeF_prev _ (by simpa using hlt)]
  · intro x hx
    have hx2 : x = u.head ∨ x = u.tail := by simpa using hx
    show x < _
    rcases hx2 with rfl | rfl
    · simpa using hlh
    · simpa using hlt
  · show prevOf _ u.head = none
    have h5 : ∀ (w : UltimateLinkedList α) (j : Nat),
        prevOf ({ w with size := 0 }) j = prevOf w j := fun _ _ => rfl
    rw [h5, prevOf_setNodeF_ne _ hht, prevOf_set_next]
    exact hp
  · show nextOf _ u.tail = none
    have h5 : ∀ (w : UltimateLinkedList α) (j : Nat),
        nextOf ({ w with size := 0 }) j = nextOf w j := fun _ _ => rfl
    rw [h5, nextOf_set_prev, nextOf_setNodeF_ne _ hht.symm]
    exact hn

/-- `clear` on a nonempty well-formed list: the chain becomes empty and the
size drops to zero. -/
theorem clear_wf {s : UltimateLinkedList α} {c : List Nat} (wf : WFc s c)
    (h0 : s.size ≠ 0) : WFc (clear s) [] ∧ (clear s).size = 0 := by
  unfold clear
  rw [if_neg h0]
  constructor
  · refine clear_core_wf ?_ ?_ ?_ ?_ ?_
    · show (if _ then _ else _ : UltimateLinkedList α).head <
        (if _ then _ else _ : UltimateLinkedList α).nodes.length
      rw [notifyIf_nodes, notifyIf_head]
      exact wf.head_lt
    · show (if _ then _ else _ : UltimateLinkedList α).tail <
        (if _ then _ else _ : UltimateLinkedList α).nodes.length
      rw [notifyIf_nodes, notifyIf_tail]
      exact wf.tail_lt
    · show (if _ then _ else _ : UltimateLinkedList α).head ≠ _
      rw [notifyIf_head, notifyIf_tail]
      exact wf.head_ne_tail
    · show prevOf _ _ = none
      unfold prevOf
      rw [getNode_notifyIf, notifyIf_head]
      exact wf.head_prev
    · show nextOf _ _ = none
      unfold nextOf
      rw [getNode_notifyIf, notifyIf_tail]
      exact wf.tail_next
  · rfl

/-! ### The pointer-swapping walk of `reverse` -/

/-- One node with its two neighbour references exchanged (the effect of one
iteration of the `reverse()` walk on the node it visits). -/
def swapNode (n : Node α) : Node α :=
  { n with next := n.prev, prev := n.next }

@[simp] theorem swapNode_next (n : Node α) : (swapNode n).next = n.prev := rfl

@[simp] theorem swapNode_prev (n : Node α) : (swapNode n).prev = n.next := rfl

/-- The `next` references run from `a` through `l` and then hit `null`
(the termination condition of the `reverse()` walk). -/
def NextRun (s : UltimateLinkedList α) : Nat → List Nat → Prop
  | a, [] => nextOf s a = none
  | a, x :: xs => nextOf s a = some x ∧ NextRun s x xs

theorem nextRun_congr {s s2 : UltimateLinkedList α} :
    ∀ {a : Nat} {l : List Nat},
      (∀ j ∈ a :: l, nextOf s2 j = nextOf s j) → NextRun s a l → NextRun s2 a l := by
  intro a l
  induction l generalizing a with
  | nil =>
    intro hn h
    exact (hn a (by simp)).trans h
  | cons x xs ih =>
    intro hn h
    exact ⟨(hn a (by simp)).trans h.1,
      ih (fun j hj => hn j (by simp at hj ⊢; tauto)) h.2⟩

theorem nextRun_of_linked {s : UltimateLinkedList α} :
    ∀ {a b : Nat} {c : List Nat}, Linked s a c b → nextOf s b = none →
      NextRun s a (c ++ [b]) := by
  intro a b c
  induction c generalizing a with
  | nil => intro h hb; exact ⟨h.1, hb⟩
  | cons x xs ih => intro h hb; exact ⟨h.1.1, ih h.2 hb⟩

theorem reverseLoop_none (s : UltimateLinkedList α) (fuel : Nat) :
    reverseLoop s fuel none = s := by
  cases fuel <;> rfl

theorem reverseLoop_head (s : UltimateLinkedList α) :
    ∀ (fuel : Nat) (o : Option Nat), (reverseLoop s fuel o).head = s.head := by
  intro fuel
  induction fuel generalizing s with
  | zero => intro o; cases o <;> rfl
  | succ fuel ih =>
    intro o
    rcases o with _ | n
    · rfl
    · rw [reverseLoop, ih]
      simp

theorem reverseLoop_tail (s : UltimateLinkedList α) :
    ∀ (fuel : Nat) (o : Option Nat), (reverseLoop s fuel o).tail = s.tail := by
  intro fuel
  induction fuel generalizing s with
  | zero => intro o; cases o <;> rfl
  | succ fuel ih =>
    intro o
    rcases o with _ | n
    · rfl
    · rw [reverseLoop, ih]
      simp

theorem reverseLoop_size (s : UltimateLinkedList α) :
    ∀ (fuel : Nat) (o : Option Nat), (reverseLoop s fuel o).size = s.size := by
  intro fuel
  induction fuel generalizing s with
  | zero => intro o; cases o <;> rfl
  | succ fuel ih =>
    intro o
    rcases o with _ | n
    · rfl
    · rw [reverseLoop, ih]
      simp

theorem reverseLoop_len (s : UltimateLinkedList α) :
    ∀ (fuel : Nat) (o : Option Nat),
      (reverseLoop s fuel o).nodes.length = s.nodes.length := by
  intro fuel
  induction fuel generalizing s with
  | zero => intro o; cases o <;> rfl
  | succ fuel ih =>
    intro o
    rcases o with _ | n
    · rfl
    · rw [reverseLoop, ih]
      simp

/-- The walk of `reverse()` swaps the `next`/`prev` references of exactly the
nodes it visits, reading each node's original `next` (into `temp`) before the
swap, and touches nothing else. -/
theorem reverseLoop_go :
    ∀ (l : List Nat) (s : UltimateLinkedList α) (a : Nat) (fuel : Nat),
      NextRun s a l → (a :: l).Nodup → (∀ x ∈ a :: l, x < s.nodes.length) →
      l.length + 1 ≤ fuel →
      (∀ j ∈ a :: l, getNode (reverseLoop s fuel (some a)) j = swapNode (getNode s j)) ∧
      (∀ j, j ∉ a :: l → getNode (reverseLoop s fuel (some a)) j = getNode s j) := by
  intro l
  induction l with
  | nil =>
    intro s a fuel hrun hnd hb hf
    obtain ⟨fuel, rfl⟩ : ∃ f, fuel = f + 1 := ⟨fuel - 1, by omega⟩
    have ha : a < s.nodes.length := hb a (by simp)
    have hrn : nextOf s a = none := hrun
    simp only [reverseLoop]
    rw [hrn, reverseLoop_none]
    constructor
    · intro j hj
      have hj2 : j = a := by simpa using hj
      subst hj2
      rw [getNode_setNodeF_self _ ha]
      simp only [swapNode]
      rw [show (getNode s j).next = none from hrn]
    · intro j hj
      have hja : j ≠ a := fun he => hj (by simp [he])
      exact getNode_setNodeF_ne _ hja
  | cons x xs ih =>
    intro s a fuel hrun hnd hb hf
    obtain ⟨fuel, rfl⟩ : ∃ f, fuel = f + 1 := ⟨fuel - 1, by omega⟩
    obtain ⟨hax, hrun2⟩ := hrun
    have ha : a < s.nodes.length := hb a (by simp)
    have hane : a ∉ x :: xs := (List.nodup_cons.mp hnd).1
    simp only [reverseLoop]
    rw [hax]
    set s1 := setNodeF s a (fun nd => { nd with next := nd.prev, prev := some x }) with hs1
    have hframe : ∀ j, j ≠ a → getNode s1 j = getNode s j := by
      intro j hj
      rw [hs1]
      exact getNode_setNodeF_ne _ hj
    have hga : getNode s1 a =
        { getNode s a with next := (getNode s a).prev, prev := some x } := by
      rw [hs1]
      exact getNode_setNodeF_self _ ha
    have hrun1 : NextRun s1 x xs := by
      refine nextRun_congr (fun j hj => ?_) hrun2
      have hja : j ≠ a := fun he => hane (he ▸ hj)
      unfold nextOf
      rw [hframe j hja]
    have hnd2 : (x :: xs).Nodup := (List.nodup_cons.mp hnd).2
    have hb2 : ∀ y ∈ x :: xs, y < s1.nodes.length := by
      intro y hy
      rw [hs1, setNodeF_nodes_length]
      exact hb y (by simp [hy])
    obtain ⟨hin, hout⟩ := ih s1 x fuel hrun1 hnd2 hb2 (by simp at hf ⊢; omega)
    constructor
    · intro j hj
      rcases List.mem_cons.mp hj with rfl | hj2
      · rw [hout j hane, hga]
        simp only [swapNode]
        rw [show (getNode s j).next = some x from hax]
      · rw [hin j hj2, hframe j (fun he => hane (he ▸ hj2))]
    · intro j hj
      have hja : j ≠ a := fun he => hj (by simp [he])
      have hjl : j ∉ x :: xs := fun hm => hj (by simp [hm])
      rw [hout j hjl, hframe j hja]

/-- Swapping every node's two references along a chain reverses it. -/
theorem linked_reverse {s r : UltimateLinkedList α} :
    ∀ {a b : Nat} {c : List Nat}, Linked s a c b →
      (∀ j ∈ a :: c ++ [b], getNode r j = swapNode (getNode s j)) →
      Linked r b c.reverse a := by
  intro a b c
  induction c generalizing a with
  | nil =>
    intro h hswap
    refine ⟨?_, ?_⟩
    · unfold nextOf
      rw [hswap b (by simp), swapNode_next]
      exact h.2
    · unfold prevOf
      rw [hswap a (by simp), swapNode_prev]
      exact h.1
  | cons x xs ih =>
    intro h hswap
    rw [List.reverse_cons, linked_concat]
    refine ⟨?_, ?_, ?_⟩
    · refine ih h.2 (fun j hj => hswap j ?_)
      simp at hj ⊢
      tauto
    · unfold nextOf
      rw [hswap x (by simp), swapNode_next]
      exact h.1.2
    · unfold prevOf
      rw [hswap a (by simp), swapNode_prev]
      exact h.1.1

/-- The complete `reverse()` walk on a well-formed list: the chain is flipped
(the tail now reaches the head through the reversed element chain) and the
walk's last swap nulled the two outer references. -/
theorem reverse_core {s1 : UltimateLinkedList α} {c : List Nat} (wf1 : WFc s1 c) :
    Linked (reverseLoop s1 (s1.nodes.length + 2) (some s1.head)) s1.tail c.reverse s1.head ∧
    prevOf (reverseLoop s1 (s1.nodes.length + 2) (some s1.head)) s1.tail = none ∧
    nextOf (reverseLoop s1 (s1.nodes.length + 2) (some s1.head)) s1.head = none := by
  have hrun : NextRun s1 s1.head (c ++ [s1.tail]) :=
    nextRun_of_linked wf1.linked wf1.tail_next
  have hfl : (c ++ [s1.tail]).length + 1 ≤ s1.nodes.length + 2 := by
    have := wf1.full_len_le
    simp only [List.length_append, List.length_singleton]
    omega
  obtain ⟨hin, hout⟩ := reverseLoop_go (c ++ [s1.tail]) s1 s1.head
    (s1.nodes.length + 2) hrun wf1.nodup wf1.bounded hfl
  refine ⟨linked_reverse wf1.linked hin, ?_, ?_⟩
  · unfold prevOf
    rw [hin s1.tail (by simp), swapNode_prev]
    exact wf1.tail_next
  · unfold nextOf
    rw [hin s1.head (by simp), swapNode_next]
    exact wf1.head_prev

/-- Assembling `reverse`: with every link of the chain flipped, relabelling
the sentinels yields the invariant on the reversed chain. -/
theorem wf_swap_sentinels {s1 r : UltimateLinkedList α} {c : List Nat}
    (hlen : r.nodes.length = s1.nodes.length) (hsz : r.size = s1.size)
    (hh : r.head = s1.head) (ht : r.tail = s1.tail) (wf1 : WFc s1 c)
    (hlink : Linked r s1.tail c.reverse s1.head)
    (hp : prevOf r s1.tail = none) (hn : nextOf r s1.head = none) :
    WFc ({ r with head := r.tail, tail := r.head } : UltimateLinkedList α) c.reverse := by
  have hperm : (s1.head :: c ++ [s1.tail]).Perm (s1.tail :: c.reverse ++ [s1.head]) := by
    refine List.Perm.trans (List.Perm.cons _ (List.perm_append_singleton _ _)) ?_
    refine List.Perm.trans
      (List.Perm.cons _ (List.Perm.cons _ (List.reverse_perm c).symm)) ?_
    refine List.Perm.trans (List.Perm.swap s1.tail s1.head c.reverse) ?_
    exact List.Perm.cons _ (List.perm_append_singleton _ _).symm
  have hlink2 : Linked r r.tail c.reverse r.head := by
    rw [ht, hh]
    exact hlink
  refine ⟨?_, ?_, ?_, ?_, ?_, ?_⟩
  · exact @Linked.congr α r ({ r with head := r.tail, tail := r.head } : UltimateLinkedList α)
      r.tail r.head c.reverse (fun _ _ => rfl) (fun _ _ => rfl) hlink2
  · show (r.tail :: c.reverse ++ [r.head]).Nodup
    rw [ht, hh]
    exact hperm.nodup wf1.nodup
  · intro x hx
    show x < r.nodes.length
    have hx2 : x ∈ r.tail :: c.reverse ++ [r.head] := hx
    rw [ht, hh] at hx2
    rw [hlen]
    exact wf1.bounded x (hperm.symm.subset hx2)
  · show r.size = c.reverse.length
    rw [hsz, wf1.size_eq, List.length_reverse]
  · show prevOf r r.tail = none
    rw [ht]
    exact hp
  · show nextOf r r.head = none
    rw [hh]
    exact hn

/-- `reverse` on a well-formed list of size at least 2: the chain is exactly
reversed and the stored size is unchanged. -/
theorem reverse_wf {s : UltimateLinkedList α} {c : List Nat} (wf : WFc s c)
    (h2 : 2 ≤ s.size) : WFc (reverse s) c.reverse ∧ (reverse s).size = s.size := by
  have wf1 : WFc ({ s with modCount := s.modCount + 1 } : UltimateLinkedList α) c :=
    wf.with_modCount _
  obtain ⟨hlinkR, hpR, hnR⟩ := reverse_core wf1
  have hwf3 := wf_swap_sentinels (reverseLoop_len _ _ _) (reverseLoop_size _ _ _)
    (reverseLoop_head _ _ _) (reverseLoop_tail _ _ _) wf1 hlinkR hpR hnR
  simp only [reverse]
  rw [if_neg (by omega)]
  constructor
  · refine WFc.of_chain (preservesChain_of_fields (notifyIf_nodes _ _ _)
      (notifyIf_head _ _ _) (notifyIf_tail _ _ _) (notifyIf_size _ _ _)
      (notifyIf_modCount _ _ _) (notifyIf_useSkipLinks _ _ _)) ?_
    exact WFc.of_preserves (preserves_skipIf _ _) hwf3
  · rw [notifyIf_size]
    refine ((preserves_skipIf _ _).sizeEq).trans ?_
    exact reverseLoop_size _ _ _

/-- `concat` empties the donor into a well-formed zero-length list (and
leaves an already-empty donor untouched). -/
theorem concat_donor_wf (A : UltimateLinkedList α) {B : UltimateLinkedList α}
    {cB : List Nat} (wfB : WFc B cB) :
    ∃ c2, WFc (concat A B).2 c2 ∧ (concat A B).2.size = c2.length := by
  by_cases hB : B.size = 0
  · refine ⟨cB, ?_, ?_⟩ <;> (unfold concat; rw [if_pos hB])
    · exact wfB
    · exact wfB.size_eq
  · simp only [concat]
    rw [if_neg hB]
    split
    all_goals
      first
        | exact ⟨cB, wfB, wfB.size_eq⟩
        | exact ⟨[], clear_core_wf wfB.head_lt wfB.tail_lt wfB.head_ne_tail
            wfB.head_prev wfB.tail_next, rfl⟩

/-! ## The claims -/

/-- C9: an out-of-bounds index (after end-relative resolution) makes `get`
return nothing, `set` return `false`, and `removeAt` return nothing, all
leaving the list untouched and none of them raising a fault. -/
theorem C9_oob_lenient {s : UltimateLinkedList α} (v : α) {i : Int}
    (h : resolveIndex s i < 0 ∨ (s.size : Int) ≤ resolveIndex s i) :
    get s i = none ∧ set s i v = (false, s) ∧ removeAt s i = (none, s) := by
  have hna := nodeAt_oob h
  refine ⟨?_, ?_, ?_⟩
  · unfold get
    rw [hna]
  · unfold set
    rw [hna]
  · unfold removeAt
    rw [hna]

/-- Witness for C9 at the empty list and index `0`. -/
theorem C9_oob_lenient_witness :
    (resolveIndex (mkEmpty false false : UltimateLinkedList Int) 0 < 0 ∨
      (((mkEmpty false false : UltimateLinkedList Int).size : Int) ≤
        resolveIndex (mkEmpty false false : UltimateLinkedList Int) 0)) ∧
    (get (mkEmpty false false : UltimateLinkedList Int) 0 = none ∧
      set (mkEmpty false false : UltimateLinkedList Int) 0 7 =
        (false, (mkEmpty false false : UltimateLinkedList Int)) ∧
      removeAt (mkEmpty false false : UltimateLinkedList Int) 0 =
        (none, (mkEmpty false false : UltimateLinkedList Int))) :=
  ⟨by decide, C9_oob_lenient 7 (by decide)⟩

/-- C10: `pop` and `shift` on an empty list return nothing and return the
list object unchanged: same size, same counter, no event anywhere. -/
theorem C10_empty_pop_shift {s : UltimateLinkedList α} (h : s.size = 0) :
    pop s = (none, s) ∧ shift s = (none, s) := by
  constructor
  · unfold pop
    rw [if_pos h]
  · unfold shift
    rw [if_pos h]

/-- Witness for C10 at the empty list. -/
theorem C10_empty_pop_shift_witness :
    (mkEmpty true true : UltimateLinkedList Int).size = 0 ∧
    (pop (mkEmpty true true : UltimateLinkedList Int) =
      (none, (mkEmpty true true : UltimateLinkedList Int)) ∧
     shift (mkEmpty true true : UltimateLinkedList Int) =
      (none, (mkEmpty true true : UltimateLinkedList Int))) :=
  ⟨rfl, C10_empty_pop_shift rfl⟩

/-- C4 (amended): `insertAt`, `removeAt`, `clear`, `reverse`, `sort` and
`concat` all strictly increase the modification counter, but `set` never
changes it; and the element count (the stored size) equals the length of the
sentinel-delimited chain after every operation — unconditionally for `set`,
`clear`, `reverse`, `sort` and `concat` (host and emptied donor alike), and
for `insertAt`/`removeAt` whenever the index seek is linear (skip links
disabled). -/
theorem C4_modCount_discipline (s other : UltimateLinkedList α) (v : α) (i : Int)
    (cmp : Option α → Option α → Int) :
    (set s i v).2.modCount = s.modCount ∧
    (∀ s2, insertAt s v i = .ok s2 → s.modCount < s2.modCount) ∧
    (nodeAt s i ≠ none → (removeAt s i).2.modCount = s.modCount + 1) ∧
    (s.size ≠ 0 → (clear s).modCount = s.modCount + 1) ∧
    (2 ≤ s.size → (reverse s).modCount = s.modCount + 1) ∧
    (¬ s.size ≤ 1 → (sort s cmp).modCount = s.modCount + 1) ∧
    (other.size ≠ 0 → (concat s other).1.modCount = s.modCount + 1) ∧
    (∀ c, WFc s c → ∃ c2, WFc (set s i v).2 c2 ∧ (set s i v).2.size = c2.length) ∧
    (∀ c, WFc s c → WFc (clear s) [] ∧ (clear s).size = 0) ∧
    (∀ c, WFc s c → ∃ c2, WFc (reverse s) c2 ∧ (reverse s).size = c2.length) ∧
    (∀ c, WFc s c → ∃ c2, WFc (sort s cmp) c2 ∧ (sort s cmp).size = c2.length) ∧
    (∀ c cO, WFc s c → WFc other cO →
      ∃ c2 c3, WFc (concat s other).1 c2 ∧ (concat s other).1.size = c2.length ∧
        WFc (concat s other).2 c3 ∧ (concat s other).2.size = c3.length) ∧
    (∀ c, WFc s c → s.useSkipLinks = false →
      ∀ s2, insertAt s v i = .ok s2 → ∃ c2, WFc s2 c2 ∧ s2.size = c2.length) ∧
    (∀ c, WFc s c → s.useSkipLinks = false →
      ∃ c2, WFc (removeAt s i).2 c2 ∧ (removeAt s i).2.size = c2.length) := by
  refine ⟨set_modCount s i v, fun s2 h => insertAt_modCount h,
    removeAt_modCount, clear_modCount, reverse_modCount,
    fun h => sort_modCount h cmp, concat_modCount, ?_, ?_, ?_, ?_, ?_, ?_, ?_⟩
  · intro c wf
    rcases hna : nodeAt s i with _ | n
    · exact ⟨c, by rw [set_oob v hna]; exact wf, by rw [set_oob v hna]; exact wf.size_eq⟩
    · obtain ⟨_, hpc⟩ := set_chain v hna
      exact ⟨c, WFc.of_chain hpc wf, (WFc.of_chain hpc wf).size_eq⟩
  · intro c wf
    by_cases h0 : s.size = 0
    · have hc : c = [] := by
        have := wf.size_eq
        rw [h0] at this
        exact (List.length_eq_zero.mp this.symm)
      subst hc
      constructor
      · unfold clear
        rw [if_pos h0]
        exact wf
      · unfold clear
        rw [if_pos h0]
        exact h0
    · exact clear_wf wf h0
  · intro c wf
    by_cases h2 : s.size < 2
    · refine ⟨c, ?_, ?_⟩ <;> (unfold reverse; rw [if_pos h2])
      · exact wf
      · exact wf.size_eq
    · obtain ⟨hwf, hsz⟩ := reverse_wf wf (by omega)
      exact ⟨c.reverse, hwf, by rw [hsz, wf.size_eq, List.length_reverse]⟩
  · intro c wf
    by_cases h1 : s.size ≤ 1
    · refine ⟨c, ?_, ?_⟩ <;> (unfold sort; rw [if_pos h1])
      · exact wf
      · exact wf.size_eq
    · obtain ⟨hwf, hsz, _⟩ := sort_wf wf h1 cmp
      exact ⟨c, hwf, by rw [hsz, wf.size_eq]⟩
  · intro c cO wf wfO
    by_cases hO : other.size = 0
    · have hcc : concat s other = (s, other) := by
        unfold concat
        rw [if_pos hO]
      rw [hcc]
      exact ⟨c, cO, wf, wf.size_eq, wfO, wfO.size_eq⟩
    · obtain ⟨hwf, hsz, _, _, _⟩ := concat_wf wf wfO hO
      obtain ⟨c3, hwfD, hszD⟩ := concat_donor_wf s wfO
      refine ⟨c ++ cO.map (· + s.nodes.length), c3, hwf, ?_, hwfD, hszD⟩
      rw [hsz, List.length_append, List.length_map, wf.size_eq, wfO.size_eq]
  · intro c wf hs s2 heq
    by_cases hoob : resolveInsertIndex s i < 0 ∨ (s.size : Int) < resolveInsertIndex s i
    · rw [insertAt_error v hoob] at heq
      cases heq
    · push_neg at hoob
      obtain ⟨h0, h1⟩ := hoob
      have hk : resolveInsertIndex s i = ((resolveInsertIndex s i).toNat : Int) :=
        (Int.toNat_of_nonneg h0).symm
      have hkle : (resolveInsertIndex s i).toNat ≤ s.size := by omega
      rw [wf.size_eq] at hkle
      obtain ⟨s2', heq', hwf2, hsz2, _, _, _, _, _, _, _⟩ := insertAt_ok wf hs v hk hkle
      rw [heq'] at heq
      cases heq
      refine ⟨_, hwf2, ?_⟩
      rw [hsz2, wf.size_eq]
      simp only [List.length_append, List.length_cons, List.length_take,
        List.length_drop]
      omega
  · intro c wf hs
    by_cases h0 : resolveIndex s i < 0 ∨ (s.size : Int) ≤ resolveIndex s i
    · have hna := nodeAt_oob h0
      refine ⟨c, ?_, ?_⟩ <;> (unfold removeAt; rw [hna])
      · exact wf
      · exact wf.size_eq
    · push_neg at h0
      obtain ⟨hge, hlt⟩ := h0
      obtain ⟨_, hwf2, hsz2, _, _, _, _, _, _⟩ := removeAt_wf wf hs hge hlt
      have hklt : (resolveIndex s i).toNat < c.length := by
        rw [← wf.size_eq]
        omega
      refine ⟨_, hwf2, ?_⟩
      rw [hsz2, wf.size_eq]
      simp only [List.length_append, List.length_take, List.length_drop]
      omega

/-- C5 (amended): `insertAt` resolves a negative index as `size + index + 1`
(not `size + index`) and a non-negative index as itself; it raises the
out-of-bounds error whenever the resolved index falls outside `[0, size]`;
and with skip links disabled (a linear seek) an in-range resolved index
succeeds and splices the value exactly at the resolved position. -/
theorem C5_insertAt_resolution {s : UltimateLinkedList α} {c : List Nat}
    (wf : WFc s c) (v : α) (i : Int) :
    (i < 0 → resolveInsertIndex s i = (s.size : Int) + i + 1) ∧
    (0 ≤ i → resolveInsertIndex s i = i) ∧
    (resolveInsertIndex s i < 0 ∨ (s.size : Int) < resolveInsertIndex s i →
      insertAt s v i = .error "Index out of bounds") ∧
    (s.useSkipLinks = false →
      ∀ k : Nat, resolveInsertIndex s i = (k : Int) → k ≤ s.size →
      ∃ s2, insertAt s v i = .ok s2 ∧ s2.size = s.size + 1 ∧
        ∀ a, toArray s = some a →
          toArray s2 = some (a.take k ++ some v :: a.drop k)) := by
  refine ⟨?_, ?_, fun h => insertAt_error v h, ?_⟩
  · intro hi
    unfold resolveInsertIndex
    rw [if_pos hi]
  · intro hi
    unfold resolveInsertIndex
    rw [if_neg (by omega)]
  intro hs k hk hkle
  obtain ⟨s2, heq, wf2, hsz, hmc, hskip, hh, ht, hlen, hval, hvals⟩ :=
    insertAt_ok wf hs v hk (by rw [← wf.size_eq]; exact hkle)
  refine ⟨s2, heq, hsz, ?_⟩
  intro a ha
  have ha2 : a = c.map (valueOf s) := by
    have := toArray_wf wf
    rw [ha] at this
    exact Option.some_inj.mp this
  subst ha2
  rw [toArray_wf wf2]
  congr 1
  have h1 : (c.take k).map (valueOf s2) = (c.take k).map (valueOf s) :=
    List.map_congr_left (fun j hj => hvals j (List.mem_of_mem_take hj))
  have h2 : (c.drop k).map (valueOf s2) = (c.drop k).map (valueOf s) :=
    List.map_congr_left (fun j hj => hvals j (List.mem_of_mem_drop hj))
  rw [List.map_append, List.map_cons, hval, h1, h2, List.map_take, List.map_drop]

/-- C7: `concat` adds the sizes, empties the donor, and the merged contents
are the host's elements followed by the donor's. -/
theorem C7_concat_spec {A B : UltimateLinkedList α} {cA cB : List Nat}
    (wfA : WFc A cA) (wfB : WFc B cB) :
    (concat A B).1.size = A.size + B.size ∧
    (concat A B).2.size = 0 ∧
    (∀ as bs, toArray A = some as → toArray B = some bs →
      toArray (concat A B).1 = some (as ++ bs)) := by
  by_cases hB : B.size = 0
  · have hcB : cB = [] := by
      have := wfB.size_eq
      rw [hB] at this
      exact List.length_eq_zero.mp this.symm
    subst hcB
    unfold concat
    rw [if_pos hB]
    refine ⟨by simp [hB], hB, ?_⟩
    intro as bs hA hB2
    have hbs : bs = [] := by
      have := toArray_wf wfB
      rw [hB2] at this
      simpa using (Option.some_inj.mp this).symm
    subst hbs
    rw [List.append_nil]
    exact hA
  · obtain ⟨wfR, hsz, hdon, hvalA, hvalB⟩ := concat_wf wfA wfB hB
    refine ⟨hsz, hdon, ?_⟩
    intro as bs hA hB2
    have has : as = cA.map (valueOf A) := by
      have := toArray_wf wfA
      rw [hA] at this
      exact Option.some_inj.mp this
    have hbs : bs = cB.map (valueOf B) := by
      have := toArray_wf wfB
      rw [hB2] at this
      exact Option.some_inj.mp this
    subst has
    subst hbs
    rw [toArray_wf wfR]
    congr 1
    rw [List.map_append]
    congr 1
    · exact List.map_congr_left (fun j hj => hvalA j hj)
    · rw [List.map_map]
      exact List.map_congr_left (fun x hx => hvalB x hx)

/-- C8 (amended): with no interleaved change to the modification counter the
native iterator yields exactly the live values in order; any change to the
counter (which every structural mutation performs, ​but `set` does not) makes
the very next step fail with the concurrent-modification error. -/
theorem C8_iteration_guard {s : UltimateLinkedList α} {c : List Nat}
    (wf : WFc s c) :
    iterRun s (c.length + 1) (iter s) = .ok (c.map (valueOf s)) ∧
    (∀ (s2 : UltimateLinkedList α) (it : ListIterator),
      it.expectedModCount = s.modCount → s2.modCount ≠ s.modCount →
      iterNext s2 it = .error "Concurrent modification during iteration") ∧
    (∀ (i : Int) (v : α), (set s i v).2.modCount = s.modCount) := by
  refine ⟨?_, ?_, fun i v => set_modCount s i v⟩
  · exact iterRun_linked wf.linked wf.tail_not_mem _ (Nat.lt_succ_self _)
  · intro s2 it he hne
    refine iterNext_modCount_mismatch s2 it ?_
    rw [he]
    exact fun hh => hne hh.symm

theorem pair_sublist_of_lt {β : Type} :
    ∀ (l : List β) (k m : Nat) (hk : k < l.length) (hm : m < l.length), k < m →
      [l.get ⟨k, hk⟩, l.get ⟨m, hm⟩].Sublist l := by
  intro l
  induction l with
  | nil =>
    intro k m hk _ _
    simp at hk
  | cons x xs ih =>
    intro k m hk hm hkm
    match k, m, hm with
    | 0, m + 1, hm =>
      refine List.Sublist.cons₂ _ ?_
      have hm2 : m < xs.length := by simpa using hm
      simp only [List.get_eq_getElem, List.getElem_cons_zero, List.getElem_cons_succ]
      exact List.singleton_sublist.mpr (List.getElem_mem hm2)
    | k + 1, m + 1, hm =>
      have hk2 : k < xs.length := by simpa using hk
      have hm2 : m < xs.length := by simpa using hm
      exact List.Sublist.cons _ (ih k m hk2 hm2 (by omega))

/-- C6 (amended): `sort` writes back exactly the merge sort of the
`(value, insertionIndex)` pairs under the comparator with ties broken by
insertion sequence number ascending.  The result is a comparator-sorted
permutation of the contents, and two elements that compare equal keep their
relative order whenever the insertion indices increase along the list (the
append-only case) — a tie is then decided by creation order, not by list
position. -/
theorem C6_sort_ties_by_insertion_order {s : UltimateLinkedList α} {c : List Nat}
    (wf : WFc s c) (hsz : ¬ s.size ≤ 1)
    (hinc : (c.map (insIdxOf s)).Pairwise (· < ·))
    (cmp : Option α → Option α → Int)
    (htrans : ∀ x y z : Option α × Nat, compareWithIndex cmp x y ≤ 0 →
      compareWithIndex cmp y z ≤ 0 → compareWithIndex cmp x z ≤ 0)
    (htot : ∀ x y : Option α × Nat,
      compareWithIndex cmp x y ≤ 0 ∨ compareWithIndex cmp y x ≤ 0) :
    toArray (sort s cmp) = some
      (((c.map (fun j => (valueOf s j, insIdxOf s j))).mergeSort
        (fun x y => compareWithIndex cmp x y ≤ 0)).map Prod.fst) ∧
    List.Perm ((c.map (fun j => (valueOf s j, insIdxOf s j))).mergeSort
        (fun x y => compareWithIndex cmp x y ≤ 0))
      (c.map (fun j => (valueOf s j, insIdxOf s j))) ∧
    ((c.map (fun j => (valueOf s j, insIdxOf s j))).mergeSort
        (fun x y => compareWithIndex cmp x y ≤ 0)).Pairwise
      (fun x y => compareWithIndex cmp x y ≤ 0) ∧
    (∀ k m : Nat, ∀ (hk : k < c.length) (hm : m < c.length), k < m →
      cmp (valueOf s (c.get ⟨k, hk⟩)) (valueOf s (c.get ⟨m, hm⟩)) = 0 →
      [(valueOf s (c.get ⟨k, hk⟩), insIdxOf s (c.get ⟨k, hk⟩)),
       (valueOf s (c.get ⟨m, hm⟩), insIdxOf s (c.get ⟨m, hm⟩))].Sublist
        ((c.map (fun j => (valueOf s j, insIdxOf s j))).mergeSort
          (fun x y => compareWithIndex cmp x y ≤ 0))) := by
  obtain ⟨wfS, hszS, hmap⟩ := sort_wf wf hsz cmp
  have btrans : ∀ x y z : Option α × Nat,
      decide (compareWithIndex cmp x y ≤ 0) = true →
      decide (compareWithIndex cmp y z ≤ 0) = true →
      decide (compareWithIndex cmp x z ≤ 0) = true := by
    intro x y z hxy hyz
    rw [decide_eq_true_eq] at *
    exact htrans x y z hxy hyz
  have btot : ∀ x y : Option α × Nat,
      (decide (compareWithIndex cmp x y ≤ 0) ||
       decide (compareWithIndex cmp y x ≤ 0)) = true := by
    intro x y
    rcases htot x y with h | h <;> simp [h]
  refine ⟨?_, List.mergeSort_perm _ _, ?_, ?_⟩
  · rw [toArray_wf wfS, hmap]
  · exact (List.sorted_mergeSort btrans btot _).imp (fun h => by simpa using h)
  · intro k m hk hm hkm htie
    have hmm : m < (c.map (fun j => (valueOf s j, insIdxOf s j))).length := by
      simpa using hm
    have hkk : k < (c.map (fun j => (valueOf s j, insIdxOf s j))).length := by
      simpa using hk
    have hsub := pair_sublist_of_lt
      (c.map (fun j => (valueOf s j, insIdxOf s j))) k m hkk hmm hkm
    rw [List.get_eq_getElem, List.get_eq_getElem, List.getElem_map, List.getElem_map] at hsub
    have hidx : insIdxOf s (c.get ⟨k, hk⟩) < insIdxOf s (c.get ⟨m, hm⟩) := by
      have := (List.pairwise_iff_getElem.mp hinc) k m (by simpa using hk)
        (by simpa using hm) hkm
      simpa [List.getElem_map] using this
    have hab : decide (compareWithIndex cmp
        (valueOf s (c.get ⟨k, hk⟩), insIdxOf s (c.get ⟨k, hk⟩))
        (valueOf s (c.get ⟨m, hm⟩), insIdxOf s (c.get ⟨m, hm⟩)) ≤ 0) = true := by
      rw [decide_eq_true_eq]
      unfold compareWithIndex
      simp only [htie, if_pos]
      omega
    exact List.pair_sublist_mergeSort btrans btot hab hsub

/-! ## Concrete executions

Small concrete lists used to demonstrate the divergences: each is an explicit
run of the definitions above. -/

/-- `UltimateLinkedList.of(10, 20, 30)` (default options). -/
def c1s : UltimateLinkedList Int := ofList [10, 20, 30]

/-- `beginTransaction(); t.begin()` on `c1s`. -/
def c1active : UltimateLinkedList Int := transactionBeginAttached (beginTransaction c1s).1

/-- `push(40)` — which internally begins and commits the attached transaction. -/
def c1pushed : UltimateLinkedList Int × Option (Transaction Int) := push c1active [40]

/-- The caller's transaction handle after `push` (already auto-committed). -/
def c1handle : Transaction Int := c1pushed.2.getD ⟨none, false, []⟩

/-- `removeAt(0)` inside what the caller believes is an open transaction. -/
def c1removed : UltimateLinkedList Int := (removeAt c1pushed.1 0).2

/-- The caller's `t.rollback()`: a no-op, because `push` deactivated `t`. -/
def c1final : UltimateLinkedList Int := (transactionRollback c1handle c1removed).2

/-- C1: `rollback()` after `begin(); push(40); removeAt(0)` does **not**
restore the begin-time contents `[10, 20, 30]`: `push` auto-commits and
deactivates the attached transaction, so the rollback is a no-op and the
mutations survive. -/
theorem C1_rollback_does_not_restore :
    toArray c1s = some [some 10, some 20, some 30] ∧
    c1handle.active = false ∧
    toArray c1final = some [some 20, some 30, some 40] ∧
    c1final.size = 3 ∧
    toArray c1final ≠ toArray c1s :=
  ⟨rfl, rfl, rfl, rfl, by decide⟩

/-- An observable one-element list with one registered listener. -/
def c2base : UltimateLinkedList Int := addChangeListener (ofListWith true true (some [1]))

/-- The same list with its attached transaction begun by the user. -/
def c2active : UltimateLinkedList Int := transactionBeginAttached (beginTransaction c2base).1

/-- `set(0, 5)` inside the transaction: its update event is buffered. -/
def c2afterSet : UltimateLinkedList Int := (set c2active 0 5).2

/-- `push(7)` inside the transaction: auto-commits, flushing the buffer. -/
def c2pushed : UltimateLinkedList Int × Option (Transaction Int) := push c2afterSet [7]

/-- `push(7)` directly inside the user's transaction. -/
def c2pushed2 : UltimateLinkedList Int × Option (Transaction Int) := push c2active [7]

/-- The user's own `commit()` after that push. -/
def c2committed : Transaction Int × UltimateLinkedList Int :=
  transactionCommit (c2pushed2.2.getD ⟨none, false, []⟩) c2pushed2.1

/-- C2: with a transaction active, a buffered `update` event reaches the
listener during a later `push` — before the caller ever calls `commit()` —
and the `add` events of the push itself are never delivered at all, not even
by the final `commit()`. -/
theorem C2_events_not_held_until_commit :
    (∃ t, c2active.transaction = some t ∧ t.active = true) ∧
    c2afterSet.delivered = [] ∧
    c2pushed.1.delivered = [(0, Event.update 0 (some 1) 5)] ∧
    toArray c2committed.2 = some [some 1, some 7] ∧
    c2committed.2.delivered = [] :=
  ⟨⟨_, rfl, rfl⟩, rfl, rfl, rfl, rfl⟩

/-- Ten elements with skip links enabled (built by the constructor, which
rebuilds the index once at the end). -/
def c3skipL : UltimateLinkedList Int :=
  ofList [0, 1, 2, 3, 4, 5, 6, 7, 8, 9]

/-- The same contents with skip links disabled. -/
def c3linL : UltimateLinkedList Int :=
  ofListWith false false (some [0, 1, 2, 3, 4, 5, 6, 7, 8, 9])

/-- `removeAt(1)` on the indexed list (below the rebuild threshold: the stale
skip annotations survive). -/
def c3skipR : UltimateLinkedList Int := (removeAt c3skipL 1).2

/-- `removeAt(1)` on the list without skip links. -/
def c3linR : UltimateLinkedList Int := (removeAt c3linL 1).2

/-- C3: after a removal that does not trigger a rebuild, the two lists hold
identical contents, yet `get(5)` returns a different value with skip links
enabled than with them disabled: the stale skip fast-forward miscounts the
traversed distance, so a stale index changes the value returned. -/
theorem C3_stale_skip_links_change_get :
    toArray c3skipR = some [some 0, some 2, some 3, some 4, some 5, some 6, some 7,
      some 8, some 9] ∧
    toArray c3linR = some [some 0, some 2, some 3, some 4, some 5, some 6, some 7,
      some 8, some 9] ∧
    get c3linR 3 = some 4 ∧
    get c3skipR 3 = some 3 ∧
    get c3skipR 3 ≠ get c3linR 3 := by
  have h1 : get c3linR 3 = some 4 := by decide
  have h2 : get c3skipR 3 = some 3 := by decide
  refine ⟨by decide, by decide, h1, h2, ?_⟩
  rw [h1, h2]
  decide

/-- `UltimateLinkedList.of(1)`. -/
def c4s : UltimateLinkedList Int := ofList [1]

/-- `of(0..9)` with skip links (index stamped at distance 3). -/
def c4d0 : UltimateLinkedList Int := ofList [0, 1, 2, 3, 4, 5, 6, 7, 8, 9]

/-- `removeAt(3)`: unlinks the node holding `3`, on which a skip pointer of
the stamped index still lands. -/
def c4d1 : UltimateLinkedList Int := (removeAt c4d0 3).2

/-- A second `removeAt(3)`: the stale skip pointer leads the seek to the
already-unlinked node, which is "removed" again. -/
def c4d2 : UltimateLinkedList Int := (removeAt c4d1 3).2

/-- Counterexample to C4 as stated: (a) a successful, observable `set` leaves
the modification counter untouched; (b) with a stale skip pointer, a second
`removeAt(3)` returns the already-removed element again and decrements the
size without unlinking a live node — the stored size drops to 8 while nine
nodes remain strictly between the sentinels, so the element-count invariant
fails after a skip-indexed `removeAt`. -/
theorem C4_set_keeps_modCount_counterexample :
    ((set c4s 0 99).1 = true ∧
     get (set c4s 0 99).2 0 = some 99 ∧
     (set c4s 0 99).2.modCount = c4s.modCount) ∧
    ((removeAt c4d0 3).1 = some 3 ∧
     (removeAt c4d1 3).1 = some 3 ∧
     toArray c4d2 = some [some 0, some 1, some 2, some 4, some 5, some 6,
       some 7, some 8, some 9] ∧
     c4d2.size = 8 ∧
     ((toArray c4d2).getD []).length = 9) :=
  ⟨⟨rfl, rfl, rfl⟩, by decide, by decide, by decide, by decide, by decide⟩

/-- `UltimateLinkedList.of(1, 2, 3)` with skip links disabled. -/
def c5s : UltimateLinkedList Int := ofListWith false false (some [1, 2, 3])

theorem c5s_wf : WFc c5s [2, 3, 4] :=
  ⟨by decide, by decide, by decide, by decide, by decide, by decide⟩

/-- Counterexample to C5 as stated: under the claimed `size + index`
resolution, `-4` on a 3-element list resolves to `-1` and must fail, but
`insertAt` resolves it as `size + index + 1 = 0` and prepends; `-1` appends
instead of inserting before the last element; and with skip links enabled a
stale skip pointer makes the in-range predecessor seek stop early, so
`insertAt(99, 4)` on the stale ten-element state splices the value at
position 3, not at the resolved position 4. -/
theorem C5_negative_insert_counterexample :
    ((c5s.size : Int) + (-4) < 0) ∧
    (insertAt c5s (99 : Int) (-4)).toOption.map toArray =
      some (some [some 99, some 1, some 2, some 3]) ∧
    (insertAt c5s (99 : Int) (-1)).toOption.map toArray =
      some (some [some 1, some 2, some 3, some 99]) ∧
    c3skipR.useSkipLinks = true ∧
    resolveInsertIndex c3skipR 4 = 4 ∧
    (insertAt c3skipR (99 : Int) 4).toOption.map toArray =
      some (some [some 0, some 2, some 3, some 99, some 4, some 5, some 6,
        some 7, some 8, some 9]) :=
  ⟨by decide, by decide, by decide, by decide, by decide, by decide⟩

/-- Witness for C5 on `c5s` with index `-4` (resolved to `0`). -/
theorem C5_insertAt_resolution_witness :
    WFc c5s [2, 3, 4] ∧
    ((((-4 : Int) < 0) → resolveInsertIndex c5s (-4) = (c5s.size : Int) + (-4) + 1) ∧
     (((0 : Int) ≤ -4) → resolveInsertIndex c5s (-4) = -4) ∧
     (resolveInsertIndex c5s (-4) < 0 ∨
        (c5s.size : Int) < resolveInsertIndex c5s (-4) →
      insertAt c5s (99 : Int) (-4) = .error "Index out of bounds") ∧
     (c5s.useSkipLinks = false →
      ∀ k : Nat, resolveInsertIndex c5s (-4) = (k : Int) → k ≤ c5s.size →
      ∃ s2, insertAt c5s (99 : Int) (-4) = .ok s2 ∧ s2.size = c5s.size + 1 ∧
        ∀ a, toArray c5s = some a →
          toArray s2 = some (a.take k ++ some 99 :: a.drop k))) :=
  ⟨c5s_wf, C5_insertAt_resolution c5s_wf 99 (-4)⟩

/-- `append (0,100)` then `prepend (0,200)`: list order `[(0,200), (0,100)]`,
creation order the opposite. -/
def c6bad : UltimateLinkedList (Int × Int) :=
  prepend (append (mkEmpty true false) ((0 : Int), (100 : Int))) ((0 : Int), (200 : Int))

/-- Counterexample to C6 as stated: a comparator that ignores the second
component compares the two elements equal, yet `sort` swaps them — ties are
broken by creation order (`insertionIndex`), not by list position, so the
relative original order of equal elements is lost. -/
theorem C6_stability_counterexample :
    toArray c6bad = some [some (0, 200), some (0, 100)] ∧
    (fun a b : Option (Int × Int) =>
      (a.getD (0, 0)).1 - (b.getD (0, 0)).1) (some (0, 200)) (some (0, 100)) = 0 ∧
    toArray (sort c6bad (fun a b => (a.getD (0, 0)).1 - (b.getD (0, 0)).1)) =
      some [some (0, 100), some (0, 200)] := by
  refine ⟨by decide, by decide, ?_⟩
  unfold sort
  rw [if_neg (by decide)]
  have hn0 : nextOf ({ c6bad with modCount := c6bad.modCount + 1 } :
      UltimateLinkedList (Int × Int))
      ({ c6bad with modCount := c6bad.modCount + 1 } :
        UltimateLinkedList (Int × Int)).head = some 3 := rfl
  simp only [hn0]
  have hcp : collectPairs ({ c6bad with modCount := c6bad.modCount + 1 } :
      UltimateLinkedList (Int × Int))
      (({ c6bad with modCount := c6bad.modCount + 1 } :
        UltimateLinkedList (Int × Int)).nodes.length + 1) 3 =
      [(some ((0 : Int), (200 : Int)), 2), (some ((0 : Int), (100 : Int)), 1)] := rfl
  rw [hcp]
  have hms : ([(some ((0 : Int), (200 : Int)), 2), (some ((0 : Int), (100 : Int)), 1)].mergeSort
      (fun x y => compareWithIndex
        (fun a b : Option (Int × Int) => (a.getD (0, 0)).1 - (b.getD (0, 0)).1) x y ≤ 0)) =
      [(some ((0 : Int), (100 : Int)), 1), (some ((0 : Int), (200 : Int)), 2)] := by
    simp [List.mergeSort, List.splitInTwo, List.splitAt, List.splitAt.go, List.merge,
      compareWithIndex]
  rw [hms]
  decide

/-- Two appended elements with distinct keys: insertion indices `1 < 2`. -/
def c6s : UltimateLinkedList Int := append (append (mkEmpty false false) 5) 3

theorem c6s_wf : WFc c6s [2, 3] :=
  ⟨by decide, by decide, by decide, by decide, by decide, by decide⟩

/-- Witness for C6 on `c6s` with the value comparator. -/
theorem C6_sort_ties_witness :
    WFc c6s [2, 3] ∧ ¬ c6s.size ≤ 1 ∧
    (([2, 3].map (insIdxOf c6s)).Pairwise (· < ·)) ∧
    (toArray (sort c6s (fun a b => a.getD 0 - b.getD 0)) = some
      ((([2, 3].map (fun j => (valueOf c6s j, insIdxOf c6s j))).mergeSort
        (fun x y => compareWithIndex (fun a b => a.getD 0 - b.getD 0) x y ≤ 0)).map Prod.fst) ∧
     List.Perm (([2, 3].map (fun j => (valueOf c6s j, insIdxOf c6s j))).mergeSort
        (fun x y => compareWithIndex (fun a b => a.getD 0 - b.getD 0) x y ≤ 0))
      ([2, 3].map (fun j => (valueOf c6s j, insIdxOf c6s j))) ∧
     (([2, 3].map (fun j => (valueOf c6s j, insIdxOf c6s j))).mergeSort
        (fun x y => compareWithIndex (fun a b => a.getD 0 - b.getD 0) x y ≤ 0)).Pairwise
      (fun x y => compareWithIndex (fun a b => a.getD 0 - b.getD 0) x y ≤ 0) ∧
     (∀ k m : Nat, ∀ (hk : k < ([2, 3] : List Nat).length)
        (hm : m < ([2, 3] : List Nat).length), k < m →
      (fun a b : Option Int => a.getD 0 - b.getD 0)
          (valueOf c6s (([2, 3] : List Nat).get ⟨k, hk⟩))
          (valueOf c6s (([2, 3] : List Nat).get ⟨m, hm⟩)) = 0 →
      [(valueOf c6s (([2, 3] : List Nat).get ⟨k, hk⟩),
          insIdxOf c6s (([2, 3] : List Nat).get ⟨k, hk⟩)),
       (valueOf c6s (([2, 3] : List Nat).get ⟨m, hm⟩),
          insIdxOf c6s (([2, 3] : List Nat).get ⟨m, hm⟩))].Sublist
        (([2, 3].map (fun j => (valueOf c6s j, insIdxOf c6s j))).mergeSort
          (fun x y => compareWithIndex (fun a b => a.getD 0 - b.getD 0) x y ≤ 0)))) :=
  ⟨c6s_wf, by decide, by decide,
    C6_sort_ties_by_insertion_order c6s_wf (by decide) (by decide)
      (fun a b => a.getD 0 - b.getD 0)
      (by
        intro x y z hxy hyz
        simp only [compareWithIndex] at *
        split_ifs at * <;> omega)
      (by
        intro x y
        simp only [compareWithIndex]
        split_ifs <;> omega)⟩

/-- `of(1, 2)` and `of(9)` for the concatenation witness. -/
def c7a : UltimateLinkedList Int := ofList [1, 2]

def c7b : UltimateLinkedList Int := ofList [9]

theorem c7a_wf : WFc c7a [2, 3] :=
  ⟨by decide, by decide, by decide, by decide, by decide, by decide⟩

theorem c7b_wf : WFc c7b [2] :=
  ⟨by decide, by decide, by decide, by decide, by decide, by decide⟩

/-- Witness for C7 on `of(1, 2)` and `of(9)`. -/
theorem C7_concat_spec_witness :
    WFc c7a [2, 3] ∧ WFc c7b [2] ∧
    ((concat c7a c7b).1.size = c7a.size + c7b.size ∧
     (concat c7a c7b).2.size = 0 ∧
     (∀ as bs, toArray c7a = some as → toArray c7b = some bs →
       toArray (concat c7a c7b).1 = some (as ++ bs))) :=
  ⟨c7a_wf, c7b_wf, C7_concat_spec c7a_wf c7b_wf⟩

/-- `of(1, 2)` again, for the iteration scenarios. -/
def c8s : UltimateLinkedList Int := ofList [1, 2]

theorem c8s_wf : WFc c8s [2, 3] :=
  ⟨by decide, by decide, by decide, by decide, by decide, by decide⟩

/-- Counterexample to C8 as stated: `set` mutates the container mid-iteration
(and succeeds), yet the next `next()` call silently yields instead of raising
the concurrent-modification fault, because `set` leaves the counter alone. -/
theorem C8_set_mid_iteration_counterexample :
    (set c8s 0 99).1 = true ∧
    get (set c8s 0 99).2 0 = some 99 ∧
    iterNext c8s (iter c8s) = .ok (some (some 1), ⟨c8s.modCount, 2⟩) ∧
    iterNext (set c8s 0 99).2 ⟨c8s.modCount, 2⟩ = .ok (some (some 2), ⟨c8s.modCount, 3⟩) :=
  ⟨rfl, rfl, rfl, rfl⟩

/-- Witness for C8 on `of(1, 2)`. -/
theorem C8_iteration_guard_witness :
    WFc c8s [2, 3] ∧
    (iterRun c8s (([2, 3] : List Nat).length + 1) (iter c8s) =
      .ok ([2, 3].map (valueOf c8s)) ∧
     (∀ (s2 : UltimateLinkedList Int) (it : ListIterator),
       it.expectedModCount = c8s.modCount → s2.modCount ≠ c8s.modCount →
       iterNext s2 it = .error "Concurrent modification during iteration") ∧
     (∀ (i : Int) (v : Int), (set c8s i v).2.modCount = c8s.modCount)) :=
  ⟨c8s_wf, C8_iteration_guard c8s_wf⟩

end ULLSpec
